import Mathlib

/-!
# Verification of `tiny_queue.c` and `vector.c`

Shallow embedding of the queue of `src/tiny_queue.c` and of the pointer vector of
`src/vector.c`, with the properties the specification states about them.  The queue
functions are embedded twice: as functions of one sequential caller, and as the step
function `step` of threads that run them concurrently.

Conventions of the embedding.

* A `void *` payload is a natural number, `NULL` being `0`.
* A pointer to a node cell is `Option Addr`: `none` is the C `NULL`, `some a` is the
  address `a`.  The node heap maps an address to the cell stored there, `none` meaning
  that no live cell is allocated at this address.
* A `tiny_queue_t *` argument is `Option tiny_queue_t`: `none` is a null handle and
  `some q` a handle whose pointee currently has the fields of `q`.  Every function
  returns the pointee as it leaves it.
* Calls to `malloc`, `free` and the pthread library are recorded, in program order, in
  the `log` of the `World`.  The result of every call whose outcome the program cannot
  determine (`malloc`, `pthread_mutex_init`, ...) is an argument of the embedded function.
* An execution that dereferences a null or dangling pointer, frees a cell that is not
  live, or indexes an array outside its allocated block yields `Outcome.ub`.
-/

/-- Result of running a piece of C code. -/
inductive Outcome (α : Type) where
  /-- undefined behaviour was reached -/
  | ub : Outcome α
  /-- the call has not returned: it is suspended in `pthread_cond_wait` with no wake-up
  left, or its loop budget is exhausted -/
  | pending : Outcome α
  /-- the call returned -/
  | ret : α → Outcome α
deriving DecidableEq, Repr

namespace TinyQueue

/-- A `void *` payload. -/
abbrev Ptr := Nat

/-- The null payload pointer. -/
def NULL : Ptr := 0

/-- Address of a node cell. -/
abbrev Addr := Nat

/-- The node cell, `struct tiny_linked_list_t` of `tiny_queue.h`. -/
structure tiny_linked_list_t where
  data : Ptr
  next : Option Addr
deriving DecidableEq, Repr

/-- The fields `head` and `tail` of `struct tiny_queue_t` of `tiny_queue.h`; the mutex and
the condition variable are represented by the calls made on them, see `Event`. -/
structure tiny_queue_t where
  head : Option Addr
  tail : Option Addr
deriving DecidableEq, Repr

/-- Library calls made by the queue functions. -/
inductive Event where
  | malloc_queue (ok : Bool)
  | malloc_node (r : Option Addr)
  | free_node (a : Addr)
  | free_queue
  | mutex_init (ok : Bool)
  | cond_init (ok : Bool)
  | mutex_lock
  | mutex_unlock
  | cond_signal
  | cond_wait
  | mutex_destroy (ok : Bool)
  | cond_destroy (ok : Bool)
deriving DecidableEq, Repr

/-- The node heap. -/
abbrev Heap := Addr → Option tiny_linked_list_t

/-- Heap `h` with the content of address `a` replaced by `v`. -/
def upd (h : Heap) (a : Addr) (v : Option tiny_linked_list_t) : Heap :=
  fun b => if b = a then v else h b

/-- Everything outside the queue object: the node heap and the calls made so far. -/
structure World where
  heap : Heap
  log : List Event

/-- What a queue function returns: its C return value, the pointee of the handle, and the
world. -/
abbrev Result (α : Type) := Outcome (α × Option tiny_queue_t × World)

/-- Embedding of `tiny_queue_create` (tiny_queue.c:9-31).  `WAKE` tells whether the build
defines `TINY_QUEUE_WAKE`; `malloc_ok`, `mutex_init_ok`, `cond_init_ok` tell whether the
corresponding library calls succeed. -/
def tiny_queue_create (WAKE malloc_ok mutex_init_ok cond_init_ok : Bool) (w : World) :
    Option tiny_queue_t × World :=
  let w1 : World := ⟨w.heap, w.log ++ [Event.malloc_queue malloc_ok]⟩
  if !malloc_ok then (none, w1)
  else
    -- queue->head = NULL; queue->tail = NULL;
    let queue : tiny_queue_t := ⟨none, none⟩
    let w2 : World := ⟨w1.heap, w1.log ++ [Event.mutex_init mutex_init_ok]⟩
    if WAKE then
      if mutex_init_ok then
        let w3 : World := ⟨w2.heap, w2.log ++ [Event.cond_init cond_init_ok]⟩
        if cond_init_ok then (some queue, w3)
        else (none, ⟨w3.heap, w3.log ++ [Event.free_queue]⟩)
      else (none, ⟨w2.heap, w2.log ++ [Event.free_queue]⟩)
    else
      if mutex_init_ok then (some queue, w2)
      else (none, ⟨w2.heap, w2.log ++ [Event.free_queue]⟩)

/-- Embedding of `tiny_queue_push` (tiny_queue.c:34-59).  `new_node` is what `malloc`
returns for the node cell. -/
def tiny_queue_push (WAKE : Bool) (queue : Option tiny_queue_t) (x : Ptr)
    (new_node : Option Addr) (w : World) : Result Int :=
  match queue with
  | none => Outcome.ret (-1, none, w)
  | some q =>
    let log1 := w.log ++ [Event.malloc_node new_node]
    match new_node with
    | none => Outcome.ret (-1, some q, ⟨w.heap, log1⟩)
    | some n =>
      -- new_node->data = x; new_node->next = NULL;
      let h1 := upd w.heap n (some ⟨x, none⟩)
      let log2 := log1 ++ [Event.mutex_lock]
      let log3 := log2 ++ [Event.mutex_unlock] ++ (if WAKE then [Event.cond_signal] else [])
      if q.head = none ∧ q.tail = none then
        Outcome.ret (0, some ⟨some n, some n⟩, ⟨h1, log3⟩)
      else
        -- queue->tail->next = new_node; queue->tail = new_node;
        match q.tail with
        | none => Outcome.ub
        | some t =>
          match h1 t with
          | none => Outcome.ub
          | some cell =>
            Outcome.ret (0, some ⟨q.head, some n⟩,
              ⟨upd h1 t (some ⟨cell.data, some n⟩), log3⟩)

/-- Lines 76-87 of `tiny_queue_pop`: unlink the head node, free it, unlock and return its
payload. -/
def pop_unlink (q : tiny_queue_t) (w : World) : Result Ptr :=
  -- struct tiny_linked_list_t* current_head = queue->head;
  match q.head with
  | none => Outcome.ub
  | some current_head =>
    -- void *data = current_head->data;
    match w.heap current_head with
    | none => Outcome.ub
    | some cell =>
      let data := cell.data
      let q1 : tiny_queue_t :=
        if q.head = q.tail then ⟨none, none⟩ else ⟨cell.next, q.tail⟩
      -- free(current_head); pthread_mutex_unlock(&queue->mutex);
      Outcome.ret (data, some q1,
        ⟨upd w.heap current_head none,
         w.log ++ [Event.free_node current_head, Event.mutex_unlock]⟩)

/-- The loop `while(queue->head == NULL) pthread_cond_wait(...)` of the `TINY_QUEUE_WAKE`
build (tiny_queue.c:66-68).  The lock is released during each wait, so when the wait
returns the queue and the heap are whatever the other threads left: the next element of
`wakeups`.  A wake-up that finds the queue empty again is a spurious one or one whose item
another consumer took. -/
def wait_loop (q : tiny_queue_t) (w : World) :
    List (tiny_queue_t × Heap) → Outcome (tiny_queue_t × World)
  | [] =>
    match q.head with
    | some _ => Outcome.ret (q, w)
    | none => Outcome.pending
  | e :: rest =>
    match q.head with
    | some _ => Outcome.ret (q, w)
    | none => wait_loop e.1 ⟨e.2, w.log ++ [Event.cond_wait]⟩ rest

/-- Embedding of `tiny_queue_pop` (tiny_queue.c:62-88).  Without `TINY_QUEUE_WAKE` the
argument `wakeups` is not used. -/
def tiny_queue_pop (WAKE : Bool) (queue : Option tiny_queue_t)
    (wakeups : List (tiny_queue_t × Heap)) (w : World) : Result Ptr :=
  match queue with
  | none => Outcome.ret (NULL, none, w)
  | some q =>
    let w1 : World := ⟨w.heap, w.log ++ [Event.mutex_lock]⟩
    if WAKE then
      match wait_loop q w1 wakeups with
      | Outcome.ub => Outcome.ub
      | Outcome.pending => Outcome.pending
      | Outcome.ret (q2, w2) => pop_unlink q2 w2
    else
      if q.head = none then
        Outcome.ret (NULL, some q, ⟨w1.heap, w1.log ++ [Event.mutex_unlock]⟩)
      else pop_unlink q w1

/-- The loop of `tiny_queue_destroy` (tiny_queue.c:105-109), entered with `node` not null.
`fuel` bounds the number of iterations. -/
def destroy_loop : Nat → Addr → World → Outcome World
  | 0, _, _ => Outcome.pending
  | fuel + 1, node, w =>
    -- node->next != NULL
    match w.heap node with
    | none => Outcome.ub
    | some cell =>
      match cell.next with
      | none => Outcome.ret w
      | some next =>
        -- next = node->next; free(node); node = next;
        destroy_loop fuel next ⟨upd w.heap node none, w.log ++ [Event.free_node node]⟩

/-- Embedding of `tiny_queue_destroy` (tiny_queue.c:91-115).  `mutex_destroy_ok` and
`cond_destroy_ok` tell whether the pthread calls return 0. -/
def tiny_queue_destroy (WAKE mutex_destroy_ok cond_destroy_ok : Bool) (fuel : Nat)
    (queue : Option tiny_queue_t) (w : World) : Result Int :=
  match queue with
  | none => Outcome.ret (-1, none, w)
  | some q =>
    let w1 : World := ⟨w.heap, w.log ++ [Event.mutex_destroy mutex_destroy_ok]⟩
    if !mutex_destroy_ok then Outcome.ret (-1, some q, w1)
    else
      let w2 : World :=
        if WAKE then ⟨w1.heap, w1.log ++ [Event.cond_destroy cond_destroy_ok]⟩ else w1
      if WAKE && !cond_destroy_ok then Outcome.ret (-1, some q, w2)
      else
        -- node = queue->head;
        match q.head with
        | none => Outcome.ret (0, none, ⟨w2.heap, w2.log ++ [Event.free_queue]⟩)
        | some node =>
          match destroy_loop fuel node w2 with
          | Outcome.ub => Outcome.ub
          | Outcome.pending => Outcome.pending
          | Outcome.ret w3 => Outcome.ret (0, none, ⟨w3.heap, w3.log ++ [Event.free_queue]⟩)

/-- Embedding of `tiny_queue_is_empty` (tiny_queue.c:116-120). -/
def tiny_queue_is_empty (queue : Option tiny_queue_t) : Int :=
  match queue with
  | none => 1
  | some q => if q.head ≠ none then 0 else 1

/-- One call made on the queue by a single-threaded client. -/
inductive Op where
  /-- call `tiny_queue_push(queue, x)`, `malloc` returning `new_node` -/
  | push (x : Ptr) (new_node : Option Addr)
  /-- call `tiny_queue_pop(queue)` -/
  | pop
deriving DecidableEq, Repr

/-- What one call returned.  For a pop, `item` tells whether the call was made while
`tiny_queue_is_empty` reported the queue as not empty, that is whether the pointer
returned is the payload of a cell and not the `NULL` of an empty queue. -/
inductive Ret where
  | push_ret (r : Int)
  | pop_ret (p : Ptr) (item : Bool)
deriving DecidableEq, Repr

/-- Run the calls `ops` one after the other on a valid handle, no other thread touching
the queue, and collect what they return. -/
def run (WAKE : Bool) : List Op → tiny_queue_t → World →
    Outcome (List Ret × tiny_queue_t × World)
  | [], q, w => Outcome.ret ([], q, w)
  | Op.push x new_node :: ops, q, w =>
    match tiny_queue_push WAKE (some q) x new_node w with
    | Outcome.ret (r, some q1, w1) =>
      match run WAKE ops q1 w1 with
      | Outcome.ret (rs, q2, w2) => Outcome.ret (Ret.push_ret r :: rs, q2, w2)
      | Outcome.pending => Outcome.pending
      | Outcome.ub => Outcome.ub
    | Outcome.ret (_, none, _) => Outcome.ub
    | Outcome.pending => Outcome.pending
    | Outcome.ub => Outcome.ub
  | Op.pop :: ops, q, w =>
    match tiny_queue_pop WAKE (some q) [] w with
    | Outcome.ret (p, some q1, w1) =>
      match run WAKE ops q1 w1 with
      | Outcome.ret (rs, q2, w2) =>
        Outcome.ret (Ret.pop_ret p (decide (tiny_queue_is_empty (some q) = 0)) :: rs, q2, w2)
      | Outcome.pending => Outcome.pending
      | Outcome.ub => Outcome.ub
    | Outcome.ret (_, none, _) => Outcome.ub
    | Outcome.pending => Outcome.pending
    | Outcome.ub => Outcome.ub

/-- The cells `l`, each an address with the payload stored there, are linked through
`next` in this order starting from pointer `p`, the last one having a null `next`. -/
def chain (h : Heap) : Option Addr → List (Addr × Ptr) → Prop
  | p, [] => p = none
  | p, c :: rest => p = some c.1 ∧ ∃ nx, h c.1 = some ⟨c.2, nx⟩ ∧ chain h nx rest

/-- The queue `q` is well formed in heap `h` and holds exactly the cells `l`, first to
last: following `next` from `head` visits the cells of `l`, each once, and ends at `tail`;
`head` and `tail` are null exactly when `l` is empty. -/
def Rep (q : tiny_queue_t) (h : Heap) (l : List (Addr × Ptr)) : Prop :=
  chain h q.head l ∧ (l.map Prod.fst).Nodup ∧ q.tail = (l.map Prod.fst).getLast?

/-- The calls that push the payloads of `cells` in order, `malloc` returning for each the
address paired with it. -/
def pushes (cells : List (Addr × Ptr)) : List Op :=
  cells.map (fun c => Op.push c.2 (some c.1))

/-- The payloads pushed by the calls `ops`, in order. -/
def pushed : List Op → List Ptr
  | [] => []
  | Op.push x _ :: ops => x :: pushed ops
  | Op.pop :: ops => pushed ops

/-- The payloads that the pops of a run handed out, in order. -/
def items : List Ret → List Ptr
  | [] => []
  | Ret.push_ret _ :: rs => items rs
  | Ret.pop_ret p true :: rs => p :: items rs
  | Ret.pop_ret _ false :: rs => items rs

/-- Every push of the run `ops` started from queue `q` in world `w` is a successful one:
`malloc` returns a cell for it, at an address that holds no live cell at that time. -/
def mallocs_fresh (WAKE : Bool) : List Op → tiny_queue_t → World → Prop
  | [], _, _ => True
  | Op.push x new_node :: ops, q, w =>
    (∃ n, new_node = some n ∧ w.heap n = none) ∧
      match tiny_queue_push WAKE (some q) x new_node w with
      | Outcome.ret (_, some q1, w1) => mallocs_fresh WAKE ops q1 w1
      | _ => True
  | Op.pop :: ops, q, w =>
    match tiny_queue_pop WAKE (some q) [] w with
    | Outcome.ret (_, some q1, w1) => mallocs_fresh WAKE ops q1 w1
    | _ => True

/-! ## Concurrent calls

Several threads call `tiny_queue_push` and `tiny_queue_pop` on the same queue, each thread
making one call with a valid handle.  An execution is an interleaving of the steps of the
threads over a sequentially consistent memory.  A step is a mutex operation, or the
statements of the source lines named at the program point `PC` the thread is at; the
steps that read or write the queue fields or a linked cell are those between the lock
and the unlock of the call.  `pthread_mutex_lock` can be taken only while no thread holds
the mutex; `pthread_cond_wait` releases the mutex and returns, holding it again, at any
later time the mutex is free, so that wake-ups by `pthread_cond_signal` and spurious
wake-ups are both covered. -/

/-- Thread identifier. -/
abbrev Tid := Nat

/-- Where a thread is in its call. -/
inductive PC where
  /-- about to execute `pthread_mutex_lock` in `tiny_queue_pop` (line 64) -/
  | idle_pop
  /-- holds the mutex, about to test `queue->head == NULL` (line 66 or 70) -/
  | pop_locked
  /-- `TINY_QUEUE_WAKE`: suspended in `pthread_cond_wait` (line 67), mutex released -/
  | pop_waiting
  /-- no `TINY_QUEUE_WAKE`: found `head` null, about to unlock and return `NULL`
  (lines 71-72) -/
  | pop_empty
  /-- found `head` not null, about to read `current_head = queue->head` (line 76) -/
  | pop_tested
  /-- about to read `data = current_head->data` (line 77) -/
  | pop_head (current_head : Option Addr)
  /-- about to update `head` and `tail` (lines 78-83) -/
  | pop_data (current_head : Addr) (data : Ptr)
  /-- about to execute `free(current_head)` (line 84) -/
  | pop_unlinked (current_head : Addr) (data : Ptr)
  /-- about to unlock and return `data` (lines 85-87) -/
  | pop_freed (data : Ptr)
  /-- `tiny_queue_pop` returned `r`; `item` tells whether it unlinked a cell -/
  | pop_ret (r : Ptr) (item : Bool)
  /-- about to allocate and fill the node in `tiny_queue_push(queue, x)` (lines 36-43) -/
  | idle_push (x : Ptr)
  /-- about to execute `pthread_mutex_lock` (line 45) -/
  | push_init (x : Ptr) (new_node : Addr)
  /-- holds the mutex, about to link the node (lines 46-51) -/
  | push_locked (x : Ptr) (new_node : Addr)
  /-- about to unlock, signal and return 0 (lines 52-58) -/
  | push_linked
  /-- `tiny_queue_push` returned `r` -/
  | push_ret (r : Int)
deriving DecidableEq, Repr

/-- State of the queue and of the threads.  `linked` and `delivered` are history
variables: the payloads of the cells in the order they were linked into the queue (those
it held at the start first), and the call and payload of each cell in the order the cells
were unlinked. -/
structure Sys where
  q : tiny_queue_t
  heap : Heap
  mutex : Option Tid
  pc : Tid → PC
  ub : Bool
  linked : List Ptr
  delivered : List (Tid × Ptr)

/-- Program counters `pc` with the one of thread `t` replaced by `p`. -/
def setpc (pc : Tid → PC) (t : Tid) (p : PC) : Tid → PC :=
  fun u => if u = t then p else pc u

/-- One step of thread `t`; `none` when the thread cannot move, being blocked on the mutex
or having returned.  `malloc` is what the allocator returns if the step is the allocation
of a node. -/
def step (WAKE : Bool) (t : Tid) (malloc : Option Addr) (s : Sys) : Option Sys :=
  match s.pc t with
  | PC.idle_pop =>
    match s.mutex with
    | none => some { s with mutex := some t, pc := setpc s.pc t PC.pop_locked }
    | some _ => none
  | PC.pop_locked =>
    match s.q.head with
    | none =>
      if WAKE then some { s with mutex := none, pc := setpc s.pc t PC.pop_waiting }
      else some { s with pc := setpc s.pc t PC.pop_empty }
    | some _ => some { s with pc := setpc s.pc t PC.pop_tested }
  | PC.pop_waiting =>
    match s.mutex with
    | none => some { s with mutex := some t, pc := setpc s.pc t PC.pop_locked }
    | some _ => none
  | PC.pop_empty =>
    some { s with mutex := none, pc := setpc s.pc t (PC.pop_ret NULL false) }
  | PC.pop_tested => some { s with pc := setpc s.pc t (PC.pop_head s.q.head) }
  | PC.pop_head current_head =>
    match current_head with
    | none => some { s with ub := true }
    | some a =>
      match s.heap a with
      | none => some { s with ub := true }
      | some cell => some { s with pc := setpc s.pc t (PC.pop_data a cell.data) }
  | PC.pop_data a data =>
    if s.q.head = s.q.tail then
      some { s with q := ⟨none, none⟩, pc := setpc s.pc t (PC.pop_unlinked a data),
                    delivered := s.delivered ++ [(t, data)] }
    else
      match s.q.head with
      | none => some { s with ub := true }
      | some h =>
        match s.heap h with
        | none => some { s with ub := true }
        | some cell =>
          some { s with q := ⟨cell.next, s.q.tail⟩,
                        pc := setpc s.pc t (PC.pop_unlinked a data),
                        delivered := s.delivered ++ [(t, data)] }
  | PC.pop_unlinked a data =>
    match s.heap a with
    | none => some { s with ub := true }
    | some _ => some { s with heap := upd s.heap a none, pc := setpc s.pc t (PC.pop_freed data) }
  | PC.pop_freed data =>
    some { s with mutex := none, pc := setpc s.pc t (PC.pop_ret data true) }
  | PC.pop_ret _ _ => none
  | PC.idle_push x =>
    match malloc with
    | none => some { s with pc := setpc s.pc t (PC.push_ret (-1)) }
    | some n =>
      some { s with heap := upd s.heap n (some ⟨x, none⟩), pc := setpc s.pc t (PC.push_init x n) }
  | PC.push_init x n =>
    match s.mutex with
    | none => some { s with mutex := some t, pc := setpc s.pc t (PC.push_locked x n) }
    | some _ => none
  | PC.push_locked x n =>
    if s.q.head = none ∧ s.q.tail = none then
      some { s with q := ⟨some n, some n⟩, pc := setpc s.pc t PC.push_linked,
                    linked := s.linked ++ [x] }
    else
      match s.q.tail with
      | none => some { s with ub := true }
      | some tl =>
        match s.heap tl with
        | none => some { s with ub := true }
        | some cell =>
          some { s with heap := upd s.heap tl (some ⟨cell.data, some n⟩),
                        q := ⟨s.q.head, some n⟩, pc := setpc s.pc t PC.push_linked,
                        linked := s.linked ++ [x] }
  | PC.push_linked => some { s with mutex := none, pc := setpc s.pc t (PC.push_ret 0) }
  | PC.push_ret _ => none

/-- The state after one entry of a schedule: the step of the scheduled thread if it can
move, the same state otherwise. -/
def step_or_stay (WAKE : Bool) (e : Tid × Option Addr) (s : Sys) : Sys :=
  match step WAKE e.1 e.2 s with
  | none => s
  | some s1 => s1

/-- The state reached by a schedule: the list of the threads that are given a step, each
with the answer of `malloc` should the step be an allocation. -/
def exec (WAKE : Bool) : List (Tid × Option Addr) → Sys → Sys
  | [], s => s
  | e :: rest, s => exec WAKE rest (step_or_stay WAKE e s)

/-- Along the schedule every allocation returns null or an address that holds no live
cell at that time. -/
def sched_fresh (WAKE : Bool) : List (Tid × Option Addr) → Sys → Prop
  | [], _ => True
  | e :: rest, s =>
    (∀ x n, s.pc e.1 = PC.idle_push x → e.2 = some n → s.heap n = none) ∧
      sched_fresh WAKE rest (step_or_stay WAKE e s)

/-- The threads start before their calls, on a well-formed queue holding the cells `l0`
with no thread holding the mutex. -/
def initial (s : Sys) (l0 : List (Addr × Ptr)) : Prop :=
  Rep s.q s.heap l0 ∧ s.mutex = none ∧ s.ub = false ∧
    s.linked = l0.map Prod.snd ∧ s.delivered = [] ∧
    ∀ t, s.pc t = PC.idle_pop ∨ ∃ x, s.pc t = PC.idle_push x

/-- The program points at which a thread holds the mutex. -/
def holds : PC → Bool
  | PC.pop_locked | PC.pop_empty | PC.pop_tested | PC.pop_head _ | PC.pop_data _ _
  | PC.pop_unlinked _ _ | PC.pop_freed _ | PC.push_locked _ _ | PC.push_linked => true
  | _ => false

/-- The program points of a thread that has unlinked a cell with payload `d`. -/
def has_unlinked (d : Ptr) : PC → Bool
  | PC.pop_unlinked _ d1 => d1 = d
  | PC.pop_freed d1 => d1 = d
  | PC.pop_ret d1 true => d1 = d
  | _ => false

/-- The program points of a thread that has unlinked no cell. -/
def unlinked_none : PC → Bool
  | PC.pop_unlinked _ _ | PC.pop_freed _ | PC.pop_ret _ true => false
  | _ => true

/-- The node a pushing thread has allocated and not linked yet. -/
def private_cell : PC → Option (Ptr × Addr)
  | PC.push_init x n => some (x, n)
  | PC.push_locked x n => some (x, n)
  | _ => none

/-- The invariant of concurrent executions, `l` being the cells linked in the queue. -/
structure Inv (s : Sys) (l : List (Addr × Ptr)) : Prop where
  no_ub : s.ub = false
  rep : Rep s.q s.heap l
  hist : s.delivered.map Prod.snd ++ l.map Prod.snd = s.linked
  calls_nodup : (s.delivered.map Prod.fst).Nodup
  owner : ∀ t, holds (s.pc t) = true ↔ s.mutex = some t
  head : ∀ t p, s.pc t = PC.pop_head p → p = s.q.head ∧ p ≠ none
  tested : ∀ t, s.pc t = PC.pop_tested → s.q.head ≠ none
  data : ∀ t a d, s.pc t = PC.pop_data a d → ∃ rest, l = (a, d) :: rest
  unlinked : ∀ t a d, s.pc t = PC.pop_unlinked a d → s.heap a ≠ none ∧ a ∉ l.map Prod.fst
  priv : ∀ t x n, private_cell (s.pc t) = some (x, n) →
    s.heap n = some ⟨x, none⟩ ∧ n ∉ l.map Prod.fst
  priv_distinct : ∀ t u x n y, t ≠ u → private_cell (s.pc t) = some (x, n) →
    private_cell (s.pc u) ≠ some (y, n)
  priv_unlinked : ∀ t u x n d, private_cell (s.pc t) = some (x, n) →
    s.pc u ≠ PC.pop_unlinked n d
  undelivered : ∀ t, unlinked_none (s.pc t) = true → t ∉ s.delivered.map Prod.fst
  has_delivered : ∀ t d, has_unlinked d (s.pc t) = true → (t, d) ∈ s.delivered

/-- An example of a starting state: the queue holds cells 1 and 2 with payloads 10 and 20,
and every thread is about to call `tiny_queue_pop`. -/
def two_cells : Sys :=
  ⟨⟨some 1, some 2⟩,
   fun a => if a = 1 then some ⟨10, some 2⟩ else if a = 2 then some ⟨20, none⟩ else none,
   none, fun _ => PC.idle_pop, false, [10, 20], []⟩

/-- An example of a schedule of threads 0 and 1, thread 1 trying to take the mutex while
thread 0 is inside its call. -/
def two_pops : List (Tid × Option Addr) :=
  [(0, none), (1, none), (0, none), (0, none), (0, none), (1, none), (0, none), (0, none),
   (0, none), (1, none), (1, none), (1, none), (1, none), (1, none), (1, none), (1, none)]

end TinyQueue

namespace Vec

/-! ## The pointer vector of `vector.c`

`size_t` is taken 64 bits wide and `sizeof(void*)` to be 8.  The block `data_array` points
to is the list of its cells, the empty list standing for `NULL` as well; reading or writing
a cell outside the block is undefined behaviour. -/

/-- A `void *` element. -/
abbrev Ptr := Nat

/-- `SIZE_MAX + 1` for a 64-bit `size_t`. -/
def SIZE_MOD : Nat := 2 ^ 64

/-- Reduction of a value to `size_t`. -/
def wrap (n : Nat) : Nat := n % SIZE_MOD

/-- `PTRDIFF_MAX`: no allocated block is larger. -/
def PTRDIFF_MAX : Nat := 2 ^ 63 - 1

/-- `sizeof(void*)`. -/
def sizeof_ptr : Nat := 8

/-- `INIT_SIZE` of vector.h:44. -/
def INIT_SIZE : Nat := 2

/-- `GROWTH_RATE` of vector.h:45. -/
def GROWTH_RATE : Nat := 2

/-- `NPOS` of vector.h:46, `(size_t)-1`. -/
def NPOS : Nat := SIZE_MOD - 1

/-- The record `struct vector` of vector.c:16-20. -/
structure vector where
  data_array : List Ptr
  size : Nat
  capacity : Nat
deriving DecidableEq, Repr

/-- Read of `block[i]`; `none` outside the block. -/
def load (block : List Ptr) (i : Nat) : Option Ptr := block[i]?

/-- Write `block[i] = x`; `none` outside the block. -/
def store (block : List Ptr) (i : Nat) (x : Ptr) : Option (List Ptr) :=
  if i < block.length then some (block.set i x) else none

/-- The call `realloc(block, bytes)`.  `ok` tells whether the allocator grants the request
and `junk i` is the indeterminate content of a cell `i` the old block did not have.  A
request above `PTRDIFF_MAX` is never granted.  A request of 0 bytes is left undefined, as
the comment of vector.h:134-135 has it.  The result is `none` for a null return, the old
block being untouched, and the new block otherwise. -/
def realloc (ok : Bool) (junk : Nat → Ptr) (block : List Ptr) (bytes : Nat) :
    Outcome (Option (List Ptr)) :=
  if bytes = 0 then Outcome.ub
  else if ok && decide (bytes ≤ PTRDIFF_MAX) then
    Outcome.ret (some ((List.range (bytes / sizeof_ptr)).map (fun i => block.getD i (junk i))))
  else Outcome.ret none

/-- The call `memset(block + first, 0, bytes)` on a block of pointer cells, `bytes` being a
multiple of the cell size. -/
def memset_null (block : List Ptr) (first bytes : Nat) : Option (List Ptr) :=
  let cells := bytes / sizeof_ptr
  if first + cells ≤ block.length then
    some (block.take first ++ List.replicate cells 0 ++ block.drop (first + cells))
  else none

/-- Embedding of `vector_new` (vector.c:23-32), `malloc_ok` telling whether the allocation
succeeds. -/
def vector_new (malloc_ok : Bool) : Option vector :=
  if malloc_ok then some ⟨[], 0, 0⟩ else none

/-- Lines 91-110 of `vector_resize`: reallocate to `new_size` cells and null the new area. -/
def resize_realloc (ok : Bool) (junk : Nat → Ptr) (v : vector) (new_size : Nat) :
    Outcome (Bool × Option vector) :=
  match realloc ok junk v.data_array (wrap (new_size * sizeof_ptr)) with
  | Outcome.ub => Outcome.ub
  | Outcome.pending => Outcome.pending
  | Outcome.ret none => Outcome.ret (false, some v)
  | Outcome.ret (some tmp_ptr) =>
    -- size_t new_area_size = (new_size - vec->size) * sizeof(void*);
    let new_area_size := wrap (wrap (new_size + SIZE_MOD - v.size) * sizeof_ptr)
    match memset_null tmp_ptr v.size new_area_size with
    | none => Outcome.ub
    | some block => Outcome.ret (true, some ⟨block, v.size, new_size⟩)

/-- Embedding of `vector_resize` (vector.c:64-111).  `ok` and `junk` describe the `realloc`
call, see `realloc`. -/
def vector_resize (ok : Bool) (junk : Nat → Ptr) (vec : Option vector) (num : Nat) :
    Outcome (Bool × Option vector) :=
  match vec with
  | none => Outcome.ret (false, none)
  | some v =>
    if num ≠ NPOS then
      if v.capacity > num then
        Outcome.ret (true, some ⟨v.data_array, if v.size > num then num else v.size, num⟩)
      else resize_realloc ok junk v num
    else if v.size = v.capacity then
      resize_realloc ok junk v
        (if v.capacity = 0 then INIT_SIZE else wrap (v.capacity * GROWTH_RATE))
    else Outcome.ret (true, some v)

/-- The loop `for (i = vec->size; i > pos; i--) data_array[i] = data_array[i-1]` of
`vector_insert` (vector.c:163-165).  The first argument `k` is `i - pos`, the number of
iterations left. -/
def insert_loop (pos : Nat) : Nat → List Ptr → Option (List Ptr)
  | 0, block => some block
  | k + 1, block =>
    match load block (pos + k) with
    | none => none
    | some x =>
      match store block (pos + k + 1) x with
      | none => none
      | some block1 => insert_loop pos k block1

/-- Embedding of `vector_insert` (vector.c:156-171). -/
def vector_insert (ok : Bool) (junk : Nat → Ptr) (vec : Option vector) (pos : Nat)
    (data : Ptr) : Outcome (Bool × Option vector) :=
  match vec with
  | none => Outcome.ret (false, none)
  | some v =>
    if pos = NPOS ∨ pos > v.size then Outcome.ret (false, some v)
    else
      match vector_resize ok junk (some v) NPOS with
      | Outcome.ub => Outcome.ub
      | Outcome.pending => Outcome.pending
      | Outcome.ret (_, none) => Outcome.ub
      | Outcome.ret (false, some v1) => Outcome.ret (false, some v1)
      | Outcome.ret (true, some v1) =>
        match insert_loop pos (v1.size - pos) v1.data_array with
        | none => Outcome.ub
        | some block =>
          match store block pos data with
          | none => Outcome.ub
          | some block1 => Outcome.ret (true, some ⟨block1, wrap (v1.size + 1), v1.capacity⟩)

/-- The loop `for (i = pos; i < vec->size; i++) data_array[i] = data_array[i+1]` of
`vector_erase` (vector.c:180-182).  The first argument is `vec->size - i`, the number of
iterations left, the second is `i`. -/
def erase_loop : Nat → Nat → List Ptr → Option (List Ptr)
  | 0, _, block => some block
  | k + 1, i, block =>
    match load block (i + 1) with
    | none => none
    | some x =>
      match store block i x with
      | none => none
      | some block1 => erase_loop k (i + 1) block1

/-- Embedding of `vector_erase` (vector.c:174-187). -/
def vector_erase (vec : Option vector) (pos : Nat) : Outcome (Bool × Option vector) :=
  match vec with
  | none => Outcome.ret (false, none)
  | some v =>
    if pos = NPOS ∨ pos ≥ v.size then Outcome.ret (false, some v)
    else
      match erase_loop (v.size - pos) pos v.data_array with
      | none => Outcome.ub
      | some block => Outcome.ret (true, some ⟨block, v.size - 1, v.capacity⟩)

/-- Embedding of `vector_end` (vector.c:52-55). -/
def vector_end (vec : Option vector) : Nat :=
  match vec with
  | none => NPOS
  | some v => if v.size > 0 then v.size - 1 else NPOS

/-- Embedding of `vector_back` (vector.c:132-135). -/
def vector_back (vec : Option vector) : Outcome Ptr :=
  match vec with
  | none => Outcome.ret 0
  | some v =>
    if v.size > 0 then
      match load v.data_array (v.size - 1) with
      | none => Outcome.ub
      | some x => Outcome.ret x
    else Outcome.ret 0

/-- Embedding of `vector_at` (vector.c:138-141). -/
def vector_at (vec : Option vector) (pos : Nat) : Outcome Ptr :=
  match vec with
  | none => Outcome.ret 0
  | some v =>
    if v.size > 0 ∧ pos < v.size then
      match load v.data_array pos with
      | none => Outcome.ub
      | some x => Outcome.ret x
    else Outcome.ret 0

/-- Embedding of `vector_push_back` (vector.c:144-147); `vector_end(vec) + 1` is computed
in `size_t`. -/
def vector_push_back (ok : Bool) (junk : Nat → Ptr) (vec : Option vector) (data : Ptr) :
    Outcome (Bool × Option vector) :=
  vector_insert ok junk vec (wrap (vector_end vec + 1)) data

/-- The elements a vector holds: the first `size` cells of its block. -/
def elems (v : vector) : List Ptr := v.data_array.take v.size

/-- Well-formed vector: the elements fit the capacity, the capacity fits the allocated
block, and the block is no larger than an allocation can be. -/
def wf (v : vector) : Prop :=
  v.size ≤ v.capacity ∧ v.capacity ≤ v.data_array.length ∧
    v.data_array.length * sizeof_ptr ≤ PTRDIFF_MAX

end Vec

namespace Strbuf

/-! ## The string buffer of `strbuf.c`

A `char` is a natural number, its value as `unsigned char`, 0 being the terminating NUL.
The block `alloc` points to is the list of its bytes; `data` points into this block and is
kept as its offset from `alloc`.  A `const char *` argument is `Option (List Byte)`:
`none` is a null pointer and `some bytes` points to the bytes of the list followed by a
NUL.  `size_t` is taken 64 bits wide.  Reading or writing outside a block is undefined
behaviour. -/

/-- A `char`. -/
abbrev Byte := Nat

/-- `SIZE_MAX + 1` for a 64-bit `size_t`. -/
def SIZE_MOD : Nat := 2 ^ 64

/-- Reduction of a value to `size_t`. -/
def wrap (n : Nat) : Nat := n % SIZE_MOD

/-- `PTRDIFF_MAX`: no allocated block is larger. -/
def PTRDIFF_MAX : Nat := 2 ^ 63 - 1

/-- The record `strbuf_t` of strbuf.h:25-29. -/
structure strbuf_t where
  len : Nat
  alloc : List Byte
  data : Nat
deriving DecidableEq, Repr

/-- The macro `nearest_multiple_of(a, b)` of strbuf.c:22-23, `(b + (a - 1)) & ~(a - 1)`,
computed in `size_t`. -/
def nearest_multiple_of (a b : Nat) : Nat :=
  Nat.land (wrap (b + (a - 1))) (SIZE_MOD - 1 - (a - 1))

/-- The characters of the C string that starts with `bytes`: those before the first
NUL. -/
def cstr (bytes : List Byte) : List Byte := bytes.takeWhile (fun c => decide (c ≠ 0))

/-- The C string that starts at offset `off` of `block`; `none` when no NUL follows inside
the block. -/
def cstring_at (block : List Byte) (off : Nat) : Option (List Byte) :=
  if 0 ∈ block.drop off then some (cstr (block.drop off)) else none

/-- The call `strlen(block + off)`. -/
def strlen_at (block : List Byte) (off : Nat) : Option Nat :=
  (cstring_at block off).map List.length

/-- The call `strncat(block + off, src, n)`: at most `n` characters of the string `src`
are written behind the string at `off`, then a NUL; `none` when the string at `off` is not
terminated or the writes leave the block. -/
def strncat (block : List Byte) (off : Nat) (src : List Byte) (n : Nat) :
    Option (List Byte) :=
  match strlen_at block off with
  | none => none
  | some prev =>
    let chars := (cstr src).take n
    let first := off + prev
    if first + chars.length < block.length then
      some (block.take first ++ chars ++ [0] ++ block.drop (first + chars.length + 1))
    else none

/-- Write `block[i] = x`; `none` outside the block. -/
def store (block : List Byte) (i : Nat) (x : Byte) : Option (List Byte) :=
  if i < block.length then some (block.set i x) else none

/-- The call `realloc(block, bytes)`: `none` for a null return, the old block being
untouched, and otherwise a block of `bytes` bytes that starts with the old ones, `junk i`
being the indeterminate content of a byte the old block did not have.  `ok` tells whether
the allocator grants the request; a request above `PTRDIFF_MAX` is never granted. -/
def realloc (ok : Bool) (junk : Nat → Byte) (block : List Byte) (bytes : Nat) :
    Option (List Byte) :=
  if ok && decide (bytes ≤ PTRDIFF_MAX) then
    some ((List.range bytes).map (fun i => block.getD i (junk i)))
  else none

/-- Embedding of `strbuf_new_with_size` (strbuf.c:37-45); `malloc_ok` and `calloc_ok` tell
whether the two allocations succeed. -/
def strbuf_new_with_size (malloc_ok calloc_ok : Bool) (n : Nat) : Option strbuf_t :=
  if !malloc_ok then none
  else if calloc_ok && decide (wrap (n + 1) ≤ PTRDIFF_MAX) then
    some ⟨n, List.replicate (wrap (n + 1)) 0, 0⟩
  else none

/-- Embedding of `strbuf_new_with_string_length` (strbuf.c:60-70), `str` not null. -/
def strbuf_new_with_string_length (malloc_ok calloc_ok : Bool) (str : List Byte)
    (len : Nat) : Outcome (Option strbuf_t) :=
  if len = 0 then Outcome.ret none
  else
    match strbuf_new_with_size malloc_ok calloc_ok len with
    | none => Outcome.ret none
    | some self =>
      -- memcpy(self->alloc, str, len)
      if len ≤ (str ++ [0]).length ∧ len ≤ self.alloc.length then
        Outcome.ret (some ⟨self.len, (str ++ [0]).take len ++ self.alloc.drop len, self.data⟩)
      else Outcome.ub

/-- Embedding of `strbuf_new_with_string` (strbuf.c:51-54). -/
def strbuf_new_with_string (malloc_ok calloc_ok : Bool) (str : Option (List Byte)) :
    Outcome (Option strbuf_t) :=
  match str with
  | none => Outcome.ret none
  | some bytes => strbuf_new_with_string_length malloc_ok calloc_ok bytes (cstr bytes).length

/-- The macro `strbuf_string(self)` of strbuf.h:77, read as a C string: the string the
buffer holds. -/
def strbuf_string (self : strbuf_t) : Outcome (List Byte) :=
  match cstring_at self.alloc self.data with
  | none => Outcome.ub
  | some s => Outcome.ret s

/-- Embedding of `strbuf_resize` (strbuf.c:141-151). -/
def strbuf_resize (ok : Bool) (junk : Nat → Byte) (self : Option strbuf_t) (n : Nat) :
    Outcome (Int × Option strbuf_t) :=
  let len := nearest_multiple_of 1024 n
  match self with
  | none => Outcome.ret (-1, none)
  | some b =>
    match realloc ok junk b.alloc (wrap (len + 1)) with
    | none => Outcome.ret (-1, some b)
    | some tmp =>
      -- self->len = len; self->alloc = self->data = tmp; self->alloc[len] = 0;
      match store tmp len 0 with
      | none => Outcome.ub
      | some tmp1 => Outcome.ret (0, some ⟨len, tmp1, 0⟩)

/-- Embedding of `strbuf_append_n` (strbuf.c:201-216). -/
def strbuf_append_n (ok : Bool) (junk : Nat → Byte) (self : Option strbuf_t)
    (str : Option (List Byte)) (len : Nat) : Outcome (Int × Option strbuf_t) :=
  match self, str with
  | none, _ => Outcome.ret (-1, none)
  | some b, none => Outcome.ret (-1, some b)
  | some b, some src =>
    if len = 0 then Outcome.ret (-1, some b)
    else
      -- prev = strlen(self->data); needed = len + prev;
      match strlen_at b.alloc b.data with
      | none => Outcome.ub
      | some prev =>
        let needed := wrap (len + prev)
        if b.len > needed then
          match strncat b.alloc b.data src len with
          | none => Outcome.ub
          | some block => Outcome.ret (0, some ⟨b.len, block, b.data⟩)
        else
          match strbuf_resize ok junk (some b) needed with
          | Outcome.ub => Outcome.ub
          | Outcome.pending => Outcome.pending
          | Outcome.ret (_, none) => Outcome.ub
          | Outcome.ret (r, some b1) =>
            if r = -1 then Outcome.ret (-1, some b1)
            else
              match strncat b1.alloc b1.data src len with
              | none => Outcome.ub
              | some block => Outcome.ret (0, some ⟨b1.len, block, b1.data⟩)

/-- Embedding of `strbuf_append` (strbuf.c:193-195): `strlen(str)` is evaluated before the
call of `strbuf_append_n`, hence before any null check. -/
def strbuf_append (ok : Bool) (junk : Nat → Byte) (self : Option strbuf_t)
    (str : Option (List Byte)) : Outcome (Int × Option strbuf_t) :=
  match str with
  | none => Outcome.ub
  | some bytes => strbuf_append_n ok junk self str (cstr bytes).length

/-- The function `isspace` in the C locale. -/
def isspace (c : Nat) : Bool := decide (c = 32 ∨ (9 ≤ c ∧ c ≤ 13))

/-- Embedding of `is_delim` (strbuf.c:292-295); `strchr` also finds the terminating
NUL. -/
def is_delim (ch : Nat) (chars : Option (List Byte)) : Bool :=
  match chars with
  | none => isspace ch
  | some bytes =>
    if (cstr bytes).length = 0 then isspace ch else decide (ch ∈ cstr bytes ∨ ch = 0)

/-- The loop of `strbuf_ltrim` (strbuf.c:304-306) over the bytes from `data` on: the
offset `data` has when the loop ends. -/
def ltrim_scan (chars : Option (List Byte)) : List Byte → Nat → Outcome Nat
  | [], _ => Outcome.ub
  | c :: rest, off =>
    if c ≠ 0 ∧ is_delim c chars = true then ltrim_scan chars rest (off + 1)
    else Outcome.ret off

/-- Embedding of `strbuf_ltrim` (strbuf.c:301-307). -/
def strbuf_ltrim (self : Option strbuf_t) (chars : Option (List Byte)) :
    Outcome (Option strbuf_t) :=
  match self with
  | none => Outcome.ret none
  | some b =>
    match ltrim_scan chars (b.alloc.drop b.data) b.data with
    | Outcome.ub => Outcome.ub
    | Outcome.pending => Outcome.pending
    | Outcome.ret off => Outcome.ret (some ⟨b.len, b.alloc, off⟩)

end Strbuf

namespace TinyQueue

/-! ## The linked chain -/

theorem upd_same (h : Heap) (a : Addr) (v : Option tiny_linked_list_t) : upd h a v a = v := by
  simp [upd]

theorem upd_other (h : Heap) (a b : Addr) (v : Option tiny_linked_list_t) (hne : b ≠ a) :
    upd h a v b = h b := by
  simp [upd, hne]

/-- A chain only depends on the cells it visits. -/
theorem chain_congr (h h' : Heap) (l : List (Addr × Ptr)) :
    ∀ p : Option Addr, (∀ c ∈ l, h' c.1 = h c.1) → chain h p l → chain h' p l := by
  induction l with
  | nil => intro p _ hc; exact hc
  | cons c rest ih =>
    intro p hagree hc
    obtain ⟨hp, nx, hcell, hrest⟩ := hc
    refine ⟨hp, nx, ?_, ih nx (fun d hd => hagree d (List.mem_cons_of_mem _ hd)) hrest⟩
    rw [hagree c (List.mem_cons_self _ _)]; exact hcell

/-- Every cell of a chain is live. -/
theorem chain_live (h : Heap) (l : List (Addr × Ptr)) :
    ∀ p : Option Addr, chain h p l → ∀ c ∈ l, h c.1 ≠ none := by
  induction l with
  | nil => intro p _ c hc; cases hc
  | cons c rest ih =>
    intro p hc d hd
    obtain ⟨_, nx, hcell, hrest⟩ := hc
    rcases List.mem_cons.mp hd with rfl | hd
    · rw [hcell]; simp
    · exact ih nx hrest d hd

/-- An address that holds no live cell is not on the chain. -/
theorem not_mem_of_fresh (h : Heap) (l : List (Addr × Ptr)) (p : Option Addr)
    (hc : chain h p l) (n : Addr) (hn : h n = none) : n ∉ l.map Prod.fst := by
  intro hmem
  obtain ⟨c, hc1, hc2⟩ := List.mem_map.mp hmem
  exact chain_live h l p hc c hc1 (hc2 ▸ hn)

/-- Linking a new cell `n` behind the last cell `t` of a non-empty chain. -/
theorem chain_snoc (h : Heap) (n : Addr) (x : Ptr) (t : Addr) (l : List (Addr × Ptr)) :
    ∀ p : Option Addr, chain h p l → (l.map Prod.fst).getLast? = some t →
      n ∉ l.map Prod.fst → (l.map Prod.fst).Nodup →
      ∃ cell, h t = some cell ∧
        chain (upd (upd h n (some ⟨x, none⟩)) t (some ⟨cell.data, some n⟩)) p (l ++ [(n, x)]) := by
  induction l with
  | nil => intro p _ hlast; simp at hlast
  | cons c rest ih =>
    intro p hc hlast hn hnd
    obtain ⟨hp, nx, hcell, hrest⟩ := hc
    have hcn : c.1 ≠ n := by
      intro e; apply hn; simp [e]
    cases rest with
    | nil =>
      have ht : c.1 = t := by simpa using hlast
      have hnx : nx = none := hrest
      subst hnx
      refine ⟨⟨c.2, none⟩, by rw [← ht]; exact hcell, ?_⟩
      refine ⟨hp, some n, by rw [← ht]; simp [upd], ?_⟩
      refine ⟨rfl, none, ?_, rfl⟩
      have hnt : n ≠ t := by rw [← ht]; exact fun e => hcn e.symm
      simp [upd, hnt]
    | cons c2 r2 =>
      have hlast2 : ((c2 :: r2).map Prod.fst).getLast? = some t := by
        simpa [List.getLast?_cons_cons] using hlast
      have hn2 : n ∉ (c2 :: r2).map Prod.fst := by
        intro hm; apply hn; simp only [List.map_cons, List.mem_cons] at hm ⊢
        exact Or.inr hm
      have hnd2 : ((c2 :: r2).map Prod.fst).Nodup := (List.nodup_cons.mp hnd).2
      have htmem : t ∈ (c2 :: r2).map Prod.fst := List.mem_of_getLast?_eq_some hlast2
      have hct : c.1 ≠ t := by
        intro e
        exact (List.nodup_cons.mp hnd).1 (e ▸ htmem)
      obtain ⟨cell, hcellt, hch⟩ := ih nx hrest hlast2 hn2 hnd2
      refine ⟨cell, hcellt, hp, nx, ?_, hch⟩
      simp [upd, hct, hcn, hcell]

/-! ## One push, one pop -/

/-- In a well-formed queue `head` is null exactly when the queue holds no cell. -/
theorem rep_head_none_iff (q : tiny_queue_t) (h : Heap) (l : List (Addr × Ptr))
    (hrep : Rep q h l) : q.head = none ↔ l = [] := by
  cases l with
  | nil => exact ⟨fun _ => rfl, fun _ => hrep.1⟩
  | cons c rest =>
    obtain ⟨⟨hp, _⟩, _, _⟩ := hrep
    simp [hp]

/-- In a well-formed queue `tail` is null exactly when the queue holds no cell. -/
theorem rep_tail_none_iff (q : tiny_queue_t) (h : Heap) (l : List (Addr × Ptr))
    (hrep : Rep q h l) : q.tail = none ↔ l = [] := by
  obtain ⟨_, _, ht⟩ := hrep
  rw [ht]
  cases l with
  | nil => simp
  | cons c rest => simp [List.getLast?_eq_none_iff]

/-- A push on a well-formed queue, `malloc` returning the unused address `n`, succeeds and
links the new cell behind the others. -/
theorem push_rep (WAKE : Bool) (q : tiny_queue_t) (w : World) (l : List (Addr × Ptr))
    (x : Ptr) (n : Addr) (hrep : Rep q w.heap l) (hn : w.heap n = none) :
    ∃ q1 w1, tiny_queue_push WAKE (some q) x (some n) w = Outcome.ret (0, some q1, w1) ∧
      Rep q1 w1.heap (l ++ [(n, x)]) ∧
      (∀ b, b ≠ n → b ∉ l.map Prod.fst → w1.heap b = w.heap b) ∧
      w1.log = w.log ++ [Event.malloc_node (some n), Event.mutex_lock, Event.mutex_unlock]
        ++ (if WAKE then [Event.cond_signal] else []) := by
  have hfresh := not_mem_of_fresh w.heap l q.head hrep.1 n hn
  cases l with
  | nil =>
    have hh : q.head = none := hrep.1
    have ht : q.tail = none := by simpa using hrep.2.2
    refine ⟨⟨some n, some n⟩, ⟨upd w.heap n (some ⟨x, none⟩),
      w.log ++ [Event.malloc_node (some n)] ++ [Event.mutex_lock] ++ [Event.mutex_unlock]
        ++ (if WAKE then [Event.cond_signal] else [])⟩, ?_, ?_, ?_, ?_⟩
    · simp only [tiny_queue_push, hh, ht, and_self, if_true]
    · exact ⟨⟨rfl, none, by simp [upd], rfl⟩, by simp, by simp⟩
    · intro b hb _; simp [upd, hb]
    · simp
  | cons c rest =>
    obtain ⟨hch, hnd, htail⟩ := hrep
    have hh : q.head = some c.1 := hch.1
    obtain ⟨t, hlast⟩ : ∃ t, ((c :: rest).map Prod.fst).getLast? = some t := by
      cases hl : ((c :: rest).map Prod.fst).getLast? with
      | none => simp [List.getLast?_eq_none_iff] at hl
      | some t => exact ⟨t, rfl⟩
    have htq : q.tail = some t := by rw [htail, hlast]
    obtain ⟨cell, hcell, hsn⟩ := chain_snoc w.heap n x t (c :: rest) q.head hch hlast hfresh hnd
    have htn : t ≠ n := by
      intro e; rw [e] at hcell; rw [hn] at hcell; cases hcell
    have htmem : t ∈ (c :: rest).map Prod.fst := List.mem_of_getLast?_eq_some hlast
    refine ⟨⟨q.head, some n⟩,
      ⟨upd (upd w.heap n (some ⟨x, none⟩)) t (some ⟨cell.data, some n⟩),
      w.log ++ [Event.malloc_node (some n)] ++ [Event.mutex_lock] ++ [Event.mutex_unlock]
        ++ (if WAKE then [Event.cond_signal] else [])⟩, ?_, ?_, ?_, ?_⟩
    · simp only [tiny_queue_push, hh, htq, upd_other _ _ _ _ htn, hcell]
      simp
    · refine ⟨hsn, ?_, ?_⟩
      · rw [List.map_append, List.nodup_append]
        refine ⟨hnd, by simp, ?_⟩
        intro a ha hb
        simp only [List.map_cons, List.map_nil, List.mem_singleton] at hb
        exact hfresh (hb ▸ ha)
      · show some n = (List.map Prod.fst ((c :: rest) ++ [(n, x)])).getLast?
        rw [List.map_append, List.getLast?_append]; simp
    · intro b hb hbl
      have hbt : b ≠ t := fun e => hbl (e ▸ htmem)
      simp [upd, hb, hbt]
    · simp

/-- A pop on a well-formed queue that holds at least one cell returns the payload of the
first cell, frees that cell and leaves the others. -/
theorem pop_rep (WAKE : Bool) (q : tiny_queue_t) (w : World) (c : Addr × Ptr)
    (rest : List (Addr × Ptr)) (wakeups : List (tiny_queue_t × Heap))
    (hrep : Rep q w.heap (c :: rest)) :
    ∃ q1 w1, tiny_queue_pop WAKE (some q) wakeups w = Outcome.ret (c.2, some q1, w1) ∧
      Rep q1 w1.heap rest ∧ w1.heap = upd w.heap c.1 none ∧
      w1.log = w.log ++ [Event.mutex_lock, Event.free_node c.1, Event.mutex_unlock] := by
  obtain ⟨⟨hh, nx, hcell, hrest⟩, hnd, htail⟩ := hrep
  have hc_notin : c.1 ∉ rest.map Prod.fst := (List.nodup_cons.mp hnd).1
  have hwait : wait_loop q ⟨w.heap, w.log ++ [Event.mutex_lock]⟩ wakeups
      = Outcome.ret (q, ⟨w.heap, w.log ++ [Event.mutex_lock]⟩) := by
    cases wakeups <;> simp [wait_loop, hh]
  have hrest2 : chain (upd w.heap c.1 none) nx rest := by
    refine chain_congr w.heap _ rest nx ?_ hrest
    intro d hd
    have : d.1 ≠ c.1 := fun e => hc_notin (e ▸ List.mem_map_of_mem Prod.fst hd)
    simp [upd, this]
  cases rest with
  | nil =>
    have ht : q.tail = some c.1 := by simpa using htail
    have hnx : nx = none := hrest
    refine ⟨⟨none, none⟩, ⟨upd w.heap c.1 none,
      w.log ++ [Event.mutex_lock] ++ [Event.free_node c.1, Event.mutex_unlock]⟩,
      ?_, ⟨rfl, by simp, by simp⟩, rfl, ?_⟩
    · cases WAKE <;> simp [tiny_queue_pop, hwait, pop_unlink, hh, ht, hcell]
    · simp
  | cons c2 r2 =>
    have hne : q.head ≠ q.tail := by
      rw [hh, htail]
      have hlast : ((c :: c2 :: r2).map Prod.fst).getLast? = ((c2 :: r2).map Prod.fst).getLast? := by
        simp [List.getLast?_cons_cons]
      rw [hlast]
      intro e
      exact hc_notin (List.mem_of_getLast?_eq_some e.symm)
    refine ⟨⟨nx, q.tail⟩, ⟨upd w.heap c.1 none,
      w.log ++ [Event.mutex_lock] ++ [Event.free_node c.1, Event.mutex_unlock]⟩,
      ?_, ⟨hrest2, (List.nodup_cons.mp hnd).2, ?_⟩, rfl, ?_⟩
    · cases WAKE <;> simp [tiny_queue_pop, hwait, pop_unlink, hh, hcell] <;>
        simp [← hh, hne]
    · rw [htail]; simp [List.getLast?_cons_cons]
    · simp

/-- A non-blocking pop on a queue whose `head` is null returns `NULL` and changes neither
the queue nor the heap. -/
theorem pop_empty (q : tiny_queue_t) (w : World) (wakeups : List (tiny_queue_t × Heap))
    (hh : q.head = none) :
    tiny_queue_pop false (some q) wakeups w
      = Outcome.ret (NULL, some q, ⟨w.heap, w.log ++ [Event.mutex_lock, Event.mutex_unlock]⟩) := by
  simp [tiny_queue_pop, hh]

/-! ## Sequences of calls -/

theorem run_append (WAKE : Bool) (ops1 ops2 : List Op) :
    ∀ (q : tiny_queue_t) (w : World) (rs1 rs2 : List Ret) (q1 q2 : tiny_queue_t) (w1 w2 : World),
      run WAKE ops1 q w = Outcome.ret (rs1, q1, w1) →
      run WAKE ops2 q1 w1 = Outcome.ret (rs2, q2, w2) →
      run WAKE (ops1 ++ ops2) q w = Outcome.ret (rs1 ++ rs2, q2, w2) := by
  induction ops1 with
  | nil =>
    intro q w rs1 rs2 q1 q2 w1 w2 h1 h2
    simp only [run, Outcome.ret.injEq, Prod.mk.injEq] at h1
    obtain ⟨rfl, rfl, rfl⟩ := h1
    simpa using h2
  | cons op ops ih =>
    intro q w rs1 rs2 q1 q2 w1 w2 h1 h2
    cases op with
    | push x m =>
      simp only [List.cons_append, run] at h1 ⊢
      split at h1
      · rename_i r qa wa heq
        split at h1
        · rename_i rs qb wb heq2
          simp only [Outcome.ret.injEq, Prod.mk.injEq] at h1
          obtain ⟨rfl, rfl, rfl⟩ := h1
          have hih := ih qa wa rs rs2 qb q2 wb w2 heq2 h2
          show (match run WAKE (ops ++ ops2) qa wa with
            | Outcome.ret (rs, q2, w2) => Outcome.ret (_ :: rs, q2, w2)
            | Outcome.pending => Outcome.pending
            | Outcome.ub => Outcome.ub) = _
          rw [hih]
          simp
        · cases h1
        · cases h1
      · cases h1
      · cases h1
      · cases h1
    | pop =>
      simp only [List.cons_append, run] at h1 ⊢
      split at h1
      · rename_i r qa wa heq
        split at h1
        · rename_i rs qb wb heq2
          simp only [Outcome.ret.injEq, Prod.mk.injEq] at h1
          obtain ⟨rfl, rfl, rfl⟩ := h1
          have hih := ih qa wa rs rs2 qb q2 wb w2 heq2 h2
          show (match run WAKE (ops ++ ops2) qa wa with
            | Outcome.ret (rs, q2, w2) => Outcome.ret (_ :: rs, q2, w2)
            | Outcome.pending => Outcome.pending
            | Outcome.ub => Outcome.ub) = _
          rw [hih]
          simp
        · cases h1
        · cases h1
      · cases h1
      · cases h1
      · cases h1

/-- Pushing `cells` on a well-formed queue holding `l`: every push returns 0 and the queue
then holds `l ++ cells`. -/
theorem run_pushes (WAKE : Bool) (cells : List (Addr × Ptr)) :
    ∀ (q : tiny_queue_t) (w : World) (l : List (Addr × Ptr)), Rep q w.heap l →
      (∀ c ∈ cells, w.heap c.1 = none) → (cells.map Prod.fst).Nodup →
      ∃ q1 w1, run WAKE (pushes cells) q w
          = Outcome.ret (cells.map (fun _ => Ret.push_ret 0), q1, w1) ∧
        Rep q1 w1.heap (l ++ cells) := by
  induction cells with
  | nil =>
    intro q w l hrep _ _
    exact ⟨q, w, rfl, by simpa using hrep⟩
  | cons c rest ih =>
    intro q w l hrep hfresh hnd
    obtain ⟨qa, wa, hpush, hrepa, hframe, _⟩ :=
      push_rep WAKE q w l c.2 c.1 hrep (hfresh c (List.mem_cons_self _ _))
    have hfresh2 : ∀ d ∈ rest, wa.heap d.1 = none := by
      intro d hd
      have hdw := hfresh d (List.mem_cons_of_mem _ hd)
      have hdc : d.1 ≠ c.1 := by
        intro e
        exact (List.nodup_cons.mp hnd).1 (e ▸ List.mem_map_of_mem Prod.fst hd)
      rw [hframe d.1 hdc (not_mem_of_fresh w.heap l q.head hrep.1 d.1 hdw)]
      exact hdw
    obtain ⟨qb, wb, hrun, hrepb⟩ := ih qa wa (l ++ [c]) hrepa hfresh2 (List.nodup_cons.mp hnd).2
    refine ⟨qb, wb, ?_, by simpa using hrepb⟩
    simp only [pushes, List.map_cons, run, hpush]
    simp only [pushes] at hrun
    rw [hrun]

/-- Popping as many times as a well-formed queue holds cells returns the payloads first to
last and empties the queue. -/
theorem run_pops (WAKE : Bool) (l : List (Addr × Ptr)) :
    ∀ (q : tiny_queue_t) (w : World), Rep q w.heap l →
      ∃ w1, run WAKE (List.replicate l.length Op.pop) q w
          = Outcome.ret (l.map (fun c => Ret.pop_ret c.2 true), ⟨none, none⟩, w1) ∧
        Rep ⟨none, none⟩ w1.heap [] := by
  induction l with
  | nil =>
    intro q w hrep
    have hh : q.head = none := hrep.1
    have ht : q.tail = none := by simpa using hrep.2.2
    have hq : q = ⟨none, none⟩ := by cases q; simp_all
    subst hq
    exact ⟨w, rfl, hrep⟩
  | cons c rest ih =>
    intro q w hrep
    obtain ⟨qa, wa, hpop, hrepa, _, _⟩ := pop_rep WAKE q w c rest [] hrep
    obtain ⟨wb, hrun, hrepb⟩ := ih qa wa hrepa
    refine ⟨wb, ?_, hrepb⟩
    have hh : q.head = some c.1 := hrep.1.1
    simp [List.replicate_succ, run, hpop, hrun, tiny_queue_is_empty, hh]

/-- Repeated non-blocking pops on a queue with a null `head` all return `NULL` and leave
queue and heap as they are. -/
theorem run_pops_empty (k : Nat) :
    ∀ (q : tiny_queue_t) (w : World), q.head = none →
      ∃ w1, run false (List.replicate k Op.pop) q w
          = Outcome.ret (List.replicate k (Ret.pop_ret NULL false), q, w1) ∧
        w1.heap = w.heap ∧
        w1.log = w.log ++ (List.replicate k [Event.mutex_lock, Event.mutex_unlock]).flatten := by
  induction k with
  | zero => intro q w _; exact ⟨w, rfl, rfl, by simp⟩
  | succ k ih =>
    intro q w hh
    obtain ⟨w1, hrun, hheap, hlog⟩ :=
      ih q ⟨w.heap, w.log ++ [Event.mutex_lock, Event.mutex_unlock]⟩ hh
    refine ⟨w1, ?_, hheap, ?_⟩
    · simp [List.replicate_succ, run, pop_empty q w [] hh, hrun, tiny_queue_is_empty, hh]
    · rw [hlog]; simp [List.replicate_succ]

/-- A created queue is well formed and holds no cell. -/
theorem create_rep (WAKE : Bool) (w0 : World) :
    ∃ w1, tiny_queue_create WAKE true true true w0 = (some ⟨none, none⟩, w1) ∧
      w1.heap = w0.heap ∧ Rep ⟨none, none⟩ w1.heap [] := by
  cases WAKE
  · exact ⟨_, rfl, rfl, rfl, by simp, rfl⟩
  · exact ⟨_, rfl, rfl, rfl, by simp, rfl⟩

theorem items_append (a b : List Ret) : items (a ++ b) = items a ++ items b := by
  induction a with
  | nil => rfl
  | cons r rs ih =>
    cases r with
    | push_ret r => simpa [items] using ih
    | pop_ret p item => cases item <;> simpa [items] using ih

theorem items_delivering (l : List (Addr × Ptr)) :
    items (l.map (fun c => Ret.pop_ret c.2 true)) = l.map Prod.snd := by
  induction l with
  | nil => rfl
  | cons c rest ih => simp [items, ih]

theorem items_empty_pops (k : Nat) : items (List.replicate k (Ret.pop_ret NULL false)) = [] := by
  induction k with
  | zero => rfl
  | succ k ih => simp [List.replicate_succ, items, ih]

/-- The condition `mallocs_fresh` of a run holds of each of its initial parts. -/
theorem mallocs_fresh_take (WAKE : Bool) (ops : List Op) :
    ∀ (i : Nat) (q : tiny_queue_t) (w : World),
      mallocs_fresh WAKE ops q w → mallocs_fresh WAKE (ops.take i) q w := by
  induction ops with
  | nil => intro i q w h; simpa using h
  | cons op ops ih =>
    intro i q w h
    cases i with
    | zero => simp [mallocs_fresh]
    | succ i =>
      cases op with
      | push x m =>
        simp only [List.take_succ_cons, mallocs_fresh] at h ⊢
        refine ⟨h.1, ?_⟩
        have h2 := h.2
        split
        · rename_i r q1 w1 heq
          rw [heq] at h2
          exact ih i q1 w1 h2
        · trivial
      | pop =>
        simp only [List.take_succ_cons, mallocs_fresh] at h ⊢
        split
        · rename_i r q1 w1 heq
          rw [heq] at h
          exact ih i q1 w1 h
        · trivial

/-- Conservation along a run without `TINY_QUEUE_WAKE`: the run returns, the queue stays
well formed, and the payloads held before followed by the payloads pushed are the
payloads handed out by the pops followed by the payloads still held. -/
theorem run_conserves (ops : List Op) :
    ∀ (q : tiny_queue_t) (w : World) (l : List (Addr × Ptr)), Rep q w.heap l →
      mallocs_fresh false ops q w →
      ∃ rs q1 w1 l1, run false ops q w = Outcome.ret (rs, q1, w1) ∧ Rep q1 w1.heap l1 ∧
        l.map Prod.snd ++ pushed ops = items rs ++ l1.map Prod.snd := by
  induction ops with
  | nil =>
    intro q w l hrep _
    exact ⟨[], q, w, l, rfl, hrep, by simp [pushed, items]⟩
  | cons op ops ih =>
    intro q w l hrep hfresh
    cases op with
    | push x m =>
      obtain ⟨⟨n, rfl, hn⟩, hrest⟩ := hfresh
      obtain ⟨qa, wa, hpush, hrepa, _, _⟩ := push_rep false q w l x n hrep hn
      rw [hpush] at hrest
      obtain ⟨rs, q1, w1, l1, hrun, hrep1, heq⟩ := ih qa wa (l ++ [(n, x)]) hrepa hrest
      refine ⟨Ret.push_ret 0 :: rs, q1, w1, l1, ?_, hrep1, ?_⟩
      · simp only [run, hpush, hrun]
      · simpa [pushed, items] using heq
    | pop =>
      cases l with
      | nil =>
        have hh : q.head = none := hrep.1
        have hpop := pop_empty q w [] hh
        simp only [mallocs_fresh, hpop] at hfresh
        obtain ⟨rs, q1, w1, l1, hrun, hrep1, heq⟩ :=
          ih q ⟨w.heap, w.log ++ [Event.mutex_lock, Event.mutex_unlock]⟩ [] hrep hfresh
        refine ⟨Ret.pop_ret NULL false :: rs, q1, w1, l1, ?_, hrep1, ?_⟩
        · simp [run, hpop, hrun, tiny_queue_is_empty, hh]
        · simpa [pushed, items] using heq
      | cons c rest =>
        obtain ⟨qa, wa, hpop, hrepa, _, _⟩ := pop_rep false q w c rest [] hrep
        simp only [mallocs_fresh, hpop] at hfresh
        obtain ⟨rs, q1, w1, l1, hrun, hrep1, heq⟩ := ih qa wa rest hrepa hfresh
        have hh : q.head = some c.1 := hrep.1.1
        refine ⟨Ret.pop_ret c.2 true :: rs, q1, w1, l1, ?_, hrep1, ?_⟩
        · simp [run, hpop, hrun, tiny_queue_is_empty, hh]
        · simp only [List.map_cons, List.cons_append, pushed, items, heq]

/-! ## Destroying the queue -/

/-- The loop of `tiny_queue_destroy`, started on the first cell of a chain, returns
after freeing every cell but the last one, which stays live. -/
theorem destroy_loop_spec (l : List (Addr × Ptr)) :
    ∀ (c : Addr × Ptr) (fuel : Nat) (w : World), chain w.heap (some c.1) (c :: l) →
      ((c :: l).map Prod.fst).Nodup → l.length < fuel →
      ∃ w1, destroy_loop fuel c.1 w = Outcome.ret w1 ∧
        w1.log = w.log ++ (c :: l).dropLast.map (fun d => Event.free_node d.1) ∧
        (∀ d, (c :: l).getLast? = some d → w1.heap d.1 = some ⟨d.2, none⟩) := by
  induction l with
  | nil =>
    intro c fuel w hch _ hfuel
    obtain ⟨_, nx, hcell, hnx⟩ := hch
    have hnx2 : nx = none := hnx
    subst hnx2
    obtain ⟨f, rfl⟩ : ∃ f, fuel = f + 1 := ⟨fuel - 1, by omega⟩
    refine ⟨w, by simp [destroy_loop, hcell], by simp, ?_⟩
    intro d hd
    simp only [List.getLast?_singleton, Option.some.injEq] at hd
    subst hd; exact hcell
  | cons c2 r ih =>
    intro c fuel w hch hnd hfuel
    obtain ⟨_, nx, hcell, hrest⟩ := hch
    have hnx : nx = some c2.1 := hrest.1
    subst hnx
    obtain ⟨f, rfl⟩ : ∃ f, fuel = f + 1 := ⟨fuel - 1, by omega⟩
    have hnotin : c.1 ∉ (c2 :: r).map Prod.fst := (List.nodup_cons.mp hnd).1
    have hch2 : chain (upd w.heap c.1 none) (some c2.1) (c2 :: r) := by
      refine chain_congr w.heap _ (c2 :: r) _ ?_ hrest
      intro d hd
      have : d.1 ≠ c.1 := fun e => hnotin (e ▸ List.mem_map_of_mem Prod.fst hd)
      simp [upd, this]
    obtain ⟨w1, hloop, hlog, hlast⟩ :=
      ih c2 f ⟨upd w.heap c.1 none, w.log ++ [Event.free_node c.1]⟩ hch2
        (List.nodup_cons.mp hnd).2 (by simp only [List.length_cons] at hfuel; omega)
    refine ⟨w1, by simp [destroy_loop, hcell, hloop], ?_, ?_⟩
    · rw [hlog]; simp [List.dropLast]
    · intro d hd
      exact hlast d (by simpa [List.getLast?_cons_cons] using hd)

/-- A successful `tiny_queue_destroy` on a well-formed queue that holds the cells
`l ++ [c]` frees the cells of `l`, then the queue object, and never frees the last cell
`c`, which is still live when the function returns. -/
theorem destroy_leaves_last_cell (WAKE : Bool) (q : tiny_queue_t) (w : World)
    (l : List (Addr × Ptr)) (c : Addr × Ptr) (fuel : Nat)
    (hrep : Rep q w.heap (l ++ [c])) (hfuel : l.length < fuel) :
    ∃ w1, tiny_queue_destroy WAKE true true fuel (some q) w = Outcome.ret (0, none, w1) ∧
      w1.log = w.log ++ [Event.mutex_destroy true]
        ++ (if WAKE then [Event.cond_destroy true] else [])
        ++ l.map (fun d => Event.free_node d.1) ++ [Event.free_queue] ∧
      w1.heap c.1 = some ⟨c.2, none⟩ := by
  obtain ⟨hch, hnd, _⟩ := hrep
  cases hl : l ++ [c] with
  | nil => simp at hl
  | cons c0 l0 =>
    rw [hl] at hch hnd
    have hh : q.head = some c0.1 := hch.1
    rw [hh] at hch
    have hlen : l0.length < fuel := by
      have := congrArg List.length hl
      simp only [List.length_append, List.length_cons, List.length_nil] at this
      omega
    have hdrop : (c0 :: l0).dropLast = l := by rw [← hl]; simp
    have hlastc : (c0 :: l0).getLast? = some c := by rw [← hl]; simp
    cases WAKE
    · obtain ⟨w1, hloop, hlog, hlast⟩ :=
        destroy_loop_spec l0 c0 fuel ⟨w.heap, w.log ++ [Event.mutex_destroy true]⟩ hch hnd hlen
      refine ⟨⟨w1.heap, w1.log ++ [Event.free_queue]⟩, ?_, ?_, hlast c hlastc⟩
      · simp [tiny_queue_destroy, hh, hloop]
      · simp only [hlog, hdrop]; simp
    · obtain ⟨w1, hloop, hlog, hlast⟩ :=
        destroy_loop_spec l0 c0 fuel
          ⟨w.heap, w.log ++ [Event.mutex_destroy true] ++ [Event.cond_destroy true]⟩ hch hnd hlen
      refine ⟨⟨w1.heap, w1.log ++ [Event.free_queue]⟩, ?_, ?_, hlast c hlastc⟩
      · simp only [List.append_assoc, List.singleton_append] at hloop
        simp [tiny_queue_destroy, hh, hloop]
      · simp only [hlog, hdrop]; simp

/-! ## The waiting loop of the blocking pop -/

/-- The waiting loop either stays suspended, every state it observed having a null
`head`, or leaves at the first observed state whose `head` is not null, after one
`pthread_cond_wait` per state observed before. -/
theorem wait_loop_cases (wakeups : List (tiny_queue_t × Heap)) :
    ∀ (q : tiny_queue_t) (w : World),
      (wait_loop q w wakeups = Outcome.pending ∧
        ∀ s ∈ (q, w.heap) :: wakeups, s.1.head = none) ∨
      (∃ pre e post, (q, w.heap) :: wakeups = pre ++ e :: post ∧
        (∀ s ∈ pre, s.1.head = none) ∧ e.1.head ≠ none ∧
        wait_loop q w wakeups
          = Outcome.ret (e.1, ⟨e.2, w.log ++ List.replicate pre.length Event.cond_wait⟩)) := by
  induction wakeups with
  | nil =>
    intro q w
    cases hh : q.head with
    | none => left; simp [wait_loop, hh]
    | some a =>
      right
      exact ⟨[], (q, w.heap), [], rfl, by simp, by simp [hh], by simp [wait_loop, hh]⟩
  | cons e rest ih =>
    intro q w
    cases hh : q.head with
    | some a =>
      right
      exact ⟨[], (q, w.heap), e :: rest, rfl, by simp, by simp [hh], by simp [wait_loop, hh]⟩
    | none =>
      rcases ih e.1 ⟨e.2, w.log ++ [Event.cond_wait]⟩ with ⟨hp, hall⟩ | ⟨pre, e2, post, hsplit, hpre, hne, hw⟩
      · left
        refine ⟨by simp [wait_loop, hh, hp], ?_⟩
        intro s hs
        rcases List.mem_cons.mp hs with rfl | hs
        · exact hh
        · exact hall s hs
      · right
        refine ⟨(q, w.heap) :: pre, e2, post, by rw [List.cons_append, ← hsplit], ?_, hne, ?_⟩
        · intro s hs
          rcases List.mem_cons.mp hs with rfl | hs
          · exact hh
          · exact hpre s hs
        · simp only [wait_loop, hh, hw, List.length_cons, List.replicate_succ]
          simp

/-- The waiting loop leaves at the first observed state whose `head` is not null. -/
theorem wait_loop_of_split (pre : List (tiny_queue_t × Heap)) :
    ∀ (q : tiny_queue_t) (w : World) (wakeups : List (tiny_queue_t × Heap))
      (e : tiny_queue_t × Heap) (post : List (tiny_queue_t × Heap)),
      (q, w.heap) :: wakeups = pre ++ e :: post → (∀ s ∈ pre, s.1.head = none) →
      e.1.head ≠ none →
      wait_loop q w wakeups
        = Outcome.ret (e.1, ⟨e.2, w.log ++ List.replicate pre.length Event.cond_wait⟩) := by
  induction pre with
  | nil =>
    intro q w wakeups e post hsplit _ hne
    simp only [List.nil_append, List.cons.injEq] at hsplit
    obtain ⟨rfl, _⟩ := hsplit
    cases hh : q.head with
    | none => exact absurd hh hne
    | some a => cases wakeups <;> simp [wait_loop, hh]
  | cons s pre ih =>
    intro q w wakeups e post hsplit hpre hne
    simp only [List.cons_append, List.cons.injEq] at hsplit
    obtain ⟨rfl, hrest⟩ := hsplit
    have hh : q.head = none := hpre (q, w.heap) (List.mem_cons_self _ _)
    cases wakeups with
    | nil => cases pre <;> simp at hrest
    | cons e1 rest =>
      have h1 := ih e1.1 ⟨e1.2, w.log ++ [Event.cond_wait]⟩ rest e post hrest
        (fun s hs => hpre s (List.mem_cons_of_mem _ hs)) hne
      simp only [wait_loop, hh, h1, List.length_cons, List.replicate_succ]
      simp

/-- Unlinking never leaves the call suspended. -/
theorem pop_unlink_ne_pending (q : tiny_queue_t) (w : World) :
    pop_unlink q w ≠ Outcome.pending := by
  unfold pop_unlink
  cases q.head with
  | none => simp
  | some a => cases hc : w.heap a <;> simp [hc]

/-! ## Concurrent calls: the invariant -/

theorem setpc_same (pc : Tid → PC) (t : Tid) (p : PC) : setpc pc t p t = p := by
  simp [setpc]

theorem setpc_other (pc : Tid → PC) (t u : Tid) (p : PC) (h : u ≠ t) :
    setpc pc t p u = pc u := by
  simp [setpc, h]

theorem upd_self (h : Heap) (a : Addr) (v : Option tiny_linked_list_t) (hv : h a = v) :
    upd h a v = h := by
  funext b
  by_cases hb : b = a
  · subst hb; simp [upd, hv]
  · simp [upd, hb]

/-- Unlinking the first cell of a well-formed queue (lines 78-83 of `tiny_queue_pop`). -/
theorem unlink_rep (q : tiny_queue_t) (h : Heap) (a : Addr) (d : Ptr)
    (rest : List (Addr × Ptr)) (hrep : Rep q h ((a, d) :: rest)) :
    ∃ cell, q.head = some a ∧ h a = some cell ∧ a ∉ rest.map Prod.fst ∧
      (q.head = q.tail → Rep ⟨none, none⟩ h rest) ∧
      (q.head ≠ q.tail → Rep ⟨cell.next, q.tail⟩ h rest) := by
  obtain ⟨⟨hh, nx, hcell, hrest⟩, hnd, htail⟩ := hrep
  have hnotin : a ∉ rest.map Prod.fst := (List.nodup_cons.mp hnd).1
  refine ⟨⟨d, nx⟩, hh, hcell, hnotin, ?_, ?_⟩
  · intro heq
    cases rest with
    | nil => exact ⟨rfl, by simp, rfl⟩
    | cons c2 r2 =>
      exfalso
      rw [hh, htail] at heq
      have hlast : (((a, d) :: c2 :: r2).map Prod.fst).getLast?
          = ((c2 :: r2).map Prod.fst).getLast? := by
        simp [List.getLast?_cons_cons]
      rw [hlast] at heq
      exact hnotin (List.mem_of_getLast?_eq_some heq.symm)
  · intro hne
    cases rest with
    | nil =>
      exfalso; apply hne; rw [hh, htail]; simp
    | cons c2 r2 =>
      refine ⟨hrest, (List.nodup_cons.mp hnd).2, ?_⟩
      show q.tail = _
      rw [htail]; simp [List.getLast?_cons_cons]

/-- Linking an initialised cell that is not on the chain (lines 46-51 of
`tiny_queue_push`). -/
theorem link_rep (q : tiny_queue_t) (h : Heap) (l : List (Addr × Ptr)) (x : Ptr) (n : Addr)
    (hrep : Rep q h l) (hn : h n = some ⟨x, none⟩) (hnl : n ∉ l.map Prod.fst) :
    (l = [] → q.head = none ∧ q.tail = none ∧ Rep ⟨some n, some n⟩ h [(n, x)]) ∧
    (l ≠ [] → ¬(q.head = none ∧ q.tail = none) ∧
      ∃ tl cell, q.tail = some tl ∧ tl ∈ l.map Prod.fst ∧ h tl = some cell ∧
        Rep ⟨q.head, some n⟩ (upd h tl (some ⟨cell.data, some n⟩)) (l ++ [(n, x)])) := by
  constructor
  · intro hl
    subst hl
    have hh : q.head = none := hrep.1
    have ht : q.tail = none := by simpa using hrep.2.2
    exact ⟨hh, ht, ⟨rfl, none, hn, rfl⟩, by simp, rfl⟩
  · intro hl
    obtain ⟨hch, hnd, htail⟩ := hrep
    obtain ⟨tl, hlast⟩ : ∃ tl, (l.map Prod.fst).getLast? = some tl := by
      cases hg : (l.map Prod.fst).getLast? with
      | none => simp [List.getLast?_eq_none_iff] at hg; exact absurd hg hl
      | some tl => exact ⟨tl, rfl⟩
    have hhead : q.head ≠ none := by
      cases l with
      | nil => exact absurd rfl hl
      | cons c rest => rw [hch.1]; simp
    obtain ⟨cell, hcell, hsn⟩ := chain_snoc h n x tl l q.head hch hlast hnl hnd
    rw [upd_self h n _ hn] at hsn
    refine ⟨fun hboth => hhead hboth.1, tl, cell, by rw [htail, hlast],
      List.mem_of_getLast?_eq_some hlast, hcell, hsn, ?_, ?_⟩
    · rw [List.map_append, List.nodup_append]
      refine ⟨hnd, by simp, ?_⟩
      intro a ha hb
      simp only [List.map_cons, List.map_nil, List.mem_singleton] at hb
      exact hnl (hb ▸ ha)
    · show some n = (List.map Prod.fst (l ++ [(n, x)])).getLast?
      rw [List.map_append, List.getLast?_append]; simp

/-- Two threads that hold the mutex are the same thread. -/
theorem Inv.holder_unique {s : Sys} {l : List (Addr × Ptr)} (hinv : Inv s l) (t u : Tid)
    (ht : holds (s.pc t) = true) (hu : holds (s.pc u) = true) : u = t := by
  have h1 := (hinv.owner t).mp ht
  have h2 := (hinv.owner u).mp hu
  rw [h1] at h2
  exact (Option.some.inj h2).symm

/-- A step that changes only the program counter of thread `t` and the mutex keeps the
invariant, given the facts the invariant asks of the new program counter. -/
theorem inv_pc_only (s : Sys) (l : List (Addr × Ptr)) (t : Tid) (p1 : PC) (mx : Option Tid)
    (hinv : Inv s l)
    (howner : ∀ u, holds (setpc s.pc t p1 u) = true ↔ mx = some u)
    (hhead : ∀ c, p1 = PC.pop_head c → c = s.q.head ∧ c ≠ none)
    (htested : p1 = PC.pop_tested → s.q.head ≠ none)
    (hdata : ∀ a d, p1 = PC.pop_data a d → ∃ rest, l = (a, d) :: rest)
    (hunl : ∀ a d, p1 ≠ PC.pop_unlinked a d)
    (hpriv : private_cell p1 = none ∨ private_cell p1 = private_cell (s.pc t))
    (hun : unlinked_none p1 = unlinked_none (s.pc t))
    (hhas : ∀ d, has_unlinked d p1 = has_unlinked d (s.pc t)) :
    Inv { s with mutex := mx, pc := setpc s.pc t p1 } l := by
  have hpc : ∀ u, u ≠ t → setpc s.pc t p1 u = s.pc u := fun u hu => setpc_other _ _ _ _ hu
  have hpt : setpc s.pc t p1 t = p1 := setpc_same _ _ _
  have hprivt : ∀ x n, private_cell p1 = some (x, n) → private_cell (s.pc t) = some (x, n) := by
    intro x n h
    rcases hpriv with h0 | h0
    · rw [h0] at h; cases h
    · rw [← h0]; exact h
  refine ⟨hinv.no_ub, hinv.rep, hinv.hist, hinv.calls_nodup, howner, ?_, ?_, ?_, ?_, ?_, ?_,
    ?_, ?_, ?_⟩
  · intro u c hu
    by_cases hut : u = t
    · subst hut; exact hhead c (hpt ▸ hu)
    · exact hinv.head u c (hpc u hut ▸ hu)
  · intro u hu
    by_cases hut : u = t
    · subst hut; exact htested (hpt ▸ hu)
    · exact hinv.tested u (hpc u hut ▸ hu)
  · intro u a d hu
    by_cases hut : u = t
    · subst hut; exact hdata a d (hpt ▸ hu)
    · exact hinv.data u a d (hpc u hut ▸ hu)
  · intro u a d hu
    by_cases hut : u = t
    · subst hut; exact absurd (hpt ▸ hu) (hunl a d)
    · exact hinv.unlinked u a d (hpc u hut ▸ hu)
  · intro u x n hu
    by_cases hut : u = t
    · subst hut; exact hinv.priv u x n (hprivt x n (hpt ▸ hu))
    · exact hinv.priv u x n (hpc u hut ▸ hu)
  · intro u v x n y huv hu hv
    have hu1 : private_cell (s.pc u) = some (x, n) := by
      by_cases hut : u = t
      · subst hut; exact hprivt x n (hpt ▸ hu)
      · exact hpc u hut ▸ hu
    have hv1 : private_cell (s.pc v) = some (y, n) := by
      by_cases hvt : v = t
      · subst hvt; exact hprivt y n (hpt ▸ hv)
      · exact hpc v hvt ▸ hv
    exact hinv.priv_distinct u v x n y huv hu1 hv1
  · intro u v x n d hu hv
    have hu1 : private_cell (s.pc u) = some (x, n) := by
      by_cases hut : u = t
      · subst hut; exact hprivt x n (hpt ▸ hu)
      · exact hpc u hut ▸ hu
    by_cases hvt : v = t
    · subst hvt; exact hunl n d (hpt ▸ hv)
    · exact hinv.priv_unlinked u v x n d hu1 (hpc v hvt ▸ hv)
  · intro u hu
    by_cases hut : u = t
    · subst hut
      exact hinv.undelivered u (by rw [← hun]; exact hpt ▸ hu)
    · exact hinv.undelivered u (hpc u hut ▸ hu)
  · intro u d hu
    by_cases hut : u = t
    · subst hut
      exact hinv.has_delivered u d (by rw [← hhas]; exact hpt ▸ hu)
    · exact hinv.has_delivered u d (hpc u hut ▸ hu)

/-- Thread `t` takes the free mutex. -/
theorem owner_acquire (s : Sys) (l : List (Addr × Ptr)) (t : Tid) (p1 : PC) (hinv : Inv s l)
    (hfree : s.mutex = none) (hp1 : holds p1 = true) :
    ∀ u, holds (setpc s.pc t p1 u) = true ↔ some t = some u := by
  intro u
  by_cases hut : u = t
  · subst hut; simp [setpc, hp1]
  · rw [setpc_other _ _ _ _ hut]
    constructor
    · intro h
      have := (hinv.owner u).mp h
      rw [hfree] at this; cases this
    · intro h
      exact absurd (Option.some.inj h).symm hut

/-- Thread `t`, which holds the mutex, releases it. -/
theorem owner_release (s : Sys) (l : List (Addr × Ptr)) (t : Tid) (p1 : PC) (hinv : Inv s l)
    (hheld : holds (s.pc t) = true) (hp1 : holds p1 = false) :
    ∀ u, holds (setpc s.pc t p1 u) = true ↔ (none : Option Tid) = some u := by
  intro u
  by_cases hut : u = t
  · subst hut; simp [setpc, hp1]
  · rw [setpc_other _ _ _ _ hut]
    constructor
    · intro h
      exact absurd (hinv.holder_unique t u hheld h) hut
    · intro h; cases h

/-- Thread `t` moves between two program points that agree on holding the mutex. -/
theorem owner_keep (s : Sys) (l : List (Addr × Ptr)) (t : Tid) (p1 : PC) (hinv : Inv s l)
    (hp1 : holds p1 = holds (s.pc t)) :
    ∀ u, holds (setpc s.pc t p1 u) = true ↔ s.mutex = some u := by
  intro u
  by_cases hut : u = t
  · subst hut; rw [setpc_same, hp1]; exact hinv.owner u
  · rw [setpc_other _ _ _ _ hut]; exact hinv.owner u

/-- A step of the thread `t` that holds the mutex, and keeps it, which changes the queue,
the heap or the history variables keeps the invariant, given the facts the invariant asks
of the new state. -/
theorem inv_holder_step (s : Sys) (l l1 : List (Addr × Ptr)) (t : Tid) (p1 : PC)
    (q1 : tiny_queue_t) (h1 : Heap) (linked1 : List Ptr) (delivered1 : List (Tid × Ptr))
    (hinv : Inv s l) (hheld : holds (s.pc t) = true) (hp1 : holds p1 = true)
    (hrep : Rep q1 h1 l1)
    (hhist : delivered1.map Prod.snd ++ l1.map Prod.snd = linked1)
    (hnodup : (delivered1.map Prod.fst).Nodup)
    (hhead : ∀ c, p1 ≠ PC.pop_head c) (htested : p1 ≠ PC.pop_tested)
    (hdata : ∀ a d, p1 ≠ PC.pop_data a d)
    (hunl : ∀ a d, p1 = PC.pop_unlinked a d → h1 a ≠ none ∧ a ∉ l1.map Prod.fst)
    (hp1priv : private_cell p1 = none)
    (hpriv : ∀ u x n, u ≠ t → private_cell (s.pc u) = some (x, n) →
      h1 n = some ⟨x, none⟩ ∧ n ∉ l1.map Prod.fst ∧ ∀ d, p1 ≠ PC.pop_unlinked n d)
    (hundel : ∀ u, u ≠ t → u ∉ s.delivered.map Prod.fst → u ∉ delivered1.map Prod.fst)
    (hundel1 : unlinked_none p1 = true → t ∉ delivered1.map Prod.fst)
    (hhas : ∀ u d, u ≠ t → (u, d) ∈ s.delivered → (u, d) ∈ delivered1)
    (hhas1 : ∀ d, has_unlinked d p1 = true → (t, d) ∈ delivered1) :
    Inv { s with q := q1, heap := h1, pc := setpc s.pc t p1, linked := linked1,
                 delivered := delivered1 } l1 := by
  have hpc : ∀ u, u ≠ t → setpc s.pc t p1 u = s.pc u := fun u hu => setpc_other _ _ _ _ hu
  have hpt : setpc s.pc t p1 t = p1 := setpc_same _ _ _
  have hnoholder : ∀ u, u ≠ t → holds (s.pc u) = false := by
    intro u hut
    cases hh : holds (s.pc u) with
    | false => rfl
    | true => exact absurd (hinv.holder_unique t u hheld hh) hut
  refine ⟨hinv.no_ub, hrep, hhist, hnodup,
    owner_keep s l t p1 hinv (by rw [hp1, hheld]), ?_, ?_, ?_, ?_, ?_, ?_, ?_, ?_, ?_⟩
  · intro u c hu
    by_cases hut : u = t
    · subst hut; exact absurd (hpt ▸ hu) (hhead c)
    · have hno := hnoholder u hut
      rw [(hpc u hut).symm.trans hu] at hno; simp [holds] at hno
  · intro u hu
    by_cases hut : u = t
    · subst hut; exact absurd (hpt ▸ hu) htested
    · have hno := hnoholder u hut
      rw [(hpc u hut).symm.trans hu] at hno; simp [holds] at hno
  · intro u a d hu
    by_cases hut : u = t
    · subst hut; exact absurd (hpt ▸ hu) (hdata a d)
    · have hno := hnoholder u hut
      rw [(hpc u hut).symm.trans hu] at hno; simp [holds] at hno
  · intro u a d hu
    by_cases hut : u = t
    · subst hut; exact hunl a d (hpt ▸ hu)
    · have hno := hnoholder u hut
      rw [(hpc u hut).symm.trans hu] at hno; simp [holds] at hno
  · intro u x n hu
    by_cases hut : u = t
    · subst hut
      have hu2 : private_cell p1 = some (x, n) := hpt ▸ hu
      rw [hp1priv] at hu2; cases hu2
    · obtain ⟨h2, h3, _⟩ := hpriv u x n hut (hpc u hut ▸ hu)
      exact ⟨h2, h3⟩
  · intro u v x n y huv hu hv
    by_cases hut : u = t
    · subst hut
      have hu2 : private_cell p1 = some (x, n) := hpt ▸ hu
      rw [hp1priv] at hu2; cases hu2
    · by_cases hvt : v = t
      · subst hvt
        have hv2 : private_cell p1 = some (y, n) := hpt ▸ hv
        rw [hp1priv] at hv2; cases hv2
      · exact hinv.priv_distinct u v x n y huv (hpc u hut ▸ hu) (hpc v hvt ▸ hv)
  · intro u v x n d hu hv
    by_cases hut : u = t
    · subst hut
      have hu2 : private_cell p1 = some (x, n) := hpt ▸ hu
      rw [hp1priv] at hu2; cases hu2
    · by_cases hvt : v = t
      · subst hvt
        exact (hpriv u x n hut (hpc u hut ▸ hu)).2.2 d (hpt ▸ hv)
      · exact hinv.priv_unlinked u v x n d (hpc u hut ▸ hu) (hpc v hvt ▸ hv)
  · intro u hu
    by_cases hut : u = t
    · subst hut; exact hundel1 (hpt ▸ hu)
    · exact hundel u hut (hinv.undelivered u (hpc u hut ▸ hu))
  · intro u d hu
    by_cases hut : u = t
    · subst hut; exact hhas1 d (hpt ▸ hu)
    · exact hhas u d hut (hinv.has_delivered u d (hpc u hut ▸ hu))

/-- Allocation and initialisation of a node by a pushing thread keeps the invariant. -/
theorem inv_alloc (s : Sys) (l : List (Addr × Ptr)) (t : Tid) (x : Ptr) (n : Addr)
    (hinv : Inv s l) (hpct : s.pc t = PC.idle_push x) (hfresh : s.heap n = none) :
    Inv { s with heap := upd s.heap n (some ⟨x, none⟩),
                 pc := setpc s.pc t (PC.push_init x n) } l := by
  have hpc : ∀ u, u ≠ t → setpc s.pc t (PC.push_init x n) u = s.pc u :=
    fun u hu => setpc_other _ _ _ _ hu
  have hpt : setpc s.pc t (PC.push_init x n) t = PC.push_init x n := setpc_same _ _ _
  have hnl : n ∉ l.map Prod.fst := not_mem_of_fresh s.heap l s.q.head hinv.rep.1 n hfresh
  have hlive : ∀ a, s.heap a ≠ none → upd s.heap n (some ⟨x, none⟩) a = s.heap a := by
    intro a ha
    have : a ≠ n := fun e => ha (e ▸ hfresh)
    simp [upd, this]
  have hrep : Rep s.q (upd s.heap n (some ⟨x, none⟩)) l := by
    refine ⟨chain_congr s.heap _ l s.q.head ?_ hinv.rep.1, hinv.rep.2.1, hinv.rep.2.2⟩
    intro c hc
    exact hlive c.1 (chain_live s.heap l s.q.head hinv.rep.1 c hc)
  refine ⟨hinv.no_ub, hrep, hinv.hist, hinv.calls_nodup,
    owner_keep s l t _ hinv (by rw [hpct]; rfl), ?_, ?_, ?_, ?_, ?_, ?_, ?_, ?_, ?_⟩
  · intro u c hu
    by_cases hut : u = t
    · subst hut; exact PC.noConfusion ((hpt.symm.trans hu))
    · exact hinv.head u c (hpc u hut ▸ hu)
  · intro u hu
    by_cases hut : u = t
    · subst hut; exact PC.noConfusion ((hpt.symm.trans hu))
    · exact hinv.tested u (hpc u hut ▸ hu)
  · intro u a d hu
    by_cases hut : u = t
    · subst hut; exact PC.noConfusion ((hpt.symm.trans hu))
    · exact hinv.data u a d (hpc u hut ▸ hu)
  · intro u a d hu
    by_cases hut : u = t
    · subst hut; exact PC.noConfusion ((hpt.symm.trans hu))
    · obtain ⟨h2, h3⟩ := hinv.unlinked u a d (hpc u hut ▸ hu)
      exact ⟨by show upd s.heap n (some ⟨x, none⟩) a ≠ none; rw [hlive a h2]; exact h2, h3⟩
  · intro u y m hu
    by_cases hut : u = t
    · subst hut
      have hu2 : private_cell (PC.push_init x n) = some (y, m) := hpt ▸ hu
      simp only [private_cell, Option.some.injEq, Prod.mk.injEq] at hu2
      obtain ⟨rfl, rfl⟩ := hu2
      exact ⟨by simp [upd], hnl⟩
    · obtain ⟨h2, h3⟩ := hinv.priv u y m (hpc u hut ▸ hu)
      refine ⟨?_, h3⟩
      show upd s.heap n (some ⟨x, none⟩) m = _
      rw [hlive m (by rw [h2]; simp)]; exact h2
  · intro u v y m z huv hu hv
    by_cases hut : u = t
    · subst hut
      have hu2 : private_cell (PC.push_init x n) = some (y, m) := hpt ▸ hu
      simp only [private_cell, Option.some.injEq, Prod.mk.injEq] at hu2
      obtain ⟨rfl, rfl⟩ := hu2
      have hvt : v ≠ u := fun e => huv e.symm
      have hz := (hinv.priv v z n (hpc v hvt ▸ hv)).1
      rw [hfresh] at hz; cases hz
    · by_cases hvt : v = t
      · subst hvt
        have hv2 : private_cell (PC.push_init x n) = some (z, m) := hpt ▸ hv
        simp only [private_cell, Option.some.injEq, Prod.mk.injEq] at hv2
        obtain ⟨rfl, rfl⟩ := hv2
        have hz := (hinv.priv u y n (hpc u hut ▸ hu)).1
        rw [hfresh] at hz; cases hz
      · exact hinv.priv_distinct u v y m z huv (hpc u hut ▸ hu) (hpc v hvt ▸ hv)
  · intro u v y m d hu hv
    by_cases hvt : v = t
    · subst hvt; exact PC.noConfusion (hpt.symm.trans hv)
    · by_cases hut : u = t
      · subst hut
        have hu2 : private_cell (PC.push_init x n) = some (y, m) := hpt ▸ hu
        simp only [private_cell, Option.some.injEq, Prod.mk.injEq] at hu2
        obtain ⟨rfl, rfl⟩ := hu2
        exact (hinv.unlinked v n d (hpc v hvt ▸ hv)).1 hfresh
      · exact hinv.priv_unlinked u v y m d (hpc u hut ▸ hu) (hpc v hvt ▸ hv)
  · intro u hu
    by_cases hut : u = t
    · subst hut; exact hinv.undelivered u (by rw [hpct]; rfl)
    · exact hinv.undelivered u (hpc u hut ▸ hu)
  · intro u d hu
    by_cases hut : u = t
    · subst hut
      have hu2 : has_unlinked d (PC.push_init x n) = true := hpt ▸ hu
      simp [has_unlinked] at hu2
    · exact hinv.has_delivered u d (hpc u hut ▸ hu)

/-- The unlinking step of a pop keeps the invariant. -/
theorem step_inv_unlink (WAKE : Bool) (t : Tid) (m : Option Addr) (s s1 : Sys)
    (l : List (Addr × Ptr)) (a : Addr) (d : Ptr) (hinv : Inv s l)
    (hpc : s.pc t = PC.pop_data a d) (hstep : step WAKE t m s = some s1) :
    ∃ l1, Inv s1 l1 := by
  obtain ⟨rest, hl⟩ := hinv.data t a d hpc
  subst hl
  obtain ⟨cell, hh, hcell, hnotin, heq, hne⟩ := unlink_rep s.q s.heap a d rest hinv.rep
  have hheld : holds (s.pc t) = true := by rw [hpc]; rfl
  have hund : t ∉ s.delivered.map Prod.fst := hinv.undelivered t (by rw [hpc]; rfl)
  have hlive : s.heap a ≠ none := by rw [hcell]; simp
  have key : ∀ q1, Rep q1 s.heap rest →
      Inv { s with q := q1, heap := s.heap, pc := setpc s.pc t (PC.pop_unlinked a d),
                   linked := s.linked, delivered := s.delivered ++ [(t, d)] } rest := by
    intro q1 hrep1
    refine inv_holder_step s ((a, d) :: rest) rest t (PC.pop_unlinked a d) q1 s.heap s.linked
      (s.delivered ++ [(t, d)]) hinv hheld rfl hrep1 ?_ ?_ (fun c h => by cases h)
      (fun h => by cases h) (fun a1 d1 h => by cases h) ?_ rfl ?_ ?_ ?_ ?_ ?_
    · have := hinv.hist
      simp only [List.map_cons, List.map_append, List.map_nil] at this ⊢
      simpa using this
    · rw [List.map_append, List.nodup_append]
      refine ⟨hinv.calls_nodup, by simp, ?_⟩
      intro u hu hu2
      simp only [List.map_cons, List.map_nil, List.mem_singleton] at hu2
      exact hund (hu2 ▸ hu)
    · intro a1 d1 h
      simp only [PC.pop_unlinked.injEq] at h
      obtain ⟨rfl, rfl⟩ := h
      exact ⟨hlive, hnotin⟩
    · intro u x n _ hu
      obtain ⟨h2, h3⟩ := hinv.priv u x n hu
      refine ⟨h2, fun hmem => h3 (by simp only [List.map_cons, List.mem_cons]; exact Or.inr hmem),
        ?_⟩
      intro d1 h
      simp only [PC.pop_unlinked.injEq] at h
      apply h3
      simp [h.1]
    · intro u hut hu hmem
      simp only [List.map_append, List.map_cons, List.map_nil, List.mem_append,
        List.mem_singleton] at hmem
      rcases hmem with h | h
      · exact hu h
      · exact hut h
    · intro h; simp [unlinked_none] at h
    · intro u d1 _ hu
      exact List.mem_append_left _ hu
    · intro d1 h
      simp only [has_unlinked, decide_eq_true_eq] at h
      subst h
      simp
  simp only [step, hpc] at hstep
  by_cases hht : s.q.head = s.q.tail
  · rw [if_pos hht] at hstep
    cases hstep
    exact ⟨rest, key _ (heq hht)⟩
  · rw [if_neg hht] at hstep
    simp only [hh, hcell] at hstep
    cases hstep
    exact ⟨rest, key _ (hne hht)⟩

/-- The `free` step of a pop keeps the invariant. -/
theorem step_inv_free (WAKE : Bool) (t : Tid) (m : Option Addr) (s s1 : Sys)
    (l : List (Addr × Ptr)) (a : Addr) (d : Ptr) (hinv : Inv s l)
    (hpc : s.pc t = PC.pop_unlinked a d) (hstep : step WAKE t m s = some s1) :
    ∃ l1, Inv s1 l1 := by
  obtain ⟨hlive, hnotin⟩ := hinv.unlinked t a d hpc
  have hheld : holds (s.pc t) = true := by rw [hpc]; rfl
  obtain ⟨cell, hcell⟩ : ∃ cell, s.heap a = some cell := by
    cases hc : s.heap a with
    | none => exact absurd hc hlive
    | some cell => exact ⟨cell, rfl⟩
  simp only [step, hpc, hcell] at hstep
  cases hstep
  refine ⟨l, inv_holder_step s l l t (PC.pop_freed d) s.q (upd s.heap a none) s.linked
    s.delivered hinv hheld rfl ?_ hinv.hist hinv.calls_nodup (fun c h => by cases h)
    (fun h => by cases h) (fun a1 d1 h => by cases h) (fun a1 d1 h => by cases h) rfl ?_
    (fun u _ hu => hu) (fun h => by simp [unlinked_none] at h) (fun u d1 _ hu => hu) ?_⟩
  · refine ⟨chain_congr s.heap _ l s.q.head ?_ hinv.rep.1, hinv.rep.2.1, hinv.rep.2.2⟩
    intro c hc
    have : c.1 ≠ a := fun e => hnotin (e ▸ List.mem_map_of_mem Prod.fst hc)
    simp [upd, this]
  · intro u x n _ hu
    obtain ⟨h2, h3⟩ := hinv.priv u x n hu
    have hna : n ≠ a := by
      intro e
      exact hinv.priv_unlinked u t x n d hu (e ▸ hpc)
    exact ⟨by simp [upd, hna, h2], h3, fun d1 h => by cases h⟩
  · intro d1 h
    simp only [has_unlinked, decide_eq_true_eq] at h
    subst h
    exact hinv.has_delivered t d (by rw [hpc]; simp [has_unlinked])

/-- The linking step of a push keeps the invariant. -/
theorem step_inv_link (WAKE : Bool) (t : Tid) (m : Option Addr) (s s1 : Sys)
    (l : List (Addr × Ptr)) (x : Ptr) (n : Addr) (hinv : Inv s l)
    (hpc : s.pc t = PC.push_locked x n) (hstep : step WAKE t m s = some s1) :
    ∃ l1, Inv s1 l1 := by
  obtain ⟨hn, hnl⟩ := hinv.priv t x n (by rw [hpc]; rfl)
  have hheld : holds (s.pc t) = true := by rw [hpc]; rfl
  obtain ⟨hempty, hnonempty⟩ := link_rep s.q s.heap l x n hinv.rep hn hnl
  have key : ∀ q1 h1, Rep q1 h1 (l ++ [(n, x)]) →
      (∀ b, b ∉ l.map Prod.fst → h1 b = s.heap b) →
      Inv { s with q := q1, heap := h1, pc := setpc s.pc t PC.push_linked,
                   linked := s.linked ++ [x], delivered := s.delivered } (l ++ [(n, x)]) := by
    intro q1 h1 hrep1 hframe
    refine inv_holder_step s l (l ++ [(n, x)]) t PC.push_linked q1 h1 (s.linked ++ [x])
      s.delivered hinv hheld rfl hrep1 ?_ hinv.calls_nodup (fun c h => by cases h)
      (fun h => by cases h) (fun a1 d1 h => by cases h) (fun a1 d1 h => by cases h) rfl ?_
      (fun u _ hu => hu) (fun _ => hinv.undelivered t (by rw [hpc]; rfl))
      (fun u d1 _ hu => hu) (fun d1 h => by simp [has_unlinked] at h)
    · rw [← hinv.hist]; simp
    · intro u y k hut hu
      obtain ⟨h2, h3⟩ := hinv.priv u y k hu
      have hkn : k ≠ n := by
        intro e
        exact hinv.priv_distinct u t y k x hut hu (by rw [hpc, e]; rfl)
      refine ⟨by rw [hframe k h3]; exact h2, ?_, fun d1 h => by cases h⟩
      simp only [List.map_append, List.map_cons, List.map_nil, List.mem_append,
        List.mem_singleton]
      rintro (h | h)
      · exact h3 h
      · exact hkn h
  simp only [step, hpc] at hstep
  by_cases hl : l = []
  · obtain ⟨hh, ht, hrep1⟩ := hempty hl
    rw [if_pos ⟨hh, ht⟩] at hstep
    cases hstep
    subst hl
    exact ⟨[] ++ [(n, x)], key _ _ hrep1 (fun _ _ => rfl)⟩
  · obtain ⟨hcond, tl, cell, htl, hmem, hcell, hrep1⟩ := hnonempty hl
    rw [if_neg hcond] at hstep
    simp only [htl, hcell] at hstep
    cases hstep
    refine ⟨l ++ [(n, x)], key _ _ hrep1 ?_⟩
    intro b hb
    have : b ≠ tl := fun e => hb (e ▸ hmem)
    simp [upd, this]

/-- Every step of every thread keeps the invariant. -/
theorem step_inv (WAKE : Bool) (t : Tid) (m : Option Addr) (s s1 : Sys)
    (l : List (Addr × Ptr)) (hinv : Inv s l)
    (hfresh : ∀ x n, s.pc t = PC.idle_push x → m = some n → s.heap n = none)
    (hstep : step WAKE t m s = some s1) : ∃ l1, Inv s1 l1 := by
  cases hpc : s.pc t with
  | idle_pop =>
    simp only [step, hpc] at hstep
    cases hm : s.mutex with
    | some o => simp [hm] at hstep
    | none =>
      simp only [hm, Option.some.injEq] at hstep
      subst hstep
      exact ⟨l, inv_pc_only s l t PC.pop_locked (some t) hinv
        (owner_acquire s l t _ hinv hm rfl) (fun c h => by cases h) (fun h => by cases h)
        (fun a d h => by cases h) (fun a d h => by cases h) (Or.inl rfl)
        (by rw [hpc]; rfl) (fun d => by rw [hpc]; rfl)⟩
  | pop_locked =>
    simp only [step, hpc] at hstep
    cases hh : s.q.head with
    | none =>
      simp only [hh] at hstep
      cases WAKE
      · simp only [Bool.false_eq_true, if_false, Option.some.injEq] at hstep
        subst hstep
        exact ⟨l, inv_pc_only s l t PC.pop_empty s.mutex hinv
          (owner_keep s l t _ hinv (by rw [hpc]; rfl)) (fun c h => by cases h)
          (fun h => by cases h) (fun a d h => by cases h) (fun a d h => by cases h)
          (Or.inl rfl) (by rw [hpc]; rfl) (fun d => by rw [hpc]; rfl)⟩
      · simp only [if_true, Option.some.injEq] at hstep
        subst hstep
        exact ⟨l, inv_pc_only s l t PC.pop_waiting none hinv
          (owner_release s l t _ hinv (by rw [hpc]; rfl) rfl) (fun c h => by cases h)
          (fun h => by cases h) (fun a d h => by cases h) (fun a d h => by cases h)
          (Or.inl rfl) (by rw [hpc]; rfl) (fun d => by rw [hpc]; rfl)⟩
    | some a =>
      simp only [hh, Option.some.injEq] at hstep
      subst hstep
      exact ⟨l, inv_pc_only s l t PC.pop_tested s.mutex hinv
        (owner_keep s l t _ hinv (by rw [hpc]; rfl)) (fun c h => by cases h)
        (fun _ => by rw [hh]; simp) (fun a d h => by cases h) (fun a d h => by cases h)
        (Or.inl rfl) (by rw [hpc]; rfl) (fun d => by rw [hpc]; rfl)⟩
  | pop_waiting =>
    simp only [step, hpc] at hstep
    cases hm : s.mutex with
    | some o => simp [hm] at hstep
    | none =>
      simp only [hm, Option.some.injEq] at hstep
      subst hstep
      exact ⟨l, inv_pc_only s l t PC.pop_locked (some t) hinv
        (owner_acquire s l t _ hinv hm rfl) (fun c h => by cases h) (fun h => by cases h)
        (fun a d h => by cases h) (fun a d h => by cases h) (Or.inl rfl)
        (by rw [hpc]; rfl) (fun d => by rw [hpc]; rfl)⟩
  | pop_empty =>
    simp only [step, hpc, Option.some.injEq] at hstep
    subst hstep
    exact ⟨l, inv_pc_only s l t (PC.pop_ret NULL false) none hinv
      (owner_release s l t _ hinv (by rw [hpc]; rfl) rfl) (fun c h => by cases h)
      (fun h => by cases h) (fun a d h => by cases h) (fun a d h => by cases h)
      (Or.inl rfl) (by rw [hpc]; rfl) (fun d => by rw [hpc]; rfl)⟩
  | pop_tested =>
    simp only [step, hpc, Option.some.injEq] at hstep
    subst hstep
    exact ⟨l, inv_pc_only s l t (PC.pop_head s.q.head) s.mutex hinv
      (owner_keep s l t _ hinv (by rw [hpc]; rfl))
      (fun c h => by
        simp only [PC.pop_head.injEq] at h
        exact ⟨h.symm, h ▸ hinv.tested t hpc⟩)
      (fun h => by cases h) (fun a d h => by cases h) (fun a d h => by cases h)
      (Or.inl rfl) (by rw [hpc]; rfl) (fun d => by rw [hpc]; rfl)⟩
  | pop_head cur =>
    obtain ⟨hcur, hne⟩ := hinv.head t cur hpc
    cases l with
    | nil => exact absurd (hcur.trans hinv.rep.1) hne
    | cons c rest =>
      obtain ⟨hh, nx, hcell, _⟩ := hinv.rep.1
      have hcur2 : cur = some c.1 := hcur.trans hh
      subst hcur2
      simp only [step, hpc, hcell, Option.some.injEq] at hstep
      subst hstep
      exact ⟨c :: rest, inv_pc_only s (c :: rest) t (PC.pop_data c.1 c.2) s.mutex hinv
        (owner_keep s _ t _ hinv (by rw [hpc]; rfl)) (fun c1 h => by cases h)
        (fun h => by cases h)
        (fun a d h => by
          simp only [PC.pop_data.injEq] at h
          exact ⟨rest, by rw [← h.1, ← h.2]⟩)
        (fun a d h => by cases h) (Or.inl rfl) (by rw [hpc]; rfl)
        (fun d => by rw [hpc]; rfl)⟩
  | pop_data a d => exact step_inv_unlink WAKE t m s s1 l a d hinv hpc hstep
  | pop_unlinked a d => exact step_inv_free WAKE t m s s1 l a d hinv hpc hstep
  | pop_freed d =>
    simp only [step, hpc, Option.some.injEq] at hstep
    subst hstep
    exact ⟨l, inv_pc_only s l t (PC.pop_ret d true) none hinv
      (owner_release s l t _ hinv (by rw [hpc]; rfl) rfl) (fun c h => by cases h)
      (fun h => by cases h) (fun a d h => by cases h) (fun a d h => by cases h)
      (Or.inl rfl) (by rw [hpc]; rfl) (fun d1 => by rw [hpc]; rfl)⟩
  | pop_ret r item => simp [step, hpc] at hstep
  | idle_push x =>
    simp only [step, hpc] at hstep
    cases m with
    | none =>
      simp only [Option.some.injEq] at hstep
      subst hstep
      exact ⟨l, inv_pc_only s l t (PC.push_ret (-1)) s.mutex hinv
        (owner_keep s l t _ hinv (by rw [hpc]; rfl)) (fun c h => by cases h)
        (fun h => by cases h) (fun a d h => by cases h) (fun a d h => by cases h)
        (Or.inl rfl) (by rw [hpc]; rfl) (fun d => by rw [hpc]; rfl)⟩
    | some n =>
      simp only [Option.some.injEq] at hstep
      subst hstep
      exact ⟨l, inv_alloc s l t x n hinv hpc (hfresh x n hpc rfl)⟩
  | push_init x n =>
    simp only [step, hpc] at hstep
    cases hm : s.mutex with
    | some o => simp [hm] at hstep
    | none =>
      simp only [hm, Option.some.injEq] at hstep
      subst hstep
      exact ⟨l, inv_pc_only s l t (PC.push_locked x n) (some t) hinv
        (owner_acquire s l t _ hinv hm rfl) (fun c h => by cases h) (fun h => by cases h)
        (fun a d h => by cases h) (fun a d h => by cases h) (Or.inr (by rw [hpc]; rfl))
        (by rw [hpc]; rfl) (fun d => by rw [hpc]; rfl)⟩
  | push_locked x n => exact step_inv_link WAKE t m s s1 l x n hinv hpc hstep
  | push_linked =>
    simp only [step, hpc, Option.some.injEq] at hstep
    subst hstep
    exact ⟨l, inv_pc_only s l t (PC.push_ret 0) none hinv
      (owner_release s l t _ hinv (by rw [hpc]; rfl) rfl) (fun c h => by cases h)
      (fun h => by cases h) (fun a d h => by cases h) (fun a d h => by cases h)
      (Or.inl rfl) (by rw [hpc]; rfl) (fun d => by rw [hpc]; rfl)⟩
  | push_ret r => simp [step, hpc] at hstep

/-- The invariant holds along every schedule whose allocations are fresh. -/
theorem exec_inv (WAKE : Bool) (sched : List (Tid × Option Addr)) :
    ∀ (s : Sys) (l : List (Addr × Ptr)), Inv s l → sched_fresh WAKE sched s →
      ∃ l1, Inv (exec WAKE sched s) l1 := by
  induction sched with
  | nil => intro s l hinv _; exact ⟨l, hinv⟩
  | cons e rest ih =>
    intro s l hinv hfresh
    obtain ⟨hf, hrest⟩ := hfresh
    cases hstep : step WAKE e.1 e.2 s with
    | none =>
      have hstay : step_or_stay WAKE e s = s := by simp [step_or_stay, hstep]
      rw [hstay] at hrest
      simpa [exec, hstay] using ih s l hinv hrest
    | some s1 =>
      have hmove : step_or_stay WAKE e s = s1 := by simp [step_or_stay, hstep]
      rw [hmove] at hrest
      obtain ⟨l1, hinv1⟩ := step_inv WAKE e.1 e.2 s s1 l hinv hf hstep
      simpa [exec, hmove] using ih s1 l1 hinv1 hrest

/-- The invariant holds at the start. -/
theorem initial_inv (s : Sys) (l0 : List (Addr × Ptr)) (hinit : initial s l0) : Inv s l0 := by
  obtain ⟨hrep, hm, hub, hlinked, hdel, hpcs⟩ := hinit
  have hnothold : ∀ t, holds (s.pc t) = false := by
    intro t
    rcases hpcs t with h | ⟨x, h⟩ <;> rw [h] <;> rfl
  have hnopriv : ∀ t, private_cell (s.pc t) = none := by
    intro t
    rcases hpcs t with h | ⟨x, h⟩ <;> rw [h] <;> rfl
  refine ⟨hub, hrep, by rw [hdel, hlinked]; simp, by rw [hdel]; simp, ?_, ?_, ?_, ?_, ?_, ?_,
    ?_, ?_, ?_, ?_⟩
  · intro t
    rw [hnothold t, hm]; simp
  · intro t p h; have := hnothold t; rw [h] at this; simp [holds] at this
  · intro t h; have := hnothold t; rw [h] at this; simp [holds] at this
  · intro t a d h; have := hnothold t; rw [h] at this; simp [holds] at this
  · intro t a d h; have := hnothold t; rw [h] at this; simp [holds] at this
  · intro t x n h; rw [hnopriv t] at h; cases h
  · intro t u x n y _ h; rw [hnopriv t] at h; cases h
  · intro t u x n d h; rw [hnopriv t] at h; cases h
  · intro t _; rw [hdel]; simp
  · intro t d h
    rcases hpcs t with h1 | ⟨x, h1⟩ <;> rw [h1] at h <;> simp [has_unlinked] at h

/-- A step only appends to the list of linked payloads. -/
theorem step_linked (WAKE : Bool) (t : Tid) (m : Option Addr) (s s1 : Sys)
    (hstep : step WAKE t m s = some s1) : ∃ ext, s1.linked = s.linked ++ ext := by
  unfold step at hstep
  repeat' split at hstep
  all_goals
    first
    | (cases hstep; done)
    | (simp only [Option.some.injEq] at hstep
       subst hstep
       first
       | exact ⟨_, rfl⟩
       | exact ⟨[], (List.append_nil _).symm⟩)

/-- Along a schedule the list of linked payloads only grows at its end. -/
theorem exec_linked (WAKE : Bool) (sched : List (Tid × Option Addr)) :
    ∀ s : Sys, ∃ ext, (exec WAKE sched s).linked = s.linked ++ ext := by
  induction sched with
  | nil => intro s; exact ⟨[], by simp [exec]⟩
  | cons e rest ih =>
    intro s
    cases hstep : step WAKE e.1 e.2 s with
    | none =>
      have hstay : step_or_stay WAKE e s = s := by simp [step_or_stay, hstep]
      simpa [exec, hstay] using ih s
    | some s1 =>
      have hmove : step_or_stay WAKE e s = s1 := by simp [step_or_stay, hstep]
      obtain ⟨ext1, h1⟩ := step_linked WAKE e.1 e.2 s s1 hstep
      obtain ⟨ext2, h2⟩ := ih s1
      exact ⟨ext1 ++ ext2, by simp [exec, hmove, h2, h1]⟩

/-- A schedule without allocation meets `sched_fresh`. -/
theorem sched_fresh_of_no_malloc (WAKE : Bool) (sched : List (Tid × Option Addr)) :
    (∀ e ∈ sched, e.2 = none) → ∀ s : Sys, sched_fresh WAKE sched s := by
  induction sched with
  | nil => intro _ s; trivial
  | cons e rest ih =>
    intro h s
    refine ⟨?_, ih (fun e1 he1 => h e1 (List.mem_cons_of_mem _ he1)) _⟩
    intro x n _ hn
    rw [h e (List.mem_cons_self _ _)] at hn
    cases hn

/-! ## Well-formedness is kept by the calls -/

/-- The last cell of a chain has a null `next`. -/
theorem chain_last (h : Heap) (c : Addr × Ptr) (l : List (Addr × Ptr)) :
    ∀ p : Option Addr, chain h p l → l.getLast? = some c → h c.1 = some ⟨c.2, none⟩ := by
  induction l with
  | nil => intro p _ hc; simp at hc
  | cons d rest ih =>
    intro p hch hc
    obtain ⟨_, nx, hcell, hrest⟩ := hch
    cases rest with
    | nil =>
      simp only [List.getLast?_singleton, Option.some.injEq] at hc
      subst hc
      have hnx : nx = none := hrest
      rw [hcell, hnx]
    | cons d2 r2 =>
      exact ih nx hrest (by simpa [List.getLast?_cons_cons] using hc)

/-- What the well-formedness predicate says of `head`, `tail` and the last cell: `head`
is null exactly when `tail` is, exactly when no cell is linked; otherwise `tail` is the
last cell of the chain and its `next` is null. -/
theorem rep_meaning (q : tiny_queue_t) (h : Heap) (l : List (Addr × Ptr))
    (hrep : Rep q h l) :
    (q.head = none ↔ q.tail = none) ∧ (q.head = none ↔ l = []) ∧ (q.tail = none ↔ l = []) ∧
    (∀ c, l.getLast? = some c → q.tail = some c.1 ∧ h c.1 = some ⟨c.2, none⟩) := by
  have hh := rep_head_none_iff q h l hrep
  have ht := rep_tail_none_iff q h l hrep
  refine ⟨hh.trans ht.symm, hh, ht, ?_⟩
  intro c hc
  obtain ⟨hch, _, htail⟩ := hrep
  constructor
  · rw [htail, List.getLast?_map, hc]; rfl
  · exact chain_last h c l q.head hch hc

/-- Lines 76-87 of `tiny_queue_pop` on a well-formed queue that holds at least one cell:
the payload of the first cell is returned and the queue, still well formed, holds the
other cells. -/
theorem pop_unlink_rep (q : tiny_queue_t) (w : World) (c : Addr × Ptr)
    (rest : List (Addr × Ptr)) (hrep : Rep q w.heap (c :: rest)) :
    ∃ q1 w1, pop_unlink q w = Outcome.ret (c.2, some q1, w1) ∧ Rep q1 w1.heap rest := by
  obtain ⟨cell, hh, hcell, hnotin, heq, hne⟩ := unlink_rep q w.heap c.1 c.2 rest hrep
  have hdata : cell.data = c.2 := by
    obtain ⟨⟨_, nx, hc2, _⟩, _, _⟩ := hrep
    rw [hcell] at hc2
    simp only [Option.some.injEq] at hc2
    rw [hc2]
  have hfree : ∀ q1, Rep q1 w.heap rest → Rep q1 (upd w.heap c.1 none) rest := by
    intro q1 hr
    refine ⟨chain_congr w.heap _ rest q1.head ?_ hr.1, hr.2.1, hr.2.2⟩
    intro d hd
    have : d.1 ≠ c.1 := fun e => hnotin (e ▸ List.mem_map_of_mem Prod.fst hd)
    simp [upd, this]
  by_cases hht : q.head = q.tail
  · refine ⟨⟨none, none⟩, ⟨upd w.heap c.1 none,
      w.log ++ [Event.free_node c.1, Event.mutex_unlock]⟩, ?_, hfree _ (heq hht)⟩
    simp only [pop_unlink, hh, hcell, hdata]
    rw [if_pos (by rw [← hh]; exact hht)]
  · refine ⟨⟨cell.next, q.tail⟩, ⟨upd w.heap c.1 none,
      w.log ++ [Event.free_node c.1, Event.mutex_unlock]⟩, ?_, hfree _ (hne hht)⟩
    simp only [pop_unlink, hh, hcell, hdata]
    rw [if_neg (by rw [← hh]; exact hht)]

end TinyQueue

namespace Vec

/-! ## The vector: loops and reallocation -/

theorem size_mod_eq : SIZE_MOD = 18446744073709551616 := by norm_num [SIZE_MOD]

theorem ptrdiff_max_eq : PTRDIFF_MAX = 9223372036854775807 := by norm_num [PTRDIFF_MAX]

/-- In a well-formed vector size and capacity are below `2 ^ 60`. -/
theorem wf_bound (v : vector) (hwf : wf v) :
    v.size ≤ v.capacity ∧ v.capacity ≤ v.data_array.length ∧
      v.data_array.length < 1152921504606846976 := by
  obtain ⟨h1, h2, h3⟩ := hwf
  rw [ptrdiff_max_eq] at h3
  simp only [sizeof_ptr] at h3
  exact ⟨h1, h2, by omega⟩

/-- The shifting loop of `vector_insert` stays inside the block when `pos + k` is a cell
of it, and moves the cells `pos .. pos + k - 1` one position forward. -/
theorem insert_loop_spec (pos : Nat) :
    ∀ (k : Nat) (block : List Ptr), pos + k < block.length →
      ∃ b, insert_loop pos k block = some b ∧ b.length = block.length ∧
        ∀ j, b[j]? = if pos < j ∧ j ≤ pos + k then block[j - 1]? else block[j]? := by
  intro k
  induction k with
  | zero =>
    intro block _
    refine ⟨block, rfl, rfl, fun j => ?_⟩
    have : ¬(pos < j ∧ j ≤ pos + 0) := by omega
    rw [if_neg this]
  | succ k ih =>
    intro block hlen
    have hlt : pos + k < block.length := by omega
    obtain ⟨x, hx⟩ : ∃ x, block[pos + k]? = some x :=
      ⟨block[pos + k], List.getElem?_eq_getElem hlt⟩
    have hstore : store block (pos + k + 1) x = some (block.set (pos + k + 1) x) := by
      simp only [store]; rw [if_pos (by omega)]
    obtain ⟨b, hb, hblen, hbj⟩ := ih (block.set (pos + k + 1) x) (by simp; omega)
    refine ⟨b, by simp only [insert_loop, load, hx, hstore, hb], by simpa using hblen,
      fun j => ?_⟩
    rw [hbj j]
    by_cases h1 : pos < j ∧ j ≤ pos + k
    · have h2 : pos < j ∧ j ≤ pos + (k + 1) := by omega
      rw [if_pos h1, if_pos h2, List.getElem?_set_ne (by omega)]
    · rw [if_neg h1]
      by_cases h3 : j = pos + k + 1
      · have h2 : pos < j ∧ j ≤ pos + (k + 1) := by omega
        rw [if_pos h2, h3, List.getElem?_set_self (by omega)]
        simpa using hx.symm
      · have h2 : ¬(pos < j ∧ j ≤ pos + (k + 1)) := by omega
        rw [if_neg h2, List.getElem?_set_ne (by omega)]

theorem wrap_small (n : Nat) (h : n < 18446744073709551616) : wrap n = n := by
  simp only [wrap, size_mod_eq]; omega

/-- Reallocation of a well-formed vector to `ns` cells, `ns` larger than the size and
below `2 ^ 61`: either `realloc` returns null and the vector is untouched, or the vector
gets a block of `ns` cells that starts with the old elements. -/
theorem resize_realloc_spec (ok : Bool) (junk : Nat → Ptr) (v : vector) (ns : Nat)
    (hwf : wf v) (hns : v.size < ns) (hns2 : ns < 2305843009213693952) :
    resize_realloc ok junk v ns = Outcome.ret (false, some v) ∨
    ∃ block, resize_realloc ok junk v ns = Outcome.ret (true, some ⟨block, v.size, ns⟩) ∧
      block.length = ns ∧ ∀ j, j < v.size → block[j]? = v.data_array[j]? := by
  obtain ⟨h1, h2, h3⟩ := wf_bound v hwf
  have hbytes : wrap (ns * 8) = ns * 8 := wrap_small _ (by omega)
  have harea : wrap (wrap (ns + SIZE_MOD - v.size) * 8) = (ns - v.size) * 8 := by
    have e1 : wrap (ns + SIZE_MOD - v.size) = ns - v.size := by
      simp only [wrap, size_mod_eq]; omega
    rw [e1]; exact wrap_small _ (by omega)
  by_cases hgrant : (ok && decide (ns * 8 ≤ PTRDIFF_MAX)) = true
  · right
    have hre : realloc ok junk v.data_array (ns * 8)
        = Outcome.ret (some ((List.range ns).map (fun i => v.data_array.getD i (junk i)))) := by
      simp only [realloc]
      rw [if_neg (by omega), if_pos hgrant]
      simp [sizeof_ptr]
    have hlen : ((List.range ns).map (fun i => v.data_array.getD i (junk i))).length = ns := by
      simp
    refine ⟨((List.range ns).map (fun i => v.data_array.getD i (junk i))).take v.size
      ++ List.replicate (ns - v.size) 0
      ++ ((List.range ns).map (fun i => v.data_array.getD i (junk i))).drop
          (v.size + (ns - v.size)), ?_, ?_, ?_⟩
    · simp only [resize_realloc, sizeof_ptr, hbytes, hre, harea, memset_null]
      rw [Nat.mul_div_cancel _ (by norm_num : 0 < 8), if_pos (by rw [hlen]; omega)]
    · simp only [List.length_append, List.length_take, List.length_replicate,
        List.length_drop, hlen]
      omega
    · intro j hj
      rw [List.append_assoc, List.getElem?_append_left (by simp; omega),
        List.getElem?_take_of_lt hj, List.getElem?_map, List.getElem?_range (by omega)]
      simp only [Option.map_some', List.getD_eq_getElem?_getD]
      rw [List.getElem?_eq_getElem (by omega)]
      simp
  · left
    simp only [resize_realloc, sizeof_ptr, hbytes, realloc]
    rw [if_neg (by omega), if_neg hgrant]

/-- The capacity check `vector_resize(vec, NPOS)` on a well-formed vector: either it
returns false and the vector is untouched, or it returns true, the size and the elements
are as before, and the block has a free cell behind the elements. -/
theorem resize_auto_cases (ok : Bool) (junk : Nat → Ptr) (v : vector) (hwf : wf v) :
    vector_resize ok junk (some v) NPOS = Outcome.ret (false, some v) ∨
    ∃ v1, vector_resize ok junk (some v) NPOS = Outcome.ret (true, some v1) ∧
      v1.size = v.size ∧ v.size < v1.capacity ∧ v1.capacity ≤ v1.data_array.length ∧
      ∀ j, j < v.size → v1.data_array[j]? = v.data_array[j]? := by
  obtain ⟨h1, h2, h3⟩ := wf_bound v hwf
  by_cases hsc : v.size = v.capacity
  · by_cases hc0 : v.capacity = 0
    · rcases resize_realloc_spec ok junk v INIT_SIZE hwf (by simp [INIT_SIZE]; omega)
        (by simp [INIT_SIZE]) with hf | ⟨block, hr, hlen, hj⟩
      · left; simp [vector_resize, hsc, hc0, hf]
      · right
        refine ⟨⟨block, v.size, INIT_SIZE⟩, by simp [vector_resize, hsc, hc0, hr], rfl, ?_, ?_, hj⟩
        · simp [INIT_SIZE]; omega
        · simp [hlen]
    · have hw : wrap (v.capacity * GROWTH_RATE) = v.capacity * 2 := by
        simp only [GROWTH_RATE]; exact wrap_small _ (by omega)
      rcases resize_realloc_spec ok junk v (v.capacity * 2) hwf (by omega) (by omega)
        with hf | ⟨block, hr, hlen, hj⟩
      · left; simp [vector_resize, hsc, hc0, hw, hf]
      · right
        refine ⟨⟨block, v.size, v.capacity * 2⟩, by simp [vector_resize, hsc, hc0, hw, hr],
          rfl, ?_, ?_, hj⟩
        · simp; omega
        · simp [hlen]
  · right
    exact ⟨v, by simp [vector_resize, hsc], rfl, by omega, h2, fun _ _ => rfl⟩

/-- A block whose first `n + 1` cells are those of `A` with `data` put in at `pos` holds
the first `n` elements of `A` with `data` inserted at `pos`. -/
theorem take_eq_insert (A B : List Ptr) (n pos : Nat) (data : Ptr) (hpos : pos ≤ n)
    (hA : n ≤ A.length)
    (hB : ∀ j, j ≤ n → B[j]? =
      if j = pos then some data else if pos < j then A[j - 1]? else A[j]?) :
    B.take (n + 1) = (A.take n).take pos ++ data :: (A.take n).drop pos := by
  apply List.ext_getElem?
  intro j
  have hlen : ((A.take n).take pos).length = pos := by
    simp only [List.length_take]; omega
  rw [List.getElem?_take, List.getElem?_append, hlen]
  by_cases hj : j < n + 1
  · rw [if_pos hj, hB j (by omega)]
    by_cases h1 : j = pos
    · subst h1
      rw [if_pos rfl, if_neg (by omega), Nat.sub_self, List.getElem?_cons_zero]
    · rw [if_neg h1]
      by_cases h2 : pos < j
      · rw [if_pos h2, if_neg (by omega), List.getElem?_cons, if_neg (by omega),
          List.getElem?_drop, List.getElem?_take, if_pos (by omega)]
        congr 1; omega
      · rw [if_neg h2, if_pos (by omega), List.getElem?_take, if_pos (by omega),
          List.getElem?_take, if_pos (by omega)]
  · rw [if_neg hj, if_neg (by omega), List.getElem?_cons, if_neg (by omega),
      List.getElem?_drop, List.getElem?_take, if_neg (by omega)]

/-- The shifting loop of `vector_erase` reads the cell `i + k`: when that cell is outside
the block the loop leaves the block. -/
theorem erase_loop_out_of_block :
    ∀ (k i : Nat) (block : List Ptr), block.length ≤ i + (k + 1) →
      erase_loop (k + 1) i block = none := by
  intro k
  induction k with
  | zero =>
    intro i block hlen
    have : block[i + 1]? = none := List.getElem?_eq_none (by omega)
    simp [erase_loop, load, this]
  | succ k ih =>
    intro i block hlen
    cases hx : block[i + 1]? with
    | none => simp [erase_loop, load, hx]
    | some x =>
      by_cases hi : i < block.length
      · have hstore : store block i x = some (block.set i x) := by
          simp only [store]; rw [if_pos hi]
        have hrec := ih (i + 1) (block.set i x) (by simp; omega)
        rw [erase_loop]
        simp only [load, hx, hstore]
        exact hrec
      · rw [erase_loop]
        simp only [load, hx, store, if_neg hi]

/-- The shifting loop of `vector_erase` stays inside the block when `i + k` is a cell of
it, and moves the cells `i + 1 .. i + k` one position back. -/
theorem erase_loop_spec :
    ∀ (k i : Nat) (block : List Ptr), i + k < block.length →
      ∃ b, erase_loop k i block = some b ∧ b.length = block.length ∧
        ∀ j, b[j]? = if i ≤ j ∧ j < i + k then block[j + 1]? else block[j]? := by
  intro k
  induction k with
  | zero =>
    intro i block _
    refine ⟨block, rfl, rfl, fun j => ?_⟩
    have : ¬(i ≤ j ∧ j < i + 0) := by omega
    rw [if_neg this]
  | succ k ih =>
    intro i block hlen
    have hlt : i + 1 < block.length := by omega
    obtain ⟨x, hx⟩ : ∃ x, block[i + 1]? = some x :=
      ⟨block[i + 1], List.getElem?_eq_getElem hlt⟩
    have hstore : store block i x = some (block.set i x) := by
      simp only [store]; rw [if_pos (by omega)]
    obtain ⟨b, hb, hblen, hbj⟩ := ih (i + 1) (block.set i x) (by simp; omega)
    refine ⟨b, by simp only [erase_loop, load, hx, hstore, hb], by simpa using hblen,
      fun j => ?_⟩
    rw [hbj j]
    by_cases h1 : i + 1 ≤ j ∧ j < i + 1 + k
    · rw [if_pos h1, if_pos (by omega), List.getElem?_set_ne (by omega)]
    · rw [if_neg h1]
      by_cases h3 : j = i
      · rw [if_pos (by omega), h3, List.getElem?_set_self (by omega), hx]
      · rw [if_neg (by omega), List.getElem?_set_ne (fun e => h3 e.symm)]

/-- On a well-formed vector whose block has a cell behind the elements, `vector_erase` at
a position below the size returns true, removes that element, moves the later ones one
position back and keeps the capacity. -/
theorem vector_erase_of_spare_cell (v : vector) (pos : Nat) (hwf : wf v)
    (hspare : v.size < v.data_array.length) (hpos : pos < v.size) :
    ∃ v2, vector_erase (some v) pos = Outcome.ret (true, some v2) ∧
      v2.size = v.size - 1 ∧ v2.capacity = v.capacity ∧
      elems v2 = (elems v).take pos ++ (elems v).drop (pos + 1) := by
  obtain ⟨h1, h2, h3⟩ := wf_bound v hwf
  have hnpos : ¬(pos = NPOS ∨ pos ≥ v.size) := by
    simp only [NPOS, size_mod_eq]; omega
  obtain ⟨b, hb, hblen, hbj⟩ := erase_loop_spec (v.size - pos) pos v.data_array (by omega)
  refine ⟨⟨b, v.size - 1, v.capacity⟩, ?_, rfl, rfl, ?_⟩
  · simp only [vector_erase, if_neg hnpos, hb]
  · show b.take (v.size - 1) = _
    apply List.ext_getElem?
    intro j
    have hlen : ((elems v).take pos).length = pos := by
      simp only [elems, List.length_take]; omega
    rw [List.getElem?_take, List.getElem?_append, hlen, hbj j]
    simp only [elems]
    by_cases hj : j < v.size - 1
    · rw [if_pos hj]
      by_cases h4 : pos ≤ j
      · rw [if_pos (by omega), if_neg (by omega), List.getElem?_drop, List.getElem?_take,
          if_pos (by omega)]
        congr 1; omega
      · rw [if_neg (by omega), if_pos (by omega), List.getElem?_take, if_pos (by omega),
          List.getElem?_take, if_pos (by omega)]
    · rw [if_neg hj, if_neg (by omega), List.getElem?_drop, List.getElem?_take,
        if_neg (by omega)]

/-- On a vector whose elements fill the whole block, `vector_erase` at any position below
the size reads the cell behind the block. -/
theorem vector_erase_of_full_block (v : vector) (pos : Nat)
    (hfull : v.data_array.length ≤ v.size) (hpos : pos < v.size) (hnpos : pos ≠ NPOS) :
    vector_erase (some v) pos = Outcome.ub := by
  have hno : ¬(pos = NPOS ∨ pos ≥ v.size) := by omega
  obtain ⟨k, hk⟩ : ∃ k, v.size - pos = k + 1 := ⟨v.size - pos - 1, by omega⟩
  simp only [vector_erase, if_neg hno, hk,
    erase_loop_out_of_block k pos v.data_array (by omega)]

/-- For a position not below the size or equal to `NPOS`, and for a null vector,
`vector_erase` returns false and changes nothing. -/
theorem vector_erase_rejects (v : vector) (pos : Nat) :
    (pos ≥ v.size ∨ pos = NPOS → vector_erase (some v) pos = Outcome.ret (false, some v)) ∧
    vector_erase none pos = Outcome.ret (false, none) :=
  ⟨fun h => by simp only [vector_erase, if_pos (Or.comm.mp h)], rfl⟩

/-- Reallocation of a well-formed vector to `ns` cells when `realloc` returns null: the
call returns false and the vector is untouched. -/
theorem resize_realloc_denied (ok : Bool) (junk : Nat → Ptr) (v : vector) (ns : Nat)
    (hns : 0 < ns) (hns2 : ns < 2305843009213693952)
    (hdeny : (ok && decide (ns * 8 ≤ PTRDIFF_MAX)) = false) :
    resize_realloc ok junk v ns = Outcome.ret (false, some v) := by
  have hbytes : wrap (ns * 8) = ns * 8 := wrap_small _ (by omega)
  simp only [resize_realloc, sizeof_ptr, hbytes, realloc]
  rw [if_neg (by omega), if_neg (by rw [hdeny]; simp)]

/-- Reallocation of a well-formed vector to `ns` cells when `realloc` grants the request:
the call returns true and the vector gets a block of `ns` cells that starts with the old
elements, its size being as before. -/
theorem resize_realloc_granted (ok : Bool) (junk : Nat → Ptr) (v : vector) (ns : Nat)
    (hwf : wf v) (hns : v.size < ns) (hns2 : ns < 2305843009213693952)
    (hgrant : (ok && decide (ns * 8 ≤ PTRDIFF_MAX)) = true) :
    ∃ block, resize_realloc ok junk v ns = Outcome.ret (true, some ⟨block, v.size, ns⟩) ∧
      block.length = ns ∧ ∀ j, j < v.size → block[j]? = v.data_array[j]? := by
  rcases resize_realloc_spec ok junk v ns hwf hns hns2 with hf | hr
  · exfalso
    have hbytes : wrap (ns * 8) = ns * 8 := wrap_small _ (by omega)
    simp only [resize_realloc, sizeof_ptr, hbytes, realloc] at hf
    rw [if_neg (by omega), if_pos hgrant] at hf
    simp only at hf
    split at hf <;> simp at hf
  · exact hr

/-- The capacity the automatic resize asks for when the vector is full. -/
theorem auto_new_size (v : vector) (hwf : wf v) :
    (if v.capacity = 0 then INIT_SIZE else wrap (v.capacity * GROWTH_RATE))
      = (if v.capacity = 0 then INIT_SIZE else GROWTH_RATE * v.capacity) ∧
    v.capacity < (if v.capacity = 0 then INIT_SIZE else GROWTH_RATE * v.capacity) ∧
    (if v.capacity = 0 then INIT_SIZE else GROWTH_RATE * v.capacity)
      < 2305843009213693952 := by
  obtain ⟨h1, h2, h3⟩ := wf_bound v hwf
  by_cases hc0 : v.capacity = 0
  · simp [hc0, INIT_SIZE]
  · have hw : wrap (v.capacity * GROWTH_RATE) = GROWTH_RATE * v.capacity := by
      simp only [GROWTH_RATE]; rw [wrap_small _ (by omega)]; omega
    rw [if_neg hc0, if_neg hc0, hw]
    simp only [GROWTH_RATE]
    exact ⟨trivial, by omega, by omega⟩

/-- The automatic resize of a full well-formed vector: when `realloc` grants the request
the capacity becomes `INIT_SIZE` from 0 and `GROWTH_RATE` times the capacity otherwise,
size and elements being as before; when `realloc` returns null nothing changes. -/
theorem resize_auto_full (ok : Bool) (junk : Nat → Ptr) (v : vector) (hwf : wf v)
    (hfull : v.size = v.capacity) :
    ((ok && decide ((if v.capacity = 0 then INIT_SIZE else GROWTH_RATE * v.capacity) * 8
        ≤ PTRDIFF_MAX)) = true →
      ∃ block, vector_resize ok junk (some v) NPOS = Outcome.ret (true, some ⟨block, v.size,
          if v.capacity = 0 then INIT_SIZE else GROWTH_RATE * v.capacity⟩) ∧
        block.length = (if v.capacity = 0 then INIT_SIZE else GROWTH_RATE * v.capacity) ∧
        ∀ j, j < v.size → block[j]? = v.data_array[j]?) ∧
    ((ok && decide ((if v.capacity = 0 then INIT_SIZE else GROWTH_RATE * v.capacity) * 8
        ≤ PTRDIFF_MAX)) = false →
      vector_resize ok junk (some v) NPOS = Outcome.ret (false, some v)) := by
  obtain ⟨hns, hlt, hbound⟩ := auto_new_size v hwf
  have hres : vector_resize ok junk (some v) NPOS = resize_realloc ok junk v
      (if v.capacity = 0 then INIT_SIZE else GROWTH_RATE * v.capacity) := by
    simp only [vector_resize, ne_eq, not_true_eq_false, if_false, hfull, if_true, hns]
  rw [hres]
  exact ⟨fun hg => resize_realloc_granted ok junk v _ hwf (by omega) hbound hg,
    fun hd => resize_realloc_denied ok junk v _ (by omega) hbound hd⟩

/-- Two blocks that agree on their first `n` cells hold the same first `n` elements. -/
theorem take_eq_of_agree (A B : List Ptr) (n : Nat) (h : ∀ j, j < n → B[j]? = A[j]?) :
    B.take n = A.take n := by
  apply List.ext_getElem?
  intro j
  rw [List.getElem?_take, List.getElem?_take]
  by_cases hj : j < n
  · rw [if_pos hj, if_pos hj, h j hj]
  · rw [if_neg hj, if_neg hj]

/-- `vector_insert` on a well-formed vector whose capacity check succeeds. -/
theorem insert_of_check (ok : Bool) (junk : Nat → Ptr) (v : vector) (pos : Nat)
    (data : Ptr) (hwf : wf v) (hpos : pos ≤ v.size) (v0 : Option vector)
    (hcheck : vector_resize ok junk (some v) NPOS = Outcome.ret (true, v0)) :
    ∃ v2, vector_insert ok junk (some v) pos data = Outcome.ret (true, some v2) ∧
      v2.size = v.size + 1 ∧
      elems v2 = (elems v).take pos ++ data :: (elems v).drop pos := by
  obtain ⟨h1, h2, h3⟩ := wf_bound v hwf
  rcases resize_auto_cases ok junk v hwf with hf | ⟨v1, hr, hsize, hcap, hlen, hsame⟩
  · rw [hf] at hcheck; simp at hcheck
  · have hnpos : ¬(pos = NPOS ∨ pos > v.size) := by
      simp only [NPOS, size_mod_eq]; omega
    obtain ⟨b, hb, hblen, hbj⟩ :=
      insert_loop_spec pos (v1.size - pos) v1.data_array (by omega)
    have hstore : store b pos data = some (b.set pos data) := by
      simp only [store]; rw [if_pos (by omega)]
    refine ⟨⟨b.set pos data, wrap (v1.size + 1), v1.capacity⟩, ?_, ?_, ?_⟩
    · simp only [vector_insert, if_neg hnpos, hr, hb, hstore]
    · show wrap (v1.size + 1) = v.size + 1
      rw [hsize]; exact wrap_small _ (by omega)
    · show (b.set pos data).take (wrap (v1.size + 1)) = _
      rw [hsize, wrap_small _ (by omega)]
      apply take_eq_insert v.data_array _ v.size pos data hpos (by omega)
      intro j hj
      by_cases hjp : j = pos
      · rw [if_pos hjp, hjp, List.getElem?_set_self (by omega)]
      · rw [if_neg hjp, List.getElem?_set_ne (fun e => hjp e.symm), hbj j]
        by_cases h4 : pos < j
        · rw [if_pos h4, if_pos (by omega), hsame (j - 1) (by omega)]
        · rw [if_neg h4, if_neg (by omega), hsame j (by omega)]

/-- `vector_insert` on a vector whose capacity check fails leaving the vector untouched:
the insertion returns false and the vector is untouched. -/
theorem insert_of_failed_check (ok : Bool) (junk : Nat → Ptr) (v : vector) (pos : Nat)
    (data : Ptr)
    (hcheck : vector_resize ok junk (some v) NPOS = Outcome.ret (false, some v)) :
    vector_insert ok junk (some v) pos data = Outcome.ret (false, some v) := by
  by_cases hbad : pos = NPOS ∨ pos > v.size
  · simp only [vector_insert, if_pos hbad]
  · simp only [vector_insert, if_neg hbad, hcheck]

/-- The position `vector_push_back` inserts at is the size of the vector, also for the
empty vector, where `vector_end` is `NPOS` and `NPOS + 1` wraps to 0. -/
theorem push_back_pos (v : vector) (hwf : wf v) :
    wrap (vector_end (some v) + 1) = v.size ∧
    (v.size = 0 → vector_end (some v) = NPOS ∧ wrap (NPOS + 1) = 0) := by
  obtain ⟨h1, h2, h3⟩ := wf_bound v hwf
  have hz : wrap (NPOS + 1) = 0 := by
    simp [wrap, NPOS, size_mod_eq]
  constructor
  · by_cases h0 : v.size > 0
    · simp only [vector_end, if_pos h0]
      rw [wrap_small _ (by omega)]; omega
    · simp only [vector_end, if_neg h0, hz]; omega
  · intro h0
    exact ⟨by simp [vector_end, h0], hz⟩

/-- A vector whose block has exactly `size` cells while its capacity says there is room:
the capacity check of `vector_insert` passes without a reallocation and the insertion
writes the cell behind the block. -/
theorem insert_of_short_block (ok : Bool) (junk : Nat → Ptr) (v : vector) (pos : Nat)
    (data : Ptr) (hcap : v.size < v.capacity) (hblock : v.data_array.length = v.size)
    (hpos : pos ≤ v.size) (hn : pos ≠ NPOS) :
    vector_resize ok junk (some v) NPOS = Outcome.ret (true, some v) ∧
    vector_insert ok junk (some v) pos data = Outcome.ub := by
  have hne : v.size ≠ v.capacity := by omega
  have hres : vector_resize ok junk (some v) NPOS = Outcome.ret (true, some v) := by
    simp [vector_resize, hne]
  refine ⟨hres, ?_⟩
  have hcond : ¬ (pos = NPOS ∨ pos > v.size) := by
    rintro (h | h)
    · exact hn h
    · omega
  unfold vector_insert
  simp only [if_neg hcond, hres]
  rcases Nat.eq_zero_or_pos (v.size - pos) with h0 | hp
  · have hsp : pos = v.size := by omega
    rw [h0]
    simp [insert_loop, store, hblock, hsp]
  · obtain ⟨k, hk⟩ : ∃ k, v.size - pos = k + 1 := ⟨v.size - pos - 1, by omega⟩
    rw [hk]
    have hlt : pos + k < v.data_array.length := by omega
    have hl : load v.data_array (pos + k) = some v.data_array[pos + k] := by
      simp [load, List.getElem?_eq_getElem hlt]
    have hst : ∀ x, store v.data_array (pos + k + 1) x = none := by
      intro x
      simp [store]; omega
    simp [insert_loop, hl, hst]

/-- The same for `vector_push_back`: on such a vector it inserts at `size`, the cell
behind the block. -/
theorem push_back_of_short_block (ok : Bool) (junk : Nat → Ptr) (v : vector) (data : Ptr)
    (hcap : v.size < v.capacity) (hblock : v.data_array.length = v.size)
    (hsize : v.size < NPOS) :
    wrap (vector_end (some v) + 1) = v.size ∧
    vector_push_back ok junk (some v) data = Outcome.ub := by
  have hN : NPOS = 18446744073709551615 := by simp [NPOS, size_mod_eq]
  rw [hN] at hsize
  have hpos : wrap (vector_end (some v) + 1) = v.size := by
    by_cases h0 : v.size > 0
    · simp only [vector_end, if_pos h0]
      rw [wrap_small _ (by omega)]; omega
    · have hz : wrap (NPOS + 1) = 0 := by simp [wrap, NPOS, size_mod_eq]
      simp only [vector_end, if_neg h0, hz]; omega
  refine ⟨hpos, ?_⟩
  unfold vector_push_back
  rw [hpos]
  exact (insert_of_short_block ok junk v v.size data hcap hblock (Nat.le_refl _)
    (by rw [hN]; omega)).2

/-! ## Properties of the vector -/

/-- The insertion of `vector_insert` on a well-formed vector.  For a well-formed vector
holding `elems v` and a position `pos` up to its size, when the capacity check `vector_resize(vec, NPOS)` returns true,
`vector_insert` returns true and the vector then holds the elements before `pos`, then
`data`, then the elements from `pos` on, its size being one more.  For `pos` beyond the
size or equal to `NPOS` it returns false and leaves the vector as it is, and for a null
vector it returns false. -/
theorem vector_insert_spec (ok : Bool) (junk : Nat → Ptr) (v : vector) (pos : Nat)
    (data : Ptr) (hwf : wf v) :
    (pos ≤ v.size → (∃ v1, vector_resize ok junk (some v) NPOS = Outcome.ret (true, v1)) →
      ∃ v2, vector_insert ok junk (some v) pos data = Outcome.ret (true, some v2) ∧
        v2.size = v.size + 1 ∧
        elems v2 = (elems v).take pos ++ data :: (elems v).drop pos) ∧
    (pos > v.size ∨ pos = NPOS →
      vector_insert ok junk (some v) pos data = Outcome.ret (false, some v)) ∧
    vector_insert ok junk none pos data = Outcome.ret (false, none) := by
  obtain ⟨h1, h2, h3⟩ := wf_bound v hwf
  refine ⟨?_, ?_, rfl⟩
  · intro hpos ⟨v0, hcheck⟩
    rcases resize_auto_cases ok junk v hwf with hf | ⟨v1, hr, hsize, hcap, hlen, hsame⟩
    · rw [hf] at hcheck; simp at hcheck
    · have hnpos : ¬(pos = NPOS ∨ pos > v.size) := by
        simp only [NPOS, size_mod_eq]; omega
      obtain ⟨b, hb, hblen, hbj⟩ :=
        insert_loop_spec pos (v1.size - pos) v1.data_array (by omega)
      have hstore : store b pos data = some (b.set pos data) := by
        simp only [store]; rw [if_pos (by omega)]
      refine ⟨⟨b.set pos data, wrap (v1.size + 1), v1.capacity⟩, ?_, ?_, ?_⟩
      · simp only [vector_insert, if_neg hnpos, hr, hb, hstore]
      · show wrap (v1.size + 1) = v.size + 1
        rw [hsize]; exact wrap_small _ (by omega)
      · show (b.set pos data).take (wrap (v1.size + 1)) = _
        rw [hsize, wrap_small _ (by omega)]
        apply take_eq_insert v.data_array _ v.size pos data hpos (by omega)
        intro j hj
        by_cases hjp : j = pos
        · rw [if_pos hjp, hjp, List.getElem?_set_self (by omega)]
        · rw [if_neg hjp, List.getElem?_set_ne (fun e => hjp e.symm), hbj j]
          by_cases h4 : pos < j
          · rw [if_pos h4, if_pos (by omega), hsame (j - 1) (by omega)]
          · rw [if_neg h4, if_neg (by omega), hsame j (by omega)]
  · intro hbad
    simp only [vector_insert, if_pos (Or.comm.mp hbad)]

/-- An instance of `vector_insert_spec`: inserting 33 at position 1 of the full vector
holding 22, 11 grows the block and gives 22, 33, 11. -/
theorem vector_insert_spec_witness :
    wf ⟨[22, 11], 2, 2⟩ ∧
    ∃ v2, vector_insert true (fun _ => 77) (some ⟨[22, 11], 2, 2⟩) 1 33
        = Outcome.ret (true, some v2) ∧
      v2.size = 3 ∧ elems v2 = [22, 33, 11] :=
  ⟨by simp [wf, sizeof_ptr, ptrdiff_max_eq],
    (vector_insert_spec true (fun _ => 77) ⟨[22, 11], 2, 2⟩ 1 33
      (by simp [wf, sizeof_ptr, ptrdiff_max_eq])).1 (by decide) ⟨_, rfl⟩⟩

/-- C9, evaluated after a `vector_resize` whose byte count wraps.  On the new vector
`vector_resize(vec, 2^61 + 1)` asks `realloc` for `(2^61 + 1) * 8` bytes, which is 8 in
`size_t`: it returns true with a block of one cell and the capacity `2^61 + 1`.  The
insertion at 0 fills that cell.  For the insertion at 1, a position up to the size, the
capacity check returns true without reallocating, and `data_array[1]` is written behind
the block: the call has no defined result. -/
theorem vector_insert_writes_past_block (ok : Bool) (junk : Nat → Ptr) :
    vector_resize true junk (vector_new true) (2 ^ 61 + 1)
      = Outcome.ret (true, some ⟨[0], 0, 2 ^ 61 + 1⟩) ∧
    vector_insert ok junk (some ⟨[0], 0, 2 ^ 61 + 1⟩) 0 11
      = Outcome.ret (true, some ⟨[11], 1, 2 ^ 61 + 1⟩) ∧
    vector_resize ok junk (some ⟨[11], 1, 2 ^ 61 + 1⟩) NPOS
      = Outcome.ret (true, some ⟨[11], 1, 2 ^ 61 + 1⟩) ∧
    vector_insert ok junk (some ⟨[11], 1, 2 ^ 61 + 1⟩) 1 12 = Outcome.ub :=
  ⟨rfl, rfl, rfl, rfl⟩

/-- C10, evaluated at a full vector.  Two insertions into a new vector give the vector
holding 11, 22 in a block of `INIT_SIZE` = 2 cells; `vector_erase` at position 0, as at
position 1, then reads `data_array[2]`, a cell the block does not have. -/
theorem vector_erase_full_reads_past_block :
    vector_insert true (fun _ => 77) (vector_new true) 0 11
      = Outcome.ret (true, some ⟨[11, 0], 1, 2⟩) ∧
    vector_insert true (fun _ => 77) (some ⟨[11, 0], 1, 2⟩) 1 22
      = Outcome.ret (true, some ⟨[11, 22], 2, 2⟩) ∧
    vector_erase (some ⟨[11, 22], 2, 2⟩) 0 = Outcome.ub ∧
    vector_erase (some ⟨[11, 22], 2, 2⟩) 1 = Outcome.ub := by
  refine ⟨by decide, by decide, by decide, by decide⟩

/-- On a well-formed vector `vector_push_back` inserts at the end.  For a well-formed
vector holding `n` elements, the empty one included, the position handed to `vector_insert` is `n` (for the
empty vector `vector_end` is `NPOS` and `NPOS + 1` wraps to 0).  When `vector_push_back`
returns true the first `n` elements are as before, the size is `n + 1`, the vector holds
the old elements followed by `data`, and `vector_back` and `vector_at(vec, n)` return
`data`.  It does return true whenever the capacity check succeeds. -/
theorem vector_push_back_spec (ok : Bool) (junk : Nat → Ptr) (v : vector) (data : Ptr)
    (hwf : wf v) :
    wrap (vector_end (some v) + 1) = v.size ∧
    (v.size = 0 → vector_end (some v) = NPOS ∧ wrap (NPOS + 1) = 0) ∧
    (∀ r, vector_push_back ok junk (some v) data = Outcome.ret (true, r) →
      ∃ v2, r = some v2 ∧ v2.size = v.size + 1 ∧ (elems v2).take v.size = elems v ∧
        elems v2 = elems v ++ [data] ∧
        vector_back (some v2) = Outcome.ret data ∧
        vector_at (some v2) v.size = Outcome.ret data) ∧
    ((∃ v1, vector_resize ok junk (some v) NPOS = Outcome.ret (true, v1)) →
      ∃ v2, vector_push_back ok junk (some v) data = Outcome.ret (true, some v2)) := by
  obtain ⟨h1, h2, h3⟩ := wf_bound v hwf
  obtain ⟨hpos, hempty⟩ := push_back_pos v hwf
  have hlenE : (elems v).length = v.size := by
    simp only [elems, List.length_take]; omega
  refine ⟨hpos, hempty, ?_, ?_⟩
  · intro r hr
    simp only [vector_push_back, hpos] at hr
    rcases resize_auto_cases ok junk v hwf with hf | ⟨v1, hcheck, _⟩
    · rw [insert_of_failed_check ok junk v v.size data hf] at hr
      simp at hr
    · obtain ⟨v2, hins, hsize, hel⟩ :=
        insert_of_check ok junk v v.size data hwf (le_refl _) (some v1) hcheck
      rw [hins] at hr
      simp only [Outcome.ret.injEq, Prod.mk.injEq, true_and] at hr
      have hel2 : elems v2 = elems v ++ [data] := by
        rw [hel, List.take_of_length_le (by omega), List.drop_of_length_le (by omega)]
      have hcell : v2.data_array[v.size]? = some data := by
        have h5 : (elems v2)[v.size]? = some data := by
          rw [hel2, List.getElem?_append_right (by omega), hlenE]
          simp
        simp only [elems] at h5
        rw [List.getElem?_take, if_pos (by omega)] at h5
        exact h5
      refine ⟨v2, hr.symm, hsize, ?_, hel2, ?_, ?_⟩
      · rw [hel2, List.take_append_of_le_length (by omega),
          List.take_of_length_le (by omega)]
      · simp only [vector_back, load]
        rw [if_pos (by omega), hsize, Nat.add_sub_cancel, hcell]
      · simp only [vector_at, load]
        rw [if_pos ⟨by omega, by omega⟩, hcell]
  · intro ⟨v1, hcheck⟩
    obtain ⟨v2, hins, _⟩ :=
      insert_of_check ok junk v v.size data hwf (le_refl _) v1 hcheck
    exact ⟨v2, by simp only [vector_push_back, hpos, hins]⟩

/-- An instance of `vector_push_back_spec`: pushing 5 onto the new, empty vector. -/
theorem vector_push_back_spec_witness :
    wf ⟨[], 0, 0⟩ ∧
    vector_push_back true (fun _ => 7) (some ⟨[], 0, 0⟩) 5
      = Outcome.ret (true, some ⟨[5, 0], 1, 2⟩) ∧
    ∃ v2, some (⟨[5, 0], 1, 2⟩ : vector) = some v2 ∧ v2.size = 0 + 1 ∧
      (elems v2).take 0 = elems ⟨[], 0, 0⟩ ∧ elems v2 = elems ⟨[], 0, 0⟩ ++ [5] ∧
      vector_back (some v2) = Outcome.ret 5 ∧ vector_at (some v2) 0 = Outcome.ret 5 :=
  ⟨by simp [wf, sizeof_ptr, ptrdiff_max_eq], by decide,
    (vector_push_back_spec true (fun _ => 7) ⟨[], 0, 0⟩ 5
      (by simp [wf, sizeof_ptr, ptrdiff_max_eq])).2.2.1 _ (by decide)⟩

/-- C12, `vector_push_back` is atomic on allocation failure.  On a well-formed vector,
whenever `vector_push_back` returns false the vector is exactly as before the call, block,
size and capacity; it does return false when the vector is full and `realloc` returns
null; and on a null vector it returns false. -/
theorem vector_push_back_atomic (ok : Bool) (junk : Nat → Ptr) (v : vector) (data : Ptr)
    (hwf : wf v) :
    (∀ r, vector_push_back ok junk (some v) data = Outcome.ret (false, r) → r = some v) ∧
    (v.size = v.capacity → ok = false →
      vector_push_back ok junk (some v) data = Outcome.ret (false, some v)) ∧
    vector_push_back ok junk none data = Outcome.ret (false, none) := by
  obtain ⟨hpos, _⟩ := push_back_pos v hwf
  refine ⟨?_, ?_, ?_⟩
  · intro r hr
    simp only [vector_push_back, hpos] at hr
    rcases resize_auto_cases ok junk v hwf with hf | ⟨v1, hcheck, _⟩
    · rw [insert_of_failed_check ok junk v v.size data hf] at hr
      simp only [Outcome.ret.injEq, Prod.mk.injEq, true_and] at hr
      exact hr.symm
    · obtain ⟨v2, hins, _⟩ :=
        insert_of_check ok junk v v.size data hwf (le_refl _) (some v1) hcheck
      rw [hins] at hr
      simp at hr
  · intro hfull hok
    have hdeny := (resize_auto_full ok junk v hwf hfull).2 (by rw [hok]; rfl)
    simp only [vector_push_back, hpos]
    exact insert_of_failed_check ok junk v v.size data hdeny
  · simp [vector_push_back, vector_insert]

/-- Witness of `vector_push_back_atomic`: the full vector holding 5, 6 when `realloc`
returns null. -/
theorem vector_push_back_atomic_witness :
    wf ⟨[5, 6], 2, 2⟩ ∧
    vector_push_back false (fun _ => 7) (some ⟨[5, 6], 2, 2⟩) 9
      = Outcome.ret (false, some ⟨[5, 6], 2, 2⟩) :=
  ⟨by simp [wf, sizeof_ptr, ptrdiff_max_eq],
    (vector_push_back_atomic false (fun _ => 7) ⟨[5, 6], 2, 2⟩ 9
      (by simp [wf, sizeof_ptr, ptrdiff_max_eq])).2.1 rfl rfl⟩

/-- C13 as stated fails on the new vector: its size and capacity are both 0, the
reallocation succeeds, and the capacity becomes `INIT_SIZE` = 2, which is not
`GROWTH_RATE` times the capacity 0. -/
theorem vector_resize_auto_from_zero :
    ∃ v1, vector_resize true (fun _ => 7) (vector_new true) NPOS
        = Outcome.ret (true, some v1) ∧
      (⟨[], 0, 0⟩ : vector).size = (⟨[], 0, 0⟩ : vector).capacity ∧
      v1.capacity = 2 ∧ v1.capacity ≠ GROWTH_RATE * (⟨[], 0, 0⟩ : vector).capacity :=
  ⟨⟨[0, 0], 0, 2⟩, by decide, rfl, rfl, by decide⟩

/-- C13 as amended, automatic growth.  On a well-formed vector `vector_resize(vec, NPOS)`
returns true and changes nothing when the size is below the capacity.  When the size
equals the capacity and the call returns true, the reallocation having succeeded, the
capacity is `INIT_SIZE` if it was 0 and `GROWTH_RATE` times what it was otherwise, and
size and elements are as before.  The call does return true when `realloc` grants the
request. -/
theorem vector_resize_auto (ok : Bool) (junk : Nat → Ptr) (v : vector) (hwf : wf v) :
    (v.size < v.capacity →
      vector_resize ok junk (some v) NPOS = Outcome.ret (true, some v)) ∧
    (v.size = v.capacity → ∀ r, vector_resize ok junk (some v) NPOS = Outcome.ret (true, r) →
      ∃ v1, r = some v1 ∧
        v1.capacity = (if v.capacity = 0 then INIT_SIZE else GROWTH_RATE * v.capacity) ∧
        v1.size = v.size ∧ elems v1 = elems v) ∧
    (v.size = v.capacity → ok = true →
      (if v.capacity = 0 then INIT_SIZE else GROWTH_RATE * v.capacity) * sizeof_ptr
        ≤ PTRDIFF_MAX →
      ∃ v1, vector_resize ok junk (some v) NPOS = Outcome.ret (true, some v1)) := by
  refine ⟨?_, ?_, ?_⟩
  · intro hlt
    have hne : v.size ≠ v.capacity := by omega
    simp [vector_resize, hne]
  · intro hfull r hr
    obtain ⟨hgrant, hdeny⟩ := resize_auto_full ok junk v hwf hfull
    cases hg : (ok && decide ((if v.capacity = 0 then INIT_SIZE else GROWTH_RATE * v.capacity)
        * 8 ≤ PTRDIFF_MAX))
    · rw [hdeny hg] at hr; simp at hr
    · obtain ⟨block, hres, _, hsame⟩ := hgrant hg
      rw [hres] at hr
      simp only [Outcome.ret.injEq, Prod.mk.injEq, true_and] at hr
      exact ⟨_, hr.symm, rfl, rfl, take_eq_of_agree v.data_array block v.size hsame⟩
  · intro hfull hok hfit
    obtain ⟨hgrant, _⟩ := resize_auto_full ok junk v hwf hfull
    simp only [sizeof_ptr] at hfit
    obtain ⟨block, hres, _⟩ := hgrant (by rw [hok]; simpa using hfit)
    exact ⟨_, hres⟩

/-- Witness of `vector_resize_auto`: the full vector holding 5, 6 grows to capacity 4. -/
theorem vector_resize_auto_witness :
    wf ⟨[5, 6], 2, 2⟩ ∧
    vector_resize true (fun _ => 7) (some ⟨[5, 6], 2, 2⟩) NPOS
      = Outcome.ret (true, some ⟨[5, 6, 0, 0], 2, 4⟩) ∧
    ∃ v1, some (⟨[5, 6, 0, 0], 2, 4⟩ : vector) = some v1 ∧
      v1.capacity = (if (2 : Nat) = 0 then INIT_SIZE else GROWTH_RATE * 2) ∧
      v1.size = 2 ∧ elems v1 = elems ⟨[5, 6], 2, 2⟩ :=
  ⟨by simp [wf, sizeof_ptr, ptrdiff_max_eq], by decide,
    (vector_resize_auto true (fun _ => 7) ⟨[5, 6], 2, 2⟩
      (by simp [wf, sizeof_ptr, ptrdiff_max_eq])).2.1 rfl _ (by decide)⟩

/-- C14, shrinking resize.  For every vector and every `num` below its capacity and other
than `NPOS`, `vector_resize(vec, num)` returns true, the capacity becomes `num`, the size
becomes the smaller of the size and `num`, and the vector holds its first that many
elements, in the same order. -/
theorem vector_resize_shrink (ok : Bool) (junk : Nat → Ptr) (v : vector) (num : Nat)
    (hnum : num < v.capacity) (hnpos : num ≠ NPOS) :
    ∃ v1, vector_resize ok junk (some v) num = Outcome.ret (true, some v1) ∧
      v1.capacity = num ∧ v1.size = min v.size num ∧
      elems v1 = (elems v).take (min v.size num) := by
  refine ⟨⟨v.data_array, if v.size > num then num else v.size, num⟩, ?_, rfl, ?_, ?_⟩
  · simp only [vector_resize, ne_eq, hnpos, not_false_eq_true, if_true, gt_iff_lt, hnum]
  · show (if v.size > num then num else v.size) = min v.size num
    by_cases h : v.size > num
    · rw [if_pos h]; omega
    · rw [if_neg h]; omega
  · show v.data_array.take (if v.size > num then num else v.size) = _
    simp only [elems, List.take_take]
    congr 1
    by_cases h : v.size > num
    · rw [if_pos h]; omega
    · rw [if_neg h]; omega

/-- Witness of `vector_resize_shrink`: shrinking the vector holding 5, 6, 8 to 2 cells. -/
theorem vector_resize_shrink_witness :
    (2 : Nat) < (⟨[5, 6, 8, 9], 3, 4⟩ : vector).capacity ∧ (2 : Nat) ≠ NPOS ∧
    ∃ v1, vector_resize true (fun _ => 7) (some ⟨[5, 6, 8, 9], 3, 4⟩) 2
        = Outcome.ret (true, some v1) ∧
      v1.capacity = 2 ∧ v1.size = min 3 2 ∧
      elems v1 = (elems ⟨[5, 6, 8, 9], 3, 4⟩).take (min 3 2) :=
  ⟨by decide, by decide,
    vector_resize_shrink true (fun _ => 7) ⟨[5, 6, 8, 9], 3, 4⟩ 2 (by decide) (by decide)⟩

end Vec

namespace TinyQueue

/-! ## Properties of the queue -/

/-- C1, FIFO order.  On a freshly created queue, pushing the payloads of `cells` in order
(each push succeeds, returning 0) and then popping as many times returns these payloads
in the order they were pushed, each pop handing out an item, in either build.  The addresses `malloc` returns are
those of `cells`: distinct and not live before. -/
theorem fifo_order (WAKE : Bool) (w0 : World) (cells : List (Addr × Ptr))
    (hfresh : ∀ c ∈ cells, w0.heap c.1 = none) (hnd : (cells.map Prod.fst).Nodup) :
    ∃ q0 w1 q2 w2, tiny_queue_create WAKE true true true w0 = (some q0, w1) ∧
      run WAKE (pushes cells ++ List.replicate cells.length Op.pop) q0 w1
        = Outcome.ret (cells.map (fun _ => Ret.push_ret 0)
            ++ cells.map (fun c => Ret.pop_ret c.2 true), q2, w2) := by
  obtain ⟨w1, hcreate, hheap, hrep⟩ := create_rep WAKE w0
  obtain ⟨qa, wa, hpush, hrepa⟩ :=
    run_pushes WAKE cells ⟨none, none⟩ w1 [] hrep (by rw [hheap]; exact hfresh) hnd
  obtain ⟨wb, hpop, _⟩ := run_pops WAKE cells qa wa (by simpa using hrepa)
  exact ⟨_, w1, _, wb, hcreate, run_append WAKE _ _ _ _ _ _ _ _ _ _ hpush hpop⟩

/-- Witness of `fifo_order`: payloads A = 10, B = 20, C = 30 in cells 1, 2, 3. -/
theorem fifo_order_witness :
    (∀ c ∈ [((1 : Addr), (10 : Ptr)), (2, 20), (3, 30)],
        (⟨fun _ => none, []⟩ : World).heap c.1 = none) ∧
    ([((1 : Addr), (10 : Ptr)), (2, 20), (3, 30)].map Prod.fst).Nodup ∧
    ∃ q0 w1 q2 w2, tiny_queue_create false true true true ⟨fun _ => none, []⟩ = (some q0, w1) ∧
      run false (pushes [(1, 10), (2, 20), (3, 30)] ++ List.replicate 3 Op.pop) q0 w1
        = Outcome.ret ([Ret.push_ret 0, Ret.push_ret 0, Ret.push_ret 0,
            Ret.pop_ret 10 true, Ret.pop_ret 20 true, Ret.pop_ret 30 true], q2, w2) :=
  ⟨by simp, by decide,
    fifo_order false ⟨fun _ => none, []⟩ [(1, 10), (2, 20), (3, 30)] (by simp) (by decide)⟩

/-- C3, empty semantics.  In the build without `TINY_QUEUE_WAKE`, on a freshly created queue
and again after pushing `cells` and popping as many times (no cells for the queue as
created), the queue has `head` and `tail` null, `tiny_queue_is_empty` returns 1, a pop
returns `NULL` leaving queue and heap unchanged, and so do `k` pops in a row for every
`k`, none of them handing out an item. -/
theorem empty_semantics (w0 : World) (cells : List (Addr × Ptr))
    (hfresh : ∀ c ∈ cells, w0.heap c.1 = none) (hnd : (cells.map Prod.fst).Nodup) (k : Nat) :
    ∃ w1 rs w2 w3,
      tiny_queue_create false true true true w0 = (some ⟨none, none⟩, w1) ∧
      run false (pushes cells ++ List.replicate cells.length Op.pop) ⟨none, none⟩ w1
        = Outcome.ret (rs, ⟨none, none⟩, w2) ∧
      tiny_queue_is_empty (some ⟨none, none⟩) = 1 ∧
      (∀ wakeups, tiny_queue_pop false (some ⟨none, none⟩) wakeups w2
        = Outcome.ret (NULL, some ⟨none, none⟩,
            ⟨w2.heap, w2.log ++ [Event.mutex_lock, Event.mutex_unlock]⟩)) ∧
      run false (List.replicate k Op.pop) ⟨none, none⟩ w2
        = Outcome.ret (List.replicate k (Ret.pop_ret NULL false), ⟨none, none⟩, w3) ∧
      w3.heap = w2.heap := by
  obtain ⟨w1, hcreate, hheap, hrep⟩ := create_rep false w0
  obtain ⟨qa, wa, hpush, hrepa⟩ :=
    run_pushes false cells ⟨none, none⟩ w1 [] hrep (by rw [hheap]; exact hfresh) hnd
  obtain ⟨wb, hpop, _⟩ := run_pops false cells qa wa (by simpa using hrepa)
  obtain ⟨wc, hrun, hh, _⟩ := run_pops_empty k ⟨none, none⟩ wb rfl
  exact ⟨w1, _, wb, wc, hcreate, run_append false _ _ _ _ _ _ _ _ _ _ hpush hpop, rfl,
    fun wakeups => pop_empty ⟨none, none⟩ wb wakeups rfl, hrun, hh⟩

/-- Witness of `empty_semantics`: two pushes, two pops, then three more pops. -/
theorem empty_semantics_witness :
    (∀ c ∈ [((1 : Addr), (10 : Ptr)), (2, 20)], (⟨fun _ => none, []⟩ : World).heap c.1 = none) ∧
    ([((1 : Addr), (10 : Ptr)), (2, 20)].map Prod.fst).Nodup ∧
    ∃ w1 rs w2 w3,
      tiny_queue_create false true true true ⟨fun _ => none, []⟩ = (some ⟨none, none⟩, w1) ∧
      run false (pushes [(1, 10), (2, 20)] ++ List.replicate 2 Op.pop) ⟨none, none⟩ w1
        = Outcome.ret (rs, ⟨none, none⟩, w2) ∧
      tiny_queue_is_empty (some ⟨none, none⟩) = 1 ∧
      (∀ wakeups, tiny_queue_pop false (some ⟨none, none⟩) wakeups w2
        = Outcome.ret (NULL, some ⟨none, none⟩,
            ⟨w2.heap, w2.log ++ [Event.mutex_lock, Event.mutex_unlock]⟩)) ∧
      run false (List.replicate 3 Op.pop) ⟨none, none⟩ w2
        = Outcome.ret (List.replicate 3 (Ret.pop_ret NULL false), ⟨none, none⟩, w3) ∧
      w3.heap = w2.heap :=
  ⟨by simp, by decide,
    empty_semantics ⟨fun _ => none, []⟩ [(1, 10), (2, 20)] (by simp) (by decide) 3⟩

/-- C5, push failure is atomic.  On a well-formed queue `tiny_queue_push` returns, and it
returns -1 exactly when `malloc` returns no cell; in that case `head`, `tail` and the
heap, hence the whole chain, are as before the call.  When `malloc` returns a cell the
push returns 0. -/
theorem push_failure_atomic (WAKE : Bool) (q : tiny_queue_t) (w : World)
    (l : List (Addr × Ptr)) (x : Ptr) (new_node : Option Addr)
    (hrep : Rep q w.heap l) (hnew : ∀ n, new_node = some n → w.heap n = none) :
    ∃ r q1 w1, tiny_queue_push WAKE (some q) x new_node w = Outcome.ret (r, some q1, w1) ∧
      (r = -1 ↔ new_node = none) ∧
      (new_node = none → q1 = q ∧ w1.heap = w.heap ∧ Rep q1 w1.heap l) ∧
      (new_node ≠ none → r = 0) := by
  cases new_node with
  | none =>
    exact ⟨-1, q, ⟨w.heap, w.log ++ [Event.malloc_node none]⟩, rfl, (by simp),
      (fun _ => ⟨rfl, rfl, hrep⟩), (fun h => absurd rfl h)⟩
  | some n =>
    obtain ⟨q1, w1, hpush, _, _, _⟩ := push_rep WAKE q w l x n hrep (hnew n rfl)
    exact ⟨0, q1, w1, hpush, (by simp), (fun h => Option.noConfusion h), (fun _ => rfl)⟩

/-- Witness of `push_failure_atomic`: a failed push on the empty queue. -/
theorem push_failure_atomic_witness :
    Rep ⟨none, none⟩ (⟨fun _ => none, []⟩ : World).heap [] ∧
    (∀ n, (none : Option Addr) = some n → (⟨fun _ => none, []⟩ : World).heap n = none) ∧
    ∃ r q1 w1, tiny_queue_push false (some ⟨none, none⟩) 5 none ⟨fun _ => none, []⟩
        = Outcome.ret (r, some q1, w1) ∧
      (r = -1 ↔ (none : Option Addr) = none) ∧
      ((none : Option Addr) = none → q1 = ⟨none, none⟩ ∧
        w1.heap = (⟨fun _ => none, []⟩ : World).heap ∧ Rep q1 w1.heap []) ∧
      ((none : Option Addr) ≠ none → r = 0) :=
  ⟨⟨rfl, by simp, rfl⟩, by simp,
    push_failure_atomic false ⟨none, none⟩ ⟨fun _ => none, []⟩ [] 5 none
      ⟨rfl, by simp, rfl⟩ (by simp)⟩

/-- C6, invalid handle.  With a null handle, in either build, `tiny_queue_push` returns -1,
`tiny_queue_pop` returns `NULL`, `tiny_queue_destroy` returns -1 and
`tiny_queue_is_empty` returns 1; heap and call log are left as they were, so no cell is
allocated or freed and no mutex or condition variable call is made. -/
theorem null_handle (WAKE : Bool) (x : Ptr) (new_node : Option Addr)
    (wakeups : List (tiny_queue_t × Heap)) (mutex_destroy_ok cond_destroy_ok : Bool)
    (fuel : Nat) (w : World) :
    tiny_queue_push WAKE none x new_node w = Outcome.ret (-1, none, w) ∧
    tiny_queue_pop WAKE none wakeups w = Outcome.ret (NULL, none, w) ∧
    tiny_queue_destroy WAKE mutex_destroy_ok cond_destroy_ok fuel none w
      = Outcome.ret (-1, none, w) ∧
    tiny_queue_is_empty none = 1 :=
  ⟨rfl, rfl, rfl, rfl⟩

/-- C2, conservation.  Take any run of successful pushes and non-blocking pops on an
initially empty queue.  At every point of the run (after its first `i` calls, for every
`i`) the calls made have all returned, the payloads handed out by the pops followed by
the payloads of the cells still linked are exactly the payloads pushed so far, in push
order: so the pops have handed out at most as many items as there were pushes, and the
queue holds one cell per push not yet handed out.  And when as many pops as the run has
pushes are made after the run, the items handed out by all the pops are exactly the
pushed payloads, each once, and the queue is empty. -/
theorem conservation (w0 : World) (ops : List Op)
    (hfresh : mallocs_fresh false ops ⟨none, none⟩ w0) :
    (∀ i : Nat, ∃ rs q w l,
      run false (ops.take i) ⟨none, none⟩ w0 = Outcome.ret (rs, q, w) ∧ Rep q w.heap l ∧
      items rs ++ l.map Prod.snd = pushed (ops.take i) ∧
      (items rs).length ≤ (pushed (ops.take i)).length ∧
      l.length = (pushed (ops.take i)).length - (items rs).length) ∧
    (∃ rs w, run false (ops ++ List.replicate (pushed ops).length Op.pop) ⟨none, none⟩ w0
        = Outcome.ret (rs, ⟨none, none⟩, w) ∧
      items rs = pushed ops) := by
  have hrep0 : Rep ⟨none, none⟩ w0.heap [] := ⟨rfl, by simp, rfl⟩
  constructor
  · intro i
    obtain ⟨rs, q, w, l, hrun, hrep, heq⟩ :=
      run_conserves (ops.take i) ⟨none, none⟩ w0 [] hrep0
        (mallocs_fresh_take false ops i _ _ hfresh)
    have heq2 : items rs ++ l.map Prod.snd = pushed (ops.take i) := by simpa using heq.symm
    have hlen := congrArg List.length heq2
    simp only [List.length_append, List.length_map] at hlen
    exact ⟨rs, q, w, l, hrun, hrep, heq2, by omega, by omega⟩
  · obtain ⟨rs, q, w, l, hrun, hrep, heq⟩ := run_conserves ops ⟨none, none⟩ w0 [] hrep0 hfresh
    have heq2 : items rs ++ l.map Prod.snd = pushed ops := by simpa using heq.symm
    have hlen := congrArg List.length heq2
    simp only [List.length_append, List.length_map] at hlen
    obtain ⟨wa, hpops, _⟩ := run_pops false l q w hrep
    obtain ⟨wb, hempty, _, _⟩ :=
      run_pops_empty ((pushed ops).length - l.length) ⟨none, none⟩ wa rfl
    have hsplit : List.replicate (pushed ops).length Op.pop
        = List.replicate l.length Op.pop
          ++ List.replicate ((pushed ops).length - l.length) Op.pop := by
      rw [← List.replicate_add]; congr 1; omega
    refine ⟨rs ++ (l.map (fun c => Ret.pop_ret c.2 true)
      ++ List.replicate ((pushed ops).length - l.length) (Ret.pop_ret NULL false)), wb, ?_, ?_⟩
    · rw [hsplit]
      exact run_append false _ _ _ _ _ _ _ _ _ _ hrun
        (run_append false _ _ _ _ _ _ _ _ _ _ hpops hempty)
    · rw [items_append, items_append, items_delivering, items_empty_pops, List.append_nil]
      exact heq2

/-- Witness of `conservation`: push 10, pop, pop, push 20 (`malloc` reusing cell 1),
push 30, pop. -/
theorem conservation_witness :
    mallocs_fresh false [Op.push 10 (some 1), Op.pop, Op.pop, Op.push 20 (some 1),
      Op.push 30 (some 2), Op.pop] ⟨none, none⟩ ⟨fun _ => none, []⟩ ∧
    ∃ rs w, run false ([Op.push 10 (some 1), Op.pop, Op.pop, Op.push 20 (some 1),
        Op.push 30 (some 2), Op.pop] ++ List.replicate 3 Op.pop) ⟨none, none⟩ ⟨fun _ => none, []⟩
        = Outcome.ret (rs, ⟨none, none⟩, w) ∧
      items rs = [10, 20, 30] :=
  ⟨by simp [mallocs_fresh, tiny_queue_push, tiny_queue_pop, pop_unlink, upd],
    (conservation ⟨fun _ => none, []⟩ [Op.push 10 (some 1), Op.pop, Op.pop,
      Op.push 20 (some 1), Op.push 30 (some 2), Op.pop]
      (by simp [mallocs_fresh, tiny_queue_push, tiny_queue_pop, pop_unlink, upd])).2⟩

/-- C4, evaluated at a queue that holds one cell.  After `tiny_queue_create`, one push of
payload 10 (cell 1) and a successful `tiny_queue_destroy`, the only calls made by
destroy are `pthread_mutex_destroy` and `free(queue)`: cell 1 is not freed and is still
live. -/
theorem destroy_one_cell_frees_no_node :
    ∃ rs q w w1,
      run false [Op.push 10 (some 1)] ⟨none, none⟩ ⟨fun _ => none, []⟩
        = Outcome.ret (rs, q, w) ∧
      tiny_queue_destroy false true true 8 (some q) w = Outcome.ret (0, none, w1) ∧
      w1.log = w.log ++ [Event.mutex_destroy true, Event.free_queue] ∧
      Event.free_node 1 ∉ w1.log ∧
      w1.heap 1 = some ⟨10, none⟩ :=
  ⟨_, _, _, _, rfl, rfl, rfl, by decide, rfl⟩

/-- C8, the blocking pop never proceeds on an empty queue.  In the `TINY_QUEUE_WAKE`
build, let the states the pop observes be the one it finds when it takes the lock
followed by the one it finds at each wake-up, whatever they are.  If the pop returns, it
returns the payload `cell.data` of the cell `a` at the head of the first observed state
with a non-null `head`; every state observed before had a null `head` and was answered
by one more `pthread_cond_wait`, and the only cell unlinked and freed is `a`.  The pop
stays suspended exactly when every observed state has a null `head`.  And when some
observed state has a live cell at its `head`, the pop does return that cell's payload. -/
theorem blocking_pop_never_empty (q : tiny_queue_t) (w : World)
    (wakeups : List (tiny_queue_t × Heap)) :
    (∀ p q1 w1, tiny_queue_pop true (some q) wakeups w = Outcome.ret (p, q1, w1) →
      ∃ pre e post a cell, (q, w.heap) :: wakeups = pre ++ e :: post ∧
        (∀ s ∈ pre, s.1.head = none) ∧ e.1.head = some a ∧ e.2 a = some cell ∧
        p = cell.data ∧ w1.heap = upd e.2 a none ∧
        w1.log = w.log ++ [Event.mutex_lock] ++ List.replicate pre.length Event.cond_wait
          ++ [Event.free_node a, Event.mutex_unlock]) ∧
    (tiny_queue_pop true (some q) wakeups w = Outcome.pending ↔
      ∀ s ∈ (q, w.heap) :: wakeups, s.1.head = none) ∧
    (∀ pre e post a cell, (q, w.heap) :: wakeups = pre ++ e :: post →
      (∀ s ∈ pre, s.1.head = none) → e.1.head = some a → e.2 a = some cell →
      ∃ q1 w1, tiny_queue_pop true (some q) wakeups w = Outcome.ret (cell.data, some q1, w1)) := by
  refine ⟨?_, ?_, ?_⟩
  · intro p q1 w1 hret
    rcases wait_loop_cases wakeups q ⟨w.heap, w.log ++ [Event.mutex_lock]⟩ with
      ⟨hp, _⟩ | ⟨pre, e, post, hsplit, hpre, hne, hw⟩
    · simp [tiny_queue_pop, hp] at hret
    · simp only [tiny_queue_pop, if_true, hw] at hret
      cases hh : e.1.head with
      | none => exact absurd hh hne
      | some a =>
        cases hcell : e.2 a with
        | none => simp [pop_unlink, hh, hcell] at hret
        | some cell =>
          simp only [pop_unlink, hh, hcell, Outcome.ret.injEq, Prod.mk.injEq] at hret
          obtain ⟨hp, _, hw1⟩ := hret
          refine ⟨pre, e, post, a, cell, hsplit, hpre, hh, hcell, hp.symm, ?_, ?_⟩
          · rw [← hw1]
          · rw [← hw1]
  · constructor
    · intro hpend
      rcases wait_loop_cases wakeups q ⟨w.heap, w.log ++ [Event.mutex_lock]⟩ with
        ⟨_, hall⟩ | ⟨pre, e, post, _, _, _, hw⟩
      · exact hall
      · simp only [tiny_queue_pop, if_true, hw] at hpend
        exact absurd hpend (pop_unlink_ne_pending _ _)
    · intro hall
      rcases wait_loop_cases wakeups q ⟨w.heap, w.log ++ [Event.mutex_lock]⟩ with
        ⟨hp, _⟩ | ⟨pre, e, post, hsplit, _, hne, _⟩
      · simp [tiny_queue_pop, hp]
      · exfalso
        apply hne
        apply hall e
        show e ∈ (q, w.heap) :: wakeups
        rw [show (q, w.heap) :: wakeups = pre ++ e :: post from hsplit]
        simp
  · intro pre e post a cell hsplit hpre hh hcell
    have hw := wait_loop_of_split pre q ⟨w.heap, w.log ++ [Event.mutex_lock]⟩ wakeups e post
      hsplit hpre (by simp [hh])
    simp only [tiny_queue_pop, if_true, hw, pop_unlink, hh, hcell]
    exact ⟨_, _, rfl⟩

/-- Witness of `blocking_pop_never_empty`: the pop finds the queue empty, is woken once with
the queue still empty, and is woken again when cell 7 with payload 42 is at the head. -/
theorem blocking_pop_never_empty_witness :
    ∃ q1 w1, tiny_queue_pop true (some ⟨none, none⟩)
        [(⟨none, none⟩, fun _ => none),
         (⟨some 7, some 7⟩, fun b => if b = 7 then some ⟨42, none⟩ else none)]
        ⟨fun _ => none, []⟩
      = Outcome.ret (42, some q1, w1) :=
  (blocking_pop_never_empty ⟨none, none⟩ ⟨fun _ => none, []⟩
      [(⟨none, none⟩, fun _ => none),
       (⟨some 7, some 7⟩, fun b => if b = 7 then some ⟨42, none⟩ else none)]).2.2
    [(⟨none, none⟩, fun _ => none), (⟨none, none⟩, fun _ => none)]
    (⟨some 7, some 7⟩, fun b => if b = 7 then some ⟨42, none⟩ else none) [] 7 ⟨42, none⟩
    rfl (by simp) rfl (by simp)

/-- C7, no double delivery.  Let any number of threads call `tiny_queue_pop` and
`tiny_queue_push` concurrently, in either build, on a well-formed queue holding the
cells `l0`, and take any interleaving of their steps in which `malloc` returns null or
an address with no live cell.  Then no step is undefined behaviour; no call unlinks more
than one cell; the payloads of the cells unlinked, in the order they were unlinked,
followed by the payloads of the cells still linked are exactly the payloads of the cells
linked so far, those of `l0` first: every linked cell has been handed to exactly one call
or is still in the queue; a call that returns an item returns the payload of the cell it
unlinked; and two different calls that return an item got two different cells. -/
theorem no_double_delivery (WAKE : Bool) (s0 : Sys) (l0 : List (Addr × Ptr))
    (sched : List (Tid × Option Addr)) (hinit : initial s0 l0)
    (hfresh : sched_fresh WAKE sched s0) :
    (exec WAKE sched s0).ub = false ∧
    ((exec WAKE sched s0).delivered.map Prod.fst).Nodup ∧
    (∃ l ext, Rep (exec WAKE sched s0).q (exec WAKE sched s0).heap l ∧
      (exec WAKE sched s0).linked = l0.map Prod.snd ++ ext ∧
      (exec WAKE sched s0).delivered.map Prod.snd ++ l.map Prod.snd
        = (exec WAKE sched s0).linked) ∧
    (∀ t d, (exec WAKE sched s0).pc t = PC.pop_ret d true →
      (t, d) ∈ (exec WAKE sched s0).delivered) ∧
    (∀ t1 t2 d1 d2, t1 ≠ t2 → (exec WAKE sched s0).pc t1 = PC.pop_ret d1 true →
      (exec WAKE sched s0).pc t2 = PC.pop_ret d2 true →
      ∃ i1 i2 : Nat, i1 ≠ i2 ∧
        (exec WAKE sched s0).delivered[i1]? = some (t1, d1) ∧
        (exec WAKE sched s0).delivered[i2]? = some (t2, d2) ∧
        (exec WAKE sched s0).linked[i1]? = some d1 ∧
        (exec WAKE sched s0).linked[i2]? = some d2) := by
  obtain ⟨l, hinv⟩ := exec_inv WAKE sched s0 l0 (initial_inv s0 l0 hinit) hfresh
  obtain ⟨ext, hext⟩ := exec_linked WAKE sched s0
  have hdel : ∀ t d, (exec WAKE sched s0).pc t = PC.pop_ret d true →
      (t, d) ∈ (exec WAKE sched s0).delivered := by
    intro t d h
    exact hinv.has_delivered t d (by rw [h]; simp [has_unlinked])
  have hlinked : ∀ (i : Nat) (t : Tid) (d : Ptr),
      (exec WAKE sched s0).delivered[i]? = some (t, d) →
      (exec WAKE sched s0).linked[i]? = some d := by
    intro i t d h
    have hi : i < (exec WAKE sched s0).delivered.length := by
      by_contra hge
      rw [List.getElem?_eq_none (by omega)] at h
      cases h
    rw [← hinv.hist, List.getElem?_append_left (by simpa using hi), List.getElem?_map, h]
    rfl
  refine ⟨hinv.no_ub, hinv.calls_nodup, ⟨l, ext, hinv.rep, ?_, hinv.hist⟩, hdel, ?_⟩
  · rw [hext, hinit.2.2.2.1]
  · intro t1 t2 d1 d2 hne h1 h2
    obtain ⟨i1, hi1⟩ := List.getElem?_of_mem (hdel t1 d1 h1)
    obtain ⟨i2, hi2⟩ := List.getElem?_of_mem (hdel t2 d2 h2)
    refine ⟨i1, i2, ?_, hi1, hi2, hlinked i1 t1 d1 hi1, hlinked i2 t2 d2 hi2⟩
    intro e
    rw [e, hi2] at hi1
    simp only [Option.some.injEq, Prod.mk.injEq] at hi1
    exact hne hi1.1.symm

/-- Witness of `no_double_delivery`: two threads pop concurrently from the queue holding
10 and 20; thread 0 is handed the cell with 10, thread 1 the cell with 20. -/
theorem no_double_delivery_witness :
    initial two_cells [(1, 10), (2, 20)] ∧ sched_fresh false two_pops two_cells ∧
    (exec false two_pops two_cells).ub = false ∧
    (exec false two_pops two_cells).delivered = [(0, 10), (1, 20)] ∧
    (exec false two_pops two_cells).pc 0 = PC.pop_ret 10 true ∧
    (exec false two_pops two_cells).pc 1 = PC.pop_ret 20 true ∧
    ((exec false two_pops two_cells).delivered.map Prod.fst).Nodup :=
  have hinit : initial two_cells [(1, 10), (2, 20)] :=
    ⟨⟨⟨rfl, some 2, rfl, rfl, none, rfl, rfl⟩, by decide, rfl⟩, rfl, rfl, rfl, rfl,
      fun _ => Or.inl rfl⟩
  have hfresh : sched_fresh false two_pops two_cells :=
    sched_fresh_of_no_malloc false two_pops (by decide) two_cells
  ⟨hinit, hfresh,
    (no_double_delivery false two_cells [(1, 10), (2, 20)] two_pops hinit hfresh).1,
    by decide, by decide, by decide,
    (no_double_delivery false two_cells [(1, 10), (2, 20)] two_pops hinit hfresh).2.1⟩

/-- C16, the well-formedness invariant.  `Rep q h l` says that following `next` from
`head` visits the cells `l`, each once, and ends at `tail`, whose `next` is null; it
makes `head` null exactly when `tail` is null, exactly when no cell is linked.  The queue
returned by `tiny_queue_create` has it with no cell.  From a queue that has it, in either
build: a successful push gives a queue that has it with the new cell last; a failed push
leaves queue and heap as they are; a non-blocking pop returns and gives a queue that has
it with the first cell, if any, removed; and a blocking pop, the states it finds at its
wake-ups having it, gives a queue that has it whenever it returns. -/
theorem queue_invariant (WAKE : Bool) (q : tiny_queue_t) (w : World)
    (l : List (Addr × Ptr)) (hrep : Rep q w.heap l) :
    ((q.head = none ↔ q.tail = none) ∧ (q.head = none ↔ l = []) ∧
      (q.tail = none ↔ l = []) ∧
      (∀ c, l.getLast? = some c → q.tail = some c.1 ∧ w.heap c.1 = some ⟨c.2, none⟩)) ∧
    (∀ w0, ∃ w1, tiny_queue_create WAKE true true true w0 = (some ⟨none, none⟩, w1) ∧
      Rep ⟨none, none⟩ w1.heap []) ∧
    (∀ x n, w.heap n = none →
      ∃ q1 w1, tiny_queue_push WAKE (some q) x (some n) w = Outcome.ret (0, some q1, w1) ∧
        Rep q1 w1.heap (l ++ [(n, x)])) ∧
    (∀ x, ∃ w1, tiny_queue_push WAKE (some q) x none w = Outcome.ret (-1, some q, w1) ∧
      w1.heap = w.heap ∧ Rep q w1.heap l) ∧
    (∀ wakeups, ∃ p q1 w1,
      tiny_queue_pop false (some q) wakeups w = Outcome.ret (p, some q1, w1) ∧
        Rep q1 w1.heap l.tail) ∧
    (∀ wakeups, (∀ e ∈ wakeups, ∃ le, Rep e.1 e.2 le) →
      ∀ p r w1, tiny_queue_pop true (some q) wakeups w = Outcome.ret (p, r, w1) →
        ∃ q1 l1, r = some q1 ∧ Rep q1 w1.heap l1) := by
  refine ⟨rep_meaning q w.heap l hrep, ?_, ?_, ?_, ?_, ?_⟩
  · intro w0
    obtain ⟨w1, hc, _, hr⟩ := create_rep WAKE w0
    exact ⟨w1, hc, hr⟩
  · intro x n hn
    obtain ⟨q1, w1, hp, hr, _⟩ := push_rep WAKE q w l x n hrep hn
    exact ⟨q1, w1, hp, hr⟩
  · intro x
    exact ⟨⟨w.heap, w.log ++ [Event.malloc_node none]⟩, rfl, rfl, hrep⟩
  · intro wakeups
    cases l with
    | nil =>
      have hh : q.head = none := hrep.1
      exact ⟨NULL, q, _, pop_empty q w wakeups hh, hrep⟩
    | cons c rest =>
      obtain ⟨q1, w1, hp, hr, _⟩ := pop_rep false q w c rest wakeups hrep
      exact ⟨c.2, q1, w1, hp, hr⟩
  · intro wakeups hwake p r w1 hret
    rcases wait_loop_cases wakeups q ⟨w.heap, w.log ++ [Event.mutex_lock]⟩ with
      ⟨hp, _⟩ | ⟨pre, e, post, hsplit, _, hne, hw⟩
    · simp [tiny_queue_pop, hp] at hret
    · simp only [tiny_queue_pop, if_true, hw] at hret
      have hmem : e ∈ (q, w.heap) :: wakeups := by
        rw [show (q, w.heap) :: wakeups = pre ++ e :: post from hsplit]; simp
      obtain ⟨le, hle⟩ : ∃ le, Rep e.1 e.2 le := by
        rcases List.mem_cons.mp hmem with h | h
        · rw [h]; exact ⟨l, hrep⟩
        · exact hwake e h
      cases le with
      | nil => exact absurd hle.1 hne
      | cons c rest =>
        obtain ⟨q1, w2, hun, hr⟩ := pop_unlink_rep e.1
          ⟨e.2, w.log ++ [Event.mutex_lock] ++ List.replicate pre.length Event.cond_wait⟩
          c rest hle
        rw [hun] at hret
        simp only [Outcome.ret.injEq, Prod.mk.injEq] at hret
        obtain ⟨_, hq, hw1⟩ := hret
        exact ⟨q1, rest, hq.symm, hw1 ▸ hr⟩

/-- Witness of `queue_invariant`: the queue holding payload 10 in cell 1. -/
theorem queue_invariant_witness :
    Rep ⟨some 1, some 1⟩
      (⟨fun a => if a = 1 then some ⟨10, none⟩ else none, []⟩ : World).heap [(1, 10)] ∧
    ∃ p q1 w1, tiny_queue_pop false (some ⟨some 1, some 1⟩) []
        ⟨fun a => if a = 1 then some ⟨10, none⟩ else none, []⟩
        = Outcome.ret (p, some q1, w1) ∧ Rep q1 w1.heap [] :=
  have hrep : Rep ⟨some 1, some 1⟩
      (⟨fun a => if a = 1 then some ⟨10, none⟩ else none, []⟩ : World).heap [(1, 10)] :=
    ⟨⟨rfl, none, rfl, rfl⟩, by decide, rfl⟩
  ⟨hrep, (queue_invariant false ⟨some 1, some 1⟩
    ⟨fun a => if a = 1 then some ⟨10, none⟩ else none, []⟩ [(1, 10)] hrep).2.2.2.2.1 []⟩

/-- C17, null-payload ambiguity.  On the empty queue a push of the null payload succeeds,
linking cell 1; the non-blocking pop that follows returns `NULL`, the value the
non-blocking pop returns on the empty queue.  The first pop finds `head` not null and
frees cell 1; the pop on the empty queue frees nothing. -/
theorem null_payload_ambiguity :
    ∃ q1 w1 w2 w3,
      tiny_queue_push false (some ⟨none, none⟩) NULL (some 1) ⟨fun _ => none, []⟩
        = Outcome.ret (0, some q1, w1) ∧
      tiny_queue_pop false (some q1) [] w1 = Outcome.ret (NULL, some ⟨none, none⟩, w2) ∧
      tiny_queue_pop false (some ⟨none, none⟩) [] ⟨fun _ => none, []⟩
        = Outcome.ret (NULL, some ⟨none, none⟩, w3) ∧
      tiny_queue_is_empty (some q1) = 0 ∧ w1.heap 1 = some ⟨NULL, none⟩ ∧
      w2.heap 1 = none ∧ Event.free_node 1 ∈ w2.log ∧
      w3.log = [Event.mutex_lock, Event.mutex_unlock] :=
  ⟨⟨some 1, some 1⟩, _, _, _, rfl, rfl, rfl, rfl, rfl, rfl, by decide, rfl⟩

end TinyQueue

namespace Strbuf

/-! ## The string buffer: C strings and reallocation -/

theorem land_mask (x : Nat) (hx : x < 2 ^ 64) :
    Nat.land x (SIZE_MOD - 1 - (1024 - 1)) = x / 1024 * 1024 := by
  apply Nat.eq_of_testBit_eq
  intro i
  have hm : SIZE_MOD - 1 - (1024 - 1) = 2 ^ 64 - (1023 + 1) := by simp [SIZE_MOD]
  have h1023 : (1023 : Nat) = 2 ^ 10 - 1 := by norm_num
  have hmul : x / 1024 * 1024 = 2 ^ 10 * (x >>> 10) := by
    rw [Nat.shiftRight_eq_div_pow]; norm_num [Nat.mul_comm]
  show (x &&& (SIZE_MOD - 1 - (1024 - 1))).testBit i = _
  rw [Nat.testBit_and, hm, Nat.testBit_two_pow_sub_succ (by norm_num), hmul,
    Nat.testBit_mul_pow_two, Nat.testBit_shiftRight, h1023, Nat.testBit_two_pow_sub_one]
  by_cases h10 : i < 10
  · have : ¬ (i ≥ 10) := by omega
    simp [h10, this]
  · have hge : i ≥ 10 := by omega
    have hadd : 10 + (i - 10) = i := by omega
    by_cases h64 : i < 64
    · simp [h10, hge, h64, hadd]
    · have hlt : x < 2 ^ i := lt_of_lt_of_le hx (Nat.pow_le_pow_right (by norm_num) (by omega))
      simp [h10, hge, h64, hadd, Nat.testBit_lt_two_pow hlt]

theorem nearest_multiple_bounds (n : Nat) (hn : n + 1023 < 2 ^ 64) :
    n ≤ nearest_multiple_of 1024 n ∧ nearest_multiple_of 1024 n ≤ n + 1023 := by
  have hw : wrap (n + (1024 - 1)) = n + 1023 := by
    simp only [wrap, SIZE_MOD]; exact Nat.mod_eq_of_lt hn
  unfold nearest_multiple_of
  rw [hw, land_mask _ hn]
  omega

theorem cstr_no_nul (l : List Byte) : ∀ c ∈ cstr l, c ≠ 0 := by
  intro c hc
  have := List.mem_takeWhile_imp hc
  simpa using this

theorem cstr_append_nul (a r : List Byte) (ha : ∀ c ∈ a, c ≠ 0) : cstr (a ++ 0 :: r) = a := by
  induction a with
  | nil => simp [cstr]
  | cons x a ih =>
    have hx : x ≠ 0 := ha x (List.mem_cons_self _ _)
    have ih2 := ih (fun c hc => ha c (List.mem_cons_of_mem _ hc))
    simp only [cstr] at ih2 ⊢
    rw [List.cons_append, List.takeWhile_cons_of_pos (by simpa using hx)]
    exact congrArg _ ih2

theorem cstr_split (l : List Byte) (h : 0 ∈ l) :
    l = cstr l ++ 0 :: l.drop ((cstr l).length + 1) := by
  induction l with
  | nil => simp at h
  | cons x l ih =>
    by_cases hx : x = 0
    · subst hx; simp [cstr]
    · have hl : 0 ∈ l := by
        rcases List.mem_cons.1 h with h0 | h0
        · exact absurd h0.symm hx
        · exact h0
      have ih2 := ih hl
      simp only [cstr] at ih2 ⊢
      simp only [List.takeWhile_cons, hx, ne_eq, not_false_eq_true, decide_True, if_true,
        List.length_cons, List.drop_succ_cons, List.cons_append]
      exact congrArg _ ih2

/-- A block holds the string `s` at its start when `s`, free of NUL, is followed by a
NUL. -/
theorem cstring_at_zero_iff (block s : List Byte) :
    cstring_at block 0 = some s ↔
      ((∀ c ∈ s, c ≠ 0) ∧ block = s ++ 0 :: block.drop (s.length + 1)) := by
  constructor
  · intro h
    unfold cstring_at at h
    rw [List.drop_zero] at h
    split at h
    · rename_i h0
      have hs : cstr block = s := Option.some.inj h
      rw [← hs]
      exact ⟨cstr_no_nul block, cstr_split block h0⟩
    · exact absurd h (by simp)
  · rintro ⟨hs, hb⟩
    unfold cstring_at
    rw [List.drop_zero]
    have h0 : 0 ∈ block := by rw [hb]; simp
    rw [if_pos h0, hb, cstr_append_nul _ _ hs]

theorem cstr_take_length (src : List Byte) : (cstr src).take (cstr src).length = cstr src :=
  List.take_length _

/-- The call `strncat(block, src, strlen(src))` on a block that holds `s` at its start and
has room for the characters of `src` and a NUL. -/
theorem strncat_spec (block s src : List Byte) (hs : cstring_at block 0 = some s)
    (hroom : s.length + (cstr src).length < block.length) :
    ∃ out, strncat block 0 src (cstr src).length = some out ∧
      cstring_at out 0 = some (s ++ cstr src) ∧ out.length = block.length := by
  have hsplit := (cstring_at_zero_iff block s).1 hs
  have htake : block.take s.length = s := by
    conv_lhs => rw [hsplit.2]
    simp
  unfold strncat strlen_at
  rw [hs]
  simp only [Option.map_some', cstr_take_length, Nat.zero_add]
  rw [if_pos hroom, htake]
  refine ⟨_, rfl, ?_, ?_⟩
  · rw [cstring_at_zero_iff]
    refine ⟨?_, ?_⟩
    · intro c hc
      rcases List.mem_append.1 hc with h | h
      · exact hsplit.1 c h
      · exact cstr_no_nul src c h
    · have hpre : (s ++ cstr src ++ [0]).length = (s ++ cstr src).length + 1 := by
        simp only [List.length_append, List.length_singleton]
      rw [List.drop_left' hpre]
      simp
  · have hl : s.length ≤ block.length := by omega
    simp [List.length_take, List.length_drop, Nat.min_eq_left hl]
    omega

theorem take_of_holds (block s : List Byte) (hs : cstring_at block 0 = some s) :
    (∀ c ∈ s, c ≠ 0) ∧ block.take (s.length + 1) = s ++ [0] := by
  have h := (cstring_at_zero_iff block s).1 hs
  refine ⟨h.1, ?_⟩
  have hpre : (s ++ [0]).length = s.length + 1 := by
    simp only [List.length_append, List.length_singleton]
  conv_lhs => rw [h.2]
  rw [show s ++ 0 :: List.drop (s.length + 1) block = (s ++ [0]) ++ List.drop (s.length + 1) block
    by simp, List.take_left' hpre]

theorem holds_of_take (block s : List Byte) (hs : ∀ c ∈ s, c ≠ 0)
    (ht : block.take (s.length + 1) = s ++ [0]) : cstring_at block 0 = some s := by
  rw [cstring_at_zero_iff]
  refine ⟨hs, ?_⟩
  have h := (List.take_append_drop (s.length + 1) block).symm
  rw [ht] at h
  simpa using h

theorem take_realloc_set (old : List Byte) (junk : Nat → Byte) (L m : Nat)
    (hm : m ≤ old.length) (hL : m ≤ L) :
    (((List.range (L + 1)).map (fun i => old.getD i (junk i))).set L 0).take m
      = old.take m := by
  apply List.ext_getElem?
  intro i
  by_cases hi : i < m
  · have hne : L ≠ i := by omega
    have hio : i < old.length := by omega
    have hir : i < L + 1 := by omega
    rw [List.getElem?_take_of_lt hi, List.getElem?_take_of_lt hi, List.getElem?_set_ne hne,
      List.getElem?_map, List.getElem?_range hir]
    simp [List.getD_eq_getElem?_getD, List.getElem?_eq_getElem hio]
  · rw [List.getElem?_take_eq_none (by omega), List.getElem?_take_eq_none (by omega)]

theorem length_of_holds (block s : List Byte) (hs : cstring_at block 0 = some s) :
    s.length + 1 ≤ block.length := by
  have h := congrArg List.length (take_of_holds block s hs).2
  rw [List.length_take, List.length_append, List.length_singleton] at h
  omega

theorem strbuf_resize_denied (junk : Nat → Byte) (b : strbuf_t) (n : Nat) :
    strbuf_resize false junk (some b) n = Outcome.ret (-1, some b) := by
  simp [strbuf_resize, realloc]

/-- A granted `strbuf_resize(self, n)` of a buffer whose block starts with the string `s`,
shorter than `n`: the new block has `len + 1` bytes and starts with `s`, and `data` is the
start of the block. -/
theorem strbuf_resize_granted (junk : Nat → Byte) (b : strbuf_t) (s : List Byte) (n : Nat)
    (hs : cstring_at b.alloc 0 = some s) (hn : n + 1024 ≤ PTRDIFF_MAX) (hsn : s.length < n) :
    ∃ T, strbuf_resize true junk (some b) n
        = Outcome.ret (0, some ⟨nearest_multiple_of 1024 n, T, 0⟩) ∧
      T.length = nearest_multiple_of 1024 n + 1 ∧ cstring_at T 0 = some s := by
  have hP : PTRDIFF_MAX = 2 ^ 63 - 1 := rfl
  have hb := nearest_multiple_bounds n (by rw [hP] at hn; omega)
  generalize hL : nearest_multiple_of 1024 n = L at hb
  have hw : wrap (L + 1) = L + 1 := by
    simp only [wrap, SIZE_MOD]; exact Nat.mod_eq_of_lt (by rw [hP] at hn; omega)
  have hle : L + 1 ≤ PTRDIFF_MAX := by omega
  have hlen : ((List.range (L + 1)).map (fun i => b.alloc.getD i (junk i))).length = L + 1 := by
    simp
  refine ⟨((List.range (L + 1)).map (fun i => b.alloc.getD i (junk i))).set L 0, ?_, ?_, ?_⟩
  · simp only [strbuf_resize, hL, hw, realloc, Bool.true_and, decide_eq_true_eq, if_pos hle,
      store, hlen, if_pos (Nat.lt_succ_self L)]
  · simp
  · have ht := take_of_holds b.alloc s hs
    refine holds_of_take _ s ht.1 ?_
    rw [take_realloc_set b.alloc junk L (s.length + 1) (length_of_holds _ _ hs) (by omega)]
    exact ht.2

/-- On a buffer that was never trimmed at the left (`data == alloc`, block of `len + 1`
bytes) `strbuf_append` does what it says: it fails only when the block must grow and
`realloc` returns null, the buffer being untouched, and otherwise returns 0 with the string
`s` followed by `str` in a buffer of the same shape. -/
theorem strbuf_append_untrimmed (ok : Bool) (junk : Nat → Byte) (b : strbuf_t)
    (s bytes : List Byte) (hdata : b.data = 0) (hlen : b.alloc.length = b.len + 1)
    (hs : strbuf_string b = Outcome.ret s) (hne : cstr bytes ≠ [])
    (hsmall : (cstr bytes).length + b.len + 1024 ≤ PTRDIFF_MAX) :
    (ok = false ∧ b.len ≤ (cstr bytes).length + s.length ∧
      strbuf_append ok junk (some b) (some bytes) = Outcome.ret (-1, some b)) ∨
    ∃ b2, strbuf_append ok junk (some b) (some bytes) = Outcome.ret (0, some b2) ∧
      strbuf_string b2 = Outcome.ret (s ++ cstr bytes) ∧
      b2.data = 0 ∧ b2.alloc.length = b2.len + 1 := by
  have hP : PTRDIFF_MAX = 2 ^ 63 - 1 := rfl
  have hs0 : cstring_at b.alloc 0 = some s := by
    unfold strbuf_string at hs
    rw [hdata] at hs
    cases hc : cstring_at b.alloc 0 with
    | none => rw [hc] at hs; exact absurd hs (by simp)
    | some t => rw [hc] at hs; exact congrArg some (Outcome.ret.inj hs)
  have hk : (cstr bytes).length ≠ 0 := fun h => hne (List.length_eq_zero.1 h)
  have hsl := length_of_holds _ _ hs0
  have hw : wrap ((cstr bytes).length + s.length) = (cstr bytes).length + s.length := by
    simp only [wrap, SIZE_MOD]; exact Nat.mod_eq_of_lt (by rw [hP] at hsmall; omega)
  have hstr : strlen_at b.alloc 0 = some s.length := by simp [strlen_at, hs0]
  unfold strbuf_append strbuf_append_n
  simp only [if_neg hk, hdata, hstr, hw]
  by_cases hroom : b.len > (cstr bytes).length + s.length
  · right
    obtain ⟨out, hcat, hout, holen⟩ := strncat_spec b.alloc s bytes hs0 (by omega)
    rw [if_pos hroom, hcat]
    refine ⟨_, rfl, ?_, rfl, ?_⟩
    · simp only [strbuf_string, hdata, hout]
    · simp only [holen, hlen]
  · rw [if_neg hroom]
    cases ok with
    | false =>
      left
      refine ⟨rfl, by omega, ?_⟩
      rw [strbuf_resize_denied]
      simp
    | true =>
      right
      obtain ⟨T, hres, hTl, hT⟩ := strbuf_resize_granted junk b s
        ((cstr bytes).length + s.length) hs0 (by omega) (by omega)
      have hb := nearest_multiple_bounds ((cstr bytes).length + s.length)
        (by rw [hP] at hsmall; omega)
      obtain ⟨out, hcat, hout, holen⟩ := strncat_spec T s bytes hT (by omega)
      rw [hres]
      simp only [hcat]
      refine ⟨_, by simp; rfl, ?_, rfl, ?_⟩
      · simp only [strbuf_string, hout]
      · simp only [holen, hTl]

/-- The rejections of `strbuf_append` that the code does make: a null buffer and an empty
`str` return -1, nothing being changed. -/
theorem strbuf_append_rejects (ok : Bool) (junk : Nat → Byte) (b : strbuf_t)
    (bytes : List Byte) :
    strbuf_append ok junk none (some bytes) = Outcome.ret (-1, none) ∧
    (cstr bytes = [] →
      strbuf_append ok junk (some b) (some bytes) = Outcome.ret (-1, some b)) := by
  refine ⟨rfl, ?_⟩
  intro h
  simp [strbuf_append, strbuf_append_n, h]

/-- An instance of `strbuf_append_untrimmed`: "b" appended to the untrimmed buffer made
from " a". -/
theorem strbuf_append_untrimmed_example :
    ∃ b2, strbuf_append true (fun _ => 0) (some ⟨2, [32, 97, 0], 0⟩) (some [98])
        = Outcome.ret (0, some b2) ∧
      strbuf_string b2 = Outcome.ret [32, 97, 98] ∧ b2.data = 0 ∧
      b2.alloc.length = b2.len + 1 := by
  rcases strbuf_append_untrimmed true (fun _ => 0) ⟨2, [32, 97, 0], 0⟩ [32, 97] [98] rfl rfl
    (by decide) (by decide) (by decide) with h | h
  · exact absurd h.1 (by decide)
  · exact h

/-! ## Properties of the string buffer -/

set_option maxRecDepth 100000 in
/-- C15, evaluated after `strbuf_ltrim`.  The buffer made from the string " a" (a blank,
then `a`) holds "a" after `strbuf_ltrim`.  Appending "b" returns 0, and the buffer then
holds " ab", not "ab": `strbuf_resize` has put `data` back at the start of the block.
With the buffer made from two blanks and `a`, the append after `strbuf_ltrim` finds
`len` large enough and writes behind the block.  And `strbuf_append` with a null `str`
calls `strlen` on it. -/
theorem strbuf_append_after_ltrim :
    strbuf_new_with_string true true (some [32, 97])
      = Outcome.ret (some ⟨2, [32, 97, 0], 0⟩) ∧
    strbuf_ltrim (some ⟨2, [32, 97, 0], 0⟩) none = Outcome.ret (some ⟨2, [32, 97, 0], 1⟩) ∧
    strbuf_string ⟨2, [32, 97, 0], 1⟩ = Outcome.ret [97] ∧
    (∃ b2, strbuf_append true (fun _ => 0) (some ⟨2, [32, 97, 0], 1⟩) (some [98])
        = Outcome.ret (0, some b2) ∧
      strbuf_string b2 = Outcome.ret [32, 97, 98]) ∧
    strbuf_new_with_string true true (some [32, 32, 97])
      = Outcome.ret (some ⟨3, [32, 32, 97, 0], 0⟩) ∧
    strbuf_ltrim (some ⟨3, [32, 32, 97, 0], 0⟩) none
      = Outcome.ret (some ⟨3, [32, 32, 97, 0], 2⟩) ∧
    strbuf_append true (fun _ => 0) (some ⟨3, [32, 32, 97, 0], 2⟩) (some [98])
      = Outcome.ub ∧
    strbuf_append true (fun _ => 0) (some ⟨2, [32, 97, 0], 0⟩) none = Outcome.ub :=
  ⟨by decide, by decide, by decide, ⟨_, rfl, rfl⟩, by decide, by decide, by decide, rfl⟩

end Strbuf
